import Mathlib

/-!
Verification development for the nacaddr prefix-collection library
(capirca/lib/nacaddr.py).

The Python code manipulates annotated network prefixes: subclasses of the
standard ipaddress IPv4Network and IPv6Network classes that additionally
carry a free-text comment (field text), a provenance token (field token)
and its copy (field parent_token).  The two subclasses IPv4 and IPv6 have
byte-for-byte identical method bodies, so both are embedded by one Lean
structure AnnIP whose version field (4 or 6) discriminates the family.

Machine integers do not occur: Python integers are unbounded, and all
address arithmetic on canonical prefixes stays below 2 to the width.
Network values constructed by the ipaddress library are always canonical
(the host bits of network_address are zero and the prefix length is at
most the address width); the predicate Canon captures exactly the values
the Python classes can hold, and appears as a hypothesis of theorems that
need it.
-/

namespace Nacaddr

/-- An annotated network prefix: the data carried by the nacaddr IPv4 and
IPv6 objects.  version is 4 or 6, addr is the integer value of
network_address, plen is the prefix length, text the comment, token the
provenance label, parentToken its copy made by the constructor. -/
structure AnnIP where
  version : Nat
  addr : Nat
  plen : Nat
  text : String
  token : String
  parentToken : String
deriving DecidableEq, Repr

/-- Address width of a version: 32 bits for version 4, 128 for version 6. -/
def width (version : Nat) : Nat := if version = 4 then 32 else 128

/-- Number of addresses covered by a prefix: 2 to the host-bit count. -/
def numAddrs (p : AnnIP) : Nat := 2 ^ (width p.version - p.plen)

/-- Integer value of broadcast_address: the last address of the prefix. -/
def bcast (p : AnnIP) : Nat := p.addr + numAddrs p - 1

/-- Integer value of netmask for the prefix length. -/
def netmask (p : AnnIP) : Nat := 2 ^ width p.version - 2 ^ (width p.version - p.plen)

/-- The values an ipaddress network object can actually hold: a known
version, a prefix length within the width, an address below 2 to the
width whose host bits are zero. -/
def Canon (p : AnnIP) : Prop :=
  (p.version = 4 ∨ p.version = 6) ∧ p.plen ≤ width p.version ∧
    p.addr < 2 ^ width p.version ∧ p.addr % 2 ^ (width p.version - p.plen) = 0

instance (p : AnnIP) : Decidable (Canon p) := by
  unfold Canon; infer_instance

/-- ipaddress _is_subnet_of a b: b.network_address less-or-equal
a.network_address and a.broadcast_address less-or-equal
b.broadcast_address.  subnet_of in nacaddr first returns False when the
versions differ. -/
def subnetOfB (a b : AnnIP) : Bool :=
  a.version == b.version && decide (b.addr ≤ a.addr) && decide (bcast a ≤ bcast b)

/-- nacaddr supernet_of: version check, then _is_subnet_of other self. -/
def supernetOfB (a b : AnnIP) : Bool :=
  a.version == b.version && decide (a.addr ≤ b.addr) && decide (bcast b ≤ bcast a)

/-- Python equality of network objects (version, network_address and
netmask; comments and tokens are ignored). -/
def netEqB (a b : AnnIP) : Bool :=
  a.version == b.version && a.addr == b.addr && netmask a == netmask b

/-- ipaddress contains-test of an address (given as version and integer)
in a network; False across versions. -/
def containsAddrB (p : AnnIP) (version a : Nat) : Bool :=
  p.version == version && decide (p.addr ≤ a) && decide (a ≤ bcast p)

/-- ipaddress overlaps: either network's first or last address lies in
the other. -/
def overlapsB (a b : AnnIP) : Bool :=
  containsAddrB a b.version b.addr || containsAddrB a b.version (bcast b) ||
    containsAddrB b a.version a.addr || containsAddrB b a.version (bcast a)

/-- The sort key _get_networks_key and get_mixed_type_key: the tuple
(version, network_address, netmask), compared lexicographically. -/
def keyLtB (a b : AnnIP) : Bool :=
  decide (a.version < b.version) ||
    (a.version == b.version &&
      (decide (a.addr < b.addr) ||
        (a.addr == b.addr && decide (netmask a < netmask b))))

/-- Non-strict version of the network-key order. -/
def keyLeB (a b : AnnIP) : Bool :=
  keyLtB a b || (a.version == b.version && a.addr == b.addr && netmask a == netmask b)

/-- Python substring test needle in haystack, on the underlying character
lists: some tail of the haystack starts with the needle. -/
def charsInfixB (needle hay : List Char) : Bool :=
  hay.tails.any fun t => needle.isPrefixOf t

/-- Python substring test on strings. -/
def pyInStr (needle hay : String) : Bool := charsInfixB needle.data hay.data

/-- AddComment (identical in IPv4 and IPv6): when the existing comment is
empty, set it to the new comment; otherwise append the new comment after
a comma exactly when it is non-empty and not already a substring. -/
def AddComment (p : AnnIP) (comment : String) : AnnIP :=
  if p.text = "" then { p with text := comment }
  else if comment ≠ "" ∧ pyInStr comment p.text = false then
    { p with text := p.text ++ ", " ++ comment }
  else p

/-- The PrefixlenDiffInvalidError raised by supernet, recording the data
interpolated into its message. -/
structure PrefixlenDiffInvalidData where
  prefixlen : Nat
  prefixlenDiff : Nat
deriving DecidableEq, Repr

/-- nacaddr supernet (identical in IPv4 and IPv6): when the prefix length
is 0 the object itself is returned; when prefixlen minus prefixlen_diff
is negative the error is raised; otherwise a new object with the shorter
prefix length and masked address, carrying the comment and token forward
(the constructor copies token into parent_token). -/
def supernetE (p : AnnIP) (prefixlenDiff : Nat) : Except PrefixlenDiffInvalidData AnnIP :=
  if p.plen = 0 then Except.ok p
  else if (p.plen : Int) - (prefixlenDiff : Int) < 0 then
    Except.error ⟨p.plen, prefixlenDiff⟩
  else
    Except.ok
      { version := p.version
        addr := p.addr - p.addr % 2 ^ (width p.version - (p.plen - prefixlenDiff))
        plen := p.plen - prefixlenDiff
        text := p.text
        token := p.token
        parentToken := p.token }

/-- supernet with the default prefixlen_diff of 1, which can never raise:
with plen = 0 the object itself is returned, otherwise plen - 1 is not
negative.  Used by the collapser via the Supernet alias. -/
def Supernet1 (p : AnnIP) : AnnIP :=
  match supernetE p 1 with
  | Except.ok q => q
  | Except.error _ => p

/-- One step of stable insertion: place x before the first element y
with le x y true. -/
def insertSortedB (le : AnnIP → AnnIP → Bool) (x : AnnIP) : List AnnIP → List AnnIP
  | [] => [x]
  | y :: ys => if le x y then x :: y :: ys else y :: insertSortedB le x ys

/-- Stable sort by a total boolean preorder, modelling Python sorted:
elements with equal keys keep their input order when le is reflexive on
equal keys. -/
def sortByB (le : AnnIP → AnnIP → Bool) : List AnnIP → List AnnIP
  | [] => []
  | x :: xs => insertSortedB le x (sortByB le xs)

/-- Strict lexicographic order on character lists by code point, the
order Python uses on strings. -/
def charsLtB : List Char → List Char → Bool
  | [], [] => false
  | [], _ :: _ => true
  | _ :: _, [] => false
  | a :: as, b :: bs =>
    if a.val < b.val then true else if b.val < a.val then false else charsLtB as bs

/-- Python string comparison. -/
def strLtB (a b : String) : Bool := charsLtB a.data b.data

/-- _SafeToMerge: address is the prefix being merged away, merge_target
the one absorbing it, check_addresses the complement map keyed by
(version, network_address) as Python dict keys of address objects are.
Unsafe exactly when some complement at the address key has a netmask
between the two. -/
def SafeToMerge (address mergeTarget : AnnIP)
    (checkAddresses : Nat × Nat → List AnnIP) : Bool :=
  (checkAddresses (address.version, address.addr)).all fun checkAddress =>
    !(decide (netmask mergeTarget ≤ netmask checkAddress) &&
      decide (netmask checkAddress < netmask address))

/-- A cell of the doubly linked list used by _CollapseAddrListInternal.
Cells live in a fixed arena indexed by position; next and prev hold arena
indices.  val is the object currently bound to the cell.  orig is ghost
instrumentation recording which input object the cell's val aliases (the
Python objects are mutated in place); it becomes none when the cell is
rebound to a freshly created supernet object. -/
structure LNode where
  next : Option Nat
  prev : Option Nat
  val : AnnIP
  orig : Option Nat
deriving DecidableEq, Repr

/-- Placeholder value for out-of-range arena reads (never hit on the
states the algorithm reaches). -/
def annDefault : AnnIP := ⟨4, 0, 0, "", "", ""⟩

instance : Inhabited AnnIP := ⟨annDefault⟩

instance : Inhabited LNode := ⟨⟨none, none, annDefault, none⟩⟩

/-- State of one _CollapseAddrListInternal invocation: the arena of list
cells, the work deque of cell indices (front first), and the ghost record
of the current values of the caller's input objects. -/
structure CSt where
  nodes : List LNode
  fringe : List Nat
  finals : List AnnIP
deriving DecidableEq, Repr

/-- Arena read. -/
def getNode (s : CSt) (i : Nat) : LNode := s.nodes.getD i default

/-- Arena write. -/
def setNode (s : CSt) (a : Nat) (nd : LNode) : CSt := { s with nodes := s.nodes.set a nd }

/-- Clear both links of a cell (the detachment part of RemoveNext). -/
def clearCell (s : CSt) (j : Nat) : CSt :=
  setNode s j { getNode s j with next := none, prev := none }

/-- Overwrite the next link of a cell. -/
def setNextCell (s : CSt) (i : Nat) (nx : Option Nat) : CSt :=
  setNode s i { getNode s i with next := nx }

/-- Overwrite the prev link of a cell. -/
def setPrevCell (s : CSt) (k : Nat) (pv : Option Nat) : CSt :=
  setNode s k { getNode s k with prev := pv }

/-- Models the Python statement node.val.AddComment(c): the object bound
to cell i is mutated, so the ghost record of the aliased input object (if
any) is updated with it. -/
def mutComment (s : CSt) (i : Nat) (c : String) : CSt :=
  { setNode s i { getNode s i with val := AddComment (getNode s i).val c } with
    finals :=
      match (getNode s i).orig with
      | some k => s.finals.set k (AddComment (getNode s i).val c)
      | none => s.finals }

/-- Models cur.RemoveNext(): read new_next, detach the successor cell j,
relink cell i to new_next, and point new_next back at i when present. -/
def removeNext (s : CSt) (i : Nat) : CSt :=
  match (getNode s i).next with
  | none => s
  | some j =>
    match (getNode s j).next with
    | none => setNextCell (clearCell s j) i none
    | some k => setPrevCell (setNextCell (clearCell s j) i (some k)) k (some i)

/-- Models cur.val = cur_ip.Supernet(): the cell is rebound to a freshly
constructed supernet object, so it no longer aliases any input object. -/
def rebindSupernet (s : CSt) (i : Nat) : CSt :=
  setNode s i { getNode s i with val := Supernet1 (getNode s i).val, orig := none }

/-- fringe.appendleft(c). -/
def pushFront (s : CSt) (c : Nat) : CSt := { s with fringe := c :: s.fringe }

/-- The re-enqueue of cur.prev after a sibling merge: when cell c has a
predecessor, append it at the back of the fringe. -/
def enqueuePrev (s : CSt) (c : Nat) : CSt :=
  match (getNode s c).prev with
  | none => s
  | some p => { s with fringe := s.fringe ++ [p] }

/-- The sibling-merge guard of the collapser: equal version and prefix
length, exact numeric adjacency, and alignment of cur on its own
supernet. -/
def sibGuardB (p q : AnnIP) : Bool :=
  p.version == q.version && p.plen == q.plen && (bcast p + 1 == q.addr) &&
    ((Supernet1 p).addr == p.addr)

/-- The body of the while-loop of _CollapseAddrListInternal for the cell
index c just popped from the front of the fringe (s.fringe is already the
remaining deque).  Returns the state after the iteration: nothing on a
detached or tail cell or a merge vetoed by the safety oracle; comment
transfer, unlink and re-enqueue of c on containment; additionally the
supernet rebinding and the predecessor re-enqueue on a sibling merge.
All guards read the state before any mutation, as the source does. -/
def collapseStep (comps : Nat × Nat → List AnnIP) (s : CSt) (c : Nat) : CSt :=
  match (getNode s c).next with
  | none => s
  | some j =>
    if SafeToMerge (getNode s j).val (getNode s c).val comps = false then s
    else if supernetOfB (getNode s c).val (getNode s j).val then
      pushFront (removeNext (mutComment s c (getNode s j).val.text) c) c
    else if sibGuardB (getNode s c).val (getNode s j).val then
      enqueuePrev
        (pushFront (rebindSupernet (removeNext (mutComment s c (getNode s j).val.text) c) c) c) c
    else s

/-- The while-loop, driven by explicit fuel.  One unit of fuel is spent
per iteration; the fuel passed by the entry point provably exceeds the
number of iterations the loop can make, so the cut-off is never hit. -/
def collapseLoop (comps : Nat × Nat → List AnnIP) : Nat → CSt → CSt
  | 0, s => s
  | fuel + 1, s =>
    match s.fringe with
    | [] => s
    | c :: rest => collapseLoop comps fuel (collapseStep comps { s with fringe := rest } c)

/-- The initial arena: cell i holds the i-th input object, linked to its
neighbours. -/
def buildNodes (addresses : List AnnIP) : List LNode :=
  (List.range addresses.length).map fun i =>
    { next := if i + 1 < addresses.length then some (i + 1) else none
      prev := if i = 0 then none else some (i - 1)
      val := addresses.getD i default
      orig := some i }

/-- The initial state: every cell is seeded into the fringe in order, and
the ghost record starts as the input values themselves. -/
def initState (addresses : List AnnIP) : CSt :=
  { nodes := buildNodes addresses
    fringe := List.range addresses.length
    finals := addresses }

/-- Reading the surviving chain head to tail, from the head cell 0 (the
head is never removed: RemoveNext always removes a cell with a
predecessor).  Fuel bounds the walk; the arena size is always enough. -/
def walkChain (s : CSt) : Nat → Option Nat → List AnnIP
  | _, none => []
  | 0, some _ => []
  | fuel + 1, some i => (getNode s i).val :: walkChain s fuel (getNode s i).next

/-- _CollapseAddrListInternal: empty input is returned as is, otherwise
the worklist runs to its fixed point and the surviving chain is read
out. -/
def CollapseAddrListInternal (addresses : List AnnIP)
    (comps : Nat × Nat → List AnnIP) : List AnnIP :=
  match addresses with
  | [] => []
  | _ :: _ =>
    let s := collapseLoop comps (3 * addresses.length + 1) (initState addresses)
    walkChain s addresses.length (some 0)

/-- The complement dictionary built by CollapseAddrList: complements
whose network_address (as a version-tagged key, matching Python dict keys
of address objects) occurs among the input addresses, grouped by that
key; all other keys give the empty list, as dict get with default
does. -/
def compsDict (addresses complementAddresses : List AnnIP) : Nat × Nat → List AnnIP :=
  fun k =>
    if addresses.any (fun a => (a.version, a.addr) == k) then
      complementAddresses.filter fun ca => (ca.version, ca.addr) == k
    else []

/-- CollapseAddrList: sort by the mixed-type network key, build the
complement dictionary, and run the internal collapser.  The Python
default complement_addresses=None is the empty list here. -/
def CollapseAddrList (addresses complementAddresses : List AnnIP) : List AnnIP :=
  CollapseAddrListInternal (sortByB keyLeB addresses) (compsDict addresses complementAddresses)

/-- The final ghost record of a CollapseAddrList call: the values of the
caller's input objects (in sorted order) after the call returns.
Python mutates those objects in place; this exposes the mutation. -/
def CollapseAddrListFinals (addresses complementAddresses : List AnnIP) : List AnnIP :=
  (collapseLoop (compsDict addresses complementAddresses)
      (3 * (sortByB keyLeB addresses).length + 1)
      (initState (sortByB keyLeB addresses))).finals

/-- _InNetList: is ip a subnet of some member of adders. -/
def InNetList (adders : List AnnIP) (ip : AnnIP) : Bool :=
  adders.any fun addr => subnetOfB ip addr

/-- IsSuperNet: every subnet is contained in some supernet member. -/
def IsSuperNet (supernets subnets : List AnnIP) : Bool :=
  subnets.all fun net => InNetList supernets net

/-- Accumulating pass of the consecutive grouping: t is the token of the
run being collected, acc its members so far in reverse. -/
def groupRunsAux : List AnnIP → String → List AnnIP → List (List AnnIP)
  | [], _, acc => [acc.reverse]
  | x :: xs, t, acc =>
    if x.parentToken = t then groupRunsAux xs t (x :: acc)
    else acc.reverse :: groupRunsAux xs x.parentToken [x]

/-- itertools.groupby on parentToken: maximal consecutive runs with equal
parentToken, in order. -/
def groupRuns : List AnnIP → List (List AnnIP)
  | [] => []
  | x :: xs => groupRunsAux xs x.parentToken [x]

/-- The inner scan of the dedup pass of CollapseAddrListPreserveTokens,
with structural fuel: walk dedup_array from index k; on the first
accepted partition consuming ip stop with to_add false; delete any
accepted partition consumed by ip and then step the index (so the
element sliding into the deleted slot is skipped, as in the source).
Returns (to_add, new dedup_array).  The index grows by one per step
while the array never grows, so fuel length - k + 1 always reaches the
exit condition before running out. -/
def dedupScanF (ip : List AnnIP) : Nat → List (List AnnIP) → Nat → Bool × List (List AnnIP)
  | 0, dedup, _ => (true, dedup)
  | fuel + 1, dedup, k =>
    if k < dedup.length then
      if IsSuperNet (dedup.getD k []) ip then (false, dedup)
      else if IsSuperNet ip (dedup.getD k []) then dedupScanF ip fuel (dedup.eraseIdx k) (k + 1)
      else dedupScanF ip fuel dedup (k + 1)
    else (true, dedup)

/-- The inner scan started at index k with sufficient fuel. -/
def dedupScan (ip : List AnnIP) (dedup : List (List AnnIP)) (k : Nat) :
    Bool × List (List AnnIP) :=
  dedupScanF ip (dedup.length + 1 - k) dedup k

/-- The outer dedup loop: pop partitions from the front and accumulate
accepted ones at the back. -/
def dedupLoop : List (List AnnIP) → List (List AnnIP) → List (List AnnIP)
  | [], dedup => dedup
  | ip :: rest, dedup =>
    let r := dedupScan ip dedup 0
    dedupLoop rest (if r.1 then r.2 ++ [ip] else r.2)

/-- Ascending stable order on parentToken (Python sorted with a string
key). -/
def tokenLeB (a b : AnnIP) : Bool := !(strLtB b.parentToken a.parentToken)

/-- CollapseAddrListPreserveTokens: sort by parentToken, collapse each
token run independently (no complements), then run the partition-level
dedup and flatten. -/
def CollapseAddrListPreserveTokens (addresses : List AnnIP) : List AnnIP :=
  let retArray := (groupRuns (sortByB tokenLeB addresses)).map fun g => CollapseAddrList g []
  (dedupLoop retArray []).flatten

/-- A nacaddr object freshly built by IP(x) from a bare network value:
empty comment and token. -/
def mkIP (version addr plen : Nat) : AnnIP := ⟨version, addr, plen, "", "", ""⟩

/-- ipaddress subnets(): the two halves of a prefix, one bit longer.  The
constructor used is the nacaddr subclass with default comment and token,
so the halves carry empty metadata. -/
def subnetsPair (p : AnnIP) : AnnIP × AnnIP :=
  (mkIP p.version p.addr (p.plen + 1),
   mkIP p.version (p.addr + 2 ^ (width p.version - (p.plen + 1))) (p.plen + 1))

/-- The generator loop of ipaddress address_exclude: descend from the two
halves of the enclosing prefix towards other, yielding the sibling of the
half containing other at each level.  The final empty-list branch is the
AssertionError branch of CPython, unreachable when other is a strict
canonical subnet of the starting prefix; the fuel (one address width)
likewise always suffices there. -/
def addressExcludeLoop (other : AnnIP) : AnnIP → AnnIP → Nat → List AnnIP
  | _, _, 0 => []
  | s1, s2, fuel + 1 =>
    if netEqB s1 other then [s2]
    else if netEqB s2 other then [s1]
    else if subnetOfB other s1 then
      s2 :: addressExcludeLoop other (subnetsPair s1).1 (subnetsPair s1).2 fuel
    else if subnetOfB other s2 then
      s1 :: addressExcludeLoop other (subnetsPair s2).1 (subnetsPair s2).2 fuel
    else []

/-- ipaddress address_exclude p other under the preconditions of its only
call site (other a subnet of p of the same version, not equal): the
minimal complementary blocks of p minus other, outermost first. -/
def addressExclude (p other : AnnIP) : List AnnIP :=
  if netEqB other p then []
  else addressExcludeLoop other (subnetsPair p).1 (subnetsPair p).2 (width p.version)

/-- The accumulation pass of RemoveAddressFromList, before sorting. -/
def removeAux (exclude : AnnIP) : List AnnIP → List AnnIP
  | [] => []
  | addr :: rest =>
    if netEqB exclude addr || subnetOfB addr exclude then removeAux exclude rest
    else if exclude.version == addr.version && subnetOfB exclude addr then
      ((addressExclude addr exclude).map fun x => mkIP x.version x.addr x.plen) ++
        removeAux exclude rest
    else addr :: removeAux exclude rest

/-- RemoveAddressFromList: drop members covered by exclude, split members
strictly containing it via address_exclude (rewrapped by IP(x), hence
with empty comment and token), keep the rest; return sorted.  The plain
Python sort on network objects compares (version, address, netmask),
which the network key models (Python would raise on a mixed-version
result; the only call site passes a single-version list). -/
def RemoveAddressFromList (superset : List AnnIP) (exclude : AnnIP) : List AnnIP :=
  sortByB keyLeB (removeAux exclude superset)

/-- Deduplication by network equality keeping the first occurrence, with
structural fuel (one element is consumed per step, so fuel equal to the
length always suffices). -/
def dedupNetEqF : Nat → List AnnIP → List AnnIP
  | 0, _ => []
  | _ + 1, [] => []
  | fuel + 1, x :: xs => x :: dedupNetEqF fuel (xs.filter fun y => !(netEqB y x))

/-- Python set() on network objects followed by sorted(): deduplicate by
network equality keeping the first occurrence. -/
def dedupNetEq (l : List AnnIP) : List AnnIP := dedupNetEqF l.length l

/-- Stable descending sort, modelling Python sorted with reverse=True
(equal keys keep input order). -/
def sortDescB : List AnnIP → List AnnIP :=
  sortByB fun a b => !(keyLtB a b)

/-- The merge-scan loop of AddressListExclude.  The two Python lists are
descending with the working end (index -1) at the tail; here each stack
is kept reversed, so its head is the working end and the lists are
ascending by network key.  ret accumulates popped results in order.  Fuel
is spent one unit per iteration; the entry point passes a provable upper
bound on the iteration count, so the cut-off is never hit on the states
the code reaches. -/
def alxLoop : Nat → List AnnIP → List AnnIP → List AnnIP → List AnnIP × List AnnIP
  | 0, sup, _, ret => (ret, sup)
  | _ + 1, [], _, ret => (ret, [])
  | _ + 1, ip :: supRest, [], ret => (ret, ip :: supRest)
  | fuel + 1, ip :: supRest, ex :: excRest, ret =>
    if overlapsB ip ex then
      alxLoop fuel (RemoveAddressFromList [ip] ex ++ supRest) (ex :: excRest) ret
    else if keyLtB ip ex then alxLoop fuel supRest (ex :: excRest) (ret ++ [ip])
    else alxLoop fuel (ip :: supRest) excRest ret

/-- Fuel bound for alxLoop: a weighted sum dominating the lexicographic
measure (excludes length, covered-address mass of the superset stack,
superset length) that shrinks at every iteration. -/
def alxFuel (sup exc : List AnnIP) : Nat :=
  let sigma := (sup.map fun p => 2 ^ (width p.version - p.plen)).sum
  (exc.length + 1) * (130 * sigma + sup.length + 2) + 2

/-- AddressListExclude: collapse (or stable-sort) both inputs, run the
merge-scan, and collapse (or dedup and sort) the result.  The reversals
translate between the Python descending stacks and the ascending
head-is-top stacks of alxLoop; ret plus the reverse of the remaining
stack is the Python ret_array + superset. -/
def AddressListExclude (superset excludes : List AnnIP) (collapseAddrs : Bool) : List AnnIP :=
  let sup := if collapseAddrs then CollapseAddrList superset [] else (sortDescB superset).reverse
  let exc := if collapseAddrs then CollapseAddrList excludes [] else (sortDescB excludes).reverse
  let r := alxLoop (alxFuel sup exc) sup exc []
  if collapseAddrs then CollapseAddrList (r.1 ++ r.2.reverse) []
  else sortByB keyLeB (dedupNetEq (r.1 ++ r.2.reverse))

/-! Specification-side predicates used to state the verified properties. -/

/-- The address (version, a) lies inside prefix p. -/
def coversAddr (p : AnnIP) (version a : Nat) : Prop :=
  p.version = version ∧ p.addr ≤ a ∧ a ≤ bcast p

instance (p : AnnIP) (version a : Nat) : Decidable (coversAddr p version a) := by
  unfold coversAddr; infer_instance

/-- The address (version, a) lies inside some prefix of the list. -/
def listCovers (L : List AnnIP) (version a : Nat) : Prop :=
  ∃ p ∈ L, coversAddr p version a

instance (L : List AnnIP) (version a : Nat) : Decidable (listCovers L version a) := by
  unfold listCovers; infer_instance

/-- q is p with the network, token and parentToken unchanged. -/
def SameNetTok (p q : AnnIP) : Prop :=
  q.version = p.version ∧ q.addr = p.addr ∧ q.plen = p.plen ∧
    q.token = p.token ∧ q.parentToken = p.parentToken

/-- q is p with possibly more comment text appended. -/
def TextExtends (p q : AnnIP) : Prop :=
  SameNetTok p q ∧ ∃ t, q.text = p.text ++ t

/-- The link structure of a chain of cell indices: consecutive members
point at each other and the last member has no successor. -/
def chainLinks (s : CSt) : List Nat → Prop
  | [] => True
  | [a] => (getNode s a).next = none
  | a :: b :: rest => (getNode s a).next = some b ∧ (getNode s b).prev = some a ∧
      chainLinks s (b :: rest)

/-- Well-formedness of the linked list inside the arena: the chain starts
at the head cell 0 whose prev is clear, its links are consistent, its
indices strictly increase (removals preserve the build order) and stay in
range, and every in-range cell outside the chain is detached. -/
def WFChain (s : CSt) (cs : List Nat) : Prop :=
  cs.head? = some 0 ∧ (getNode s 0).prev = none ∧ chainLinks s cs ∧
    cs.Chain' (· < ·) ∧ (∀ i ∈ cs, i < s.nodes.length) ∧
    (∀ i, i < s.nodes.length → i ∉ cs →
      (getNode s i).next = none ∧ (getNode s i).prev = none)

/-- The annotated prefixes currently on the chain, head to tail. -/
def chainVals (s : CSt) (cs : List Nat) : List AnnIP :=
  cs.map fun i => (getNode s i).val

/-- The loop invariant proving address-space preservation: some
well-formed chain whose values are canonical and cover exactly the
addresses of the original input. -/
def C2Inv (S0 : List AnnIP) (s : CSt) : Prop :=
  ∃ cs, WFChain s cs ∧ s.nodes.length = S0.length ∧
    (∀ p ∈ chainVals s cs, Canon p) ∧
    (∀ v a, listCovers (chainVals s cs) v a ↔ listCovers S0 v a)

/-- a and b are consecutive members of the chain. -/
def Consec (cs : List Nat) (a b : Nat) : Prop := ∃ u w, cs = u ++ a :: b :: w

/-- Every occurrence of C in the work deque is preceded by an occurrence
of P: whenever the deque splits at an occurrence of C, P lies in the
front part. -/
def OccBefore (P C : Nat) (fr : List Nat) : Prop := ∀ u v, fr = u ++ C :: v → P ∈ u

/-- The fixed-point invariant of the collapse loop (with a complement map
that never vetoes): a well-formed chain, key-sorted values, and for every
adjacent pair that could merge (by containment or by the sibling guard)
the left cell still awaits processing; for containment pairs it moreover
awaits processing before every pending occurrence of the right cell, so
the right cell can never act first. -/
def C4Inv (s : CSt) (cs : List Nat) : Prop :=
  WFChain s cs ∧
    (chainVals s cs).Chain' (fun p q => keyLeB p q = true) ∧
    (∀ a b, Consec cs a b → supernetOfB (getNode s a).val (getNode s b).val = true →
      a ∈ s.fringe ∧ OccBefore a b s.fringe) ∧
    (∀ a b, Consec cs a b → sibGuardB (getNode s a).val (getNode s b).val = true →
      a ∈ s.fringe)

/-- p lies strictly before q: smaller version, or same version with p's
whole range below q's first address. -/
def Sep (p q : AnnIP) : Prop :=
  p.version < q.version ∨ (p.version = q.version ∧ bcast p < q.addr)

/-- p and q cover no common address. -/
def Disj (p q : AnnIP) : Prop := ∀ v a, ¬(coversAddr p v a ∧ coversAddr q v a)

end Nacaddr

namespace Nacaddr

theorem pyInStr_of_suffix (n h : String) (hs : n.data <:+ h.data) : pyInStr n h = true := by
  unfold pyInStr charsInfixB
  rw [List.any_eq_true]
  exact ⟨n.data, (List.mem_tails _ _).mpr hs, by simp [List.isPrefixOf_iff_prefix]⟩

theorem pyInStr_append_self (t n : String) : pyInStr n (t ++ n) = true :=
  pyInStr_of_suffix n (t ++ n) (by rw [String.data_append]; exact List.suffix_append _ _)

theorem pyInStr_self (s : String) : pyInStr s s = true :=
  pyInStr_of_suffix s s (List.suffix_refl _)

theorem text_ne_append_comma (t c : String) : t ≠ t ++ ", " ++ c := by
  intro h
  have h2 := congrArg String.length h
  have hl : (", ").length = 2 := rfl
  simp [String.length_append, hl] at h2
  omega

theorem comma_append_ne (c : String) : c ≠ "" ++ ", " ++ c := by
  intro h
  have h2 := congrArg String.length h
  have hl : (", ").length = 2 := rfl
  have he : ("" : String).length = 0 := rfl
  simp [String.length_append, hl, he] at h2

end Nacaddr

namespace Nacaddr

theorem addComment_of_empty (p : AnnIP) (c : String) (h : p.text = "") :
    AddComment p c = { p with text := c } := by
  unfold AddComment
  rw [if_pos h]

theorem addComment_of_append (p : AnnIP) (c : String) (h1 : p.text ≠ "")
    (h2 : c ≠ "") (h3 : pyInStr c p.text = false) :
    AddComment p c = { p with text := p.text ++ ", " ++ c } := by
  unfold AddComment
  rw [if_neg h1, if_pos ⟨h2, h3⟩]

theorem addComment_skip (p : AnnIP) (c : String) (h1 : p.text ≠ "")
    (h2 : c = "" ∨ pyInStr c p.text = true) : AddComment p c = p := by
  unfold AddComment
  rw [if_neg h1, if_neg]
  rcases h2 with h2 | h2 <;> simp [h2]

theorem addComment_empty (p : AnnIP) : AddComment p "" = p := by
  by_cases h : p.text = ""
  · rw [addComment_of_empty p "" h]
    cases p
    simp_all
  · exact addComment_skip p "" h (Or.inl rfl)

theorem addComment_idem (p : AnnIP) (c : String) :
    AddComment (AddComment p c) c = AddComment p c := by
  by_cases hc : c = ""
  · subst hc
    rw [addComment_empty, addComment_empty]
  by_cases h : p.text = ""
  · rw [addComment_of_empty p c h]
    exact addComment_skip _ c (by simpa using hc) (Or.inr (by simpa using pyInStr_self c))
  by_cases hin : pyInStr c p.text = true
  · rw [addComment_skip p c h (Or.inr hin), addComment_skip p c h (Or.inr hin)]
  · rw [addComment_of_append p c h hc (by simpa using hin)]
    refine addComment_skip _ c ?_ (Or.inr ?_)
    · show p.text ++ ", " ++ c ≠ ""
      intro he
      have h2 := congrArg String.length he
      have hl : (", ").length = 2 := rfl
      simp [String.length_append, hl] at h2
    · show pyInStr c (p.text ++ ", " ++ c) = true
      have := pyInStr_append_self (p.text ++ ", ") c
      simpa [String.append_assoc] using this

end Nacaddr

namespace Nacaddr

theorem mem_insertSortedB (le : AnnIP → AnnIP → Bool) (x y : AnnIP) (l : List AnnIP) :
    y ∈ insertSortedB le x l ↔ y = x ∨ y ∈ l := by
  induction l with
  | nil => simp [insertSortedB]
  | cons z zs ih =>
    unfold insertSortedB
    by_cases h : le x z = true
    · simp [h]
    · simp only [if_neg h, List.mem_cons, ih]
      tauto

theorem mem_sortByB (le : AnnIP → AnnIP → Bool) (x : AnnIP) (l : List AnnIP) :
    x ∈ sortByB le l ↔ x ∈ l := by
  induction l with
  | nil => simp [sortByB]
  | cons z zs ih =>
    unfold sortByB
    rw [mem_insertSortedB]
    simp [ih]

/-- C10: AddComment is idempotent, and AddComment with the empty string
never changes the object. -/
theorem claim_C10_addComment_idempotent (p : AnnIP) (c : String) :
    AddComment (AddComment p c) c = AddComment p c ∧ AddComment p "" = p :=
  ⟨addComment_idem p c, addComment_empty p⟩

end Nacaddr

namespace Nacaddr

/-- C1: _SafeToMerge returns False exactly when some complement prefix at
the candidate's (version, network_address) key has netmask between the
merge target's (inclusive) and the candidate's (exclusive); with no
complement at that key it returns True; and it returns False for
candidate 10.0.0.0/10, merge target 10.0.0.0/8, complement 10.0.0.0/9. -/
theorem claim_C1_safeToMerge (a m : AnnIP) (C : Nat × Nat → List AnnIP) :
    (SafeToMerge a m C = false ↔
      ∃ c ∈ C (a.version, a.addr), netmask m ≤ netmask c ∧ netmask c < netmask a)
    ∧ (C (a.version, a.addr) = [] → SafeToMerge a m C = true)
    ∧ SafeToMerge ⟨4, 167772160, 10, "", "", ""⟩ ⟨4, 167772160, 8, "", "", ""⟩
        (compsDict [⟨4, 167772160, 8, "", "", ""⟩, ⟨4, 167772160, 10, "", "", ""⟩]
          [⟨4, 167772160, 9, "", "", ""⟩]) = false := by
  refine ⟨?_, ?_, by decide⟩
  · unfold SafeToMerge
    rw [List.all_eq_false]
    constructor
    · rintro ⟨x, hx, hpred⟩
      refine ⟨x, hx, ?_⟩
      simp only [Bool.not_eq_true, Bool.not_eq_false] at hpred
      simpa using hpred
    · rintro ⟨x, hx, h1, h2⟩
      refine ⟨x, hx, ?_⟩
      simp [h1, h2]
  · intro h
    unfold SafeToMerge
    rw [h]
    rfl

theorem claim_C1_safeToMerge_witness :
    SafeToMerge ⟨4, 3, 5, "", "", ""⟩ ⟨4, 3, 2, "", "", ""⟩ (fun _ => []) = true :=
  (claim_C1_safeToMerge ⟨4, 3, 5, "", "", ""⟩ ⟨4, 3, 2, "", "", ""⟩ (fun _ => [])).2.1 rfl

end Nacaddr

namespace Nacaddr

/-- C8 counterexample: on a prefix of length 0, supernet does not raise;
it returns the object itself unchanged. -/
theorem claim_C8_counterexample :
    supernetE ⟨4, 0, 0, "x", "t", "t"⟩ 1 = Except.ok ⟨4, 0, 0, "x", "t", "t"⟩ := rfl

/-- C8 amended: supernet returns the prefix itself when its length is 0;
PrefixlenDiffInvalidError is raised exactly when the length is positive
and smaller than the requested difference; otherwise a new prefix with
the shortened length is returned. -/
theorem claim_C8_amended (p : AnnIP) (d : Nat) :
    (p.plen = 0 → supernetE p d = Except.ok p) ∧
    (0 < p.plen → p.plen < d → supernetE p d = Except.error ⟨p.plen, d⟩) ∧
    (0 < p.plen → d ≤ p.plen →
      ∃ q, supernetE p d = Except.ok q ∧ q.plen = p.plen - d ∧ q.text = p.text ∧
        q.token = p.token) := by
  refine ⟨?_, ?_, ?_⟩
  · intro h
    unfold supernetE
    rw [if_pos h]
  · intro h0 hd
    unfold supernetE
    rw [if_neg (by omega), if_pos (by omega)]
  · intro h0 hd
    unfold supernetE
    rw [if_neg (by omega), if_neg (by omega)]
    exact ⟨_, rfl, rfl, rfl, rfl⟩

theorem claim_C8_amended_witness :
    0 < (8 : Nat) ∧ (8 : Nat) < 9 ∧
      supernetE ⟨4, 167772160, 8, "c", "t", "t"⟩ 9 = Except.error ⟨8, 9⟩ :=
  ⟨by decide, by decide,
    (claim_C8_amended ⟨4, 167772160, 8, "c", "t", "t"⟩ 9).2.1 (by decide) (by decide)⟩

end Nacaddr

namespace Nacaddr

theorem numAddrs_pos (p : AnnIP) : 0 < numAddrs p := Nat.pos_pow_of_pos _ (by norm_num)

/-- Mutual containment of same-version prefixes forces Python network
equality. -/
theorem netEq_of_mutual_subnet (p e : AnnIP) (h1 : subnetOfB e p = true)
    (h2 : subnetOfB p e = true) : netEqB e p = true := by
  unfold subnetOfB at h1 h2
  unfold netEqB
  simp only [Bool.and_eq_true, beq_iff_eq, decide_eq_true_eq] at h1 h2 ⊢
  obtain ⟨⟨hv, ha1⟩, hb1⟩ := h1
  obtain ⟨⟨_, ha2⟩, hb2⟩ := h2
  have haddr : e.addr = p.addr := le_antisymm ha2 ha1
  have hbc : bcast e = bcast p := le_antisymm hb1 hb2
  unfold bcast at hbc
  have h1p := numAddrs_pos p
  have h2p := numAddrs_pos e
  have hnum : numAddrs e = numAddrs p := by omega
  refine ⟨⟨hv, haddr⟩, ?_⟩
  unfold netmask
  unfold numAddrs at hnum
  rw [hv] at hnum
  rw [hv, hnum]

/-- C7 counterexample: excluding 10.1.0.0/16 from the annotated prefix
10.0.0.0/8 with comment c and token t yields children with empty comment
and token (the first child shown); nothing is inherited. -/
theorem claim_C7_counterexample :
    (RemoveAddressFromList [⟨4, 167772160, 8, "c", "t", "t"⟩]
        ⟨4, 167837696, 16, "", "", ""⟩).head? = some ⟨4, 167772160, 16, "", "", ""⟩ ∧
      ("" : String) ≠ "c" ∧ ("" : String) ≠ "t" := by decide

/-- C7 amended: when a same-version exclude prefix lies strictly inside a
superset prefix, every child returned by RemoveAddressFromList on the
singleton list carries an empty comment and an empty token (the children
are rebuilt by IP(x) with default metadata, inheriting nothing). -/
theorem claim_C7_amended (p e : AnnIP) (hv : p.version = e.version)
    (hsub : subnetOfB e p = true) (hne : netEqB e p = false) :
    ∀ q ∈ RemoveAddressFromList [p] e, q.text = "" ∧ q.token = "" := by
  intro q hq
  unfold RemoveAddressFromList at hq
  rw [mem_sortByB] at hq
  unfold removeAux at hq
  rw [if_neg, if_pos] at hq
  · simp only [removeAux, List.append_nil, List.mem_map] at hq
    obtain ⟨x, _, hx⟩ := hq
    rw [← hx]
    exact ⟨rfl, rfl⟩
  · simp [hv, hsub]
  · intro hcon
    simp only [Bool.or_eq_true] at hcon
    rcases hcon with hcon | hcon
    · rw [hcon] at hne
      cases hne
    · rw [netEq_of_mutual_subnet p e hsub hcon] at hne
      cases hne

theorem claim_C7_amended_witness :
    (⟨4, 167772160, 16, "", "", ""⟩ : AnnIP).text = "" ∧
      (⟨4, 167772160, 16, "", "", ""⟩ : AnnIP).token = "" :=
  claim_C7_amended ⟨4, 167772160, 8, "c", "t", "t"⟩ ⟨4, 167837696, 16, "", "", ""⟩ rfl
    (by decide) (by decide) _ (by decide)

end Nacaddr

namespace Nacaddr

/-- C5 at the failing input: three singleton token partitions a, b, c
with 10.0.0.0/24 (a), 10.0.1.0/24 (b), 10.0.0.0/16 (c).  The c partition
consumes both others, but deleting the a entry makes the scan skip the b
entry, so the output keeps 10.0.1.0/24 (token b) although it is fully
contained in the kept partition of token c. -/
theorem claim_C5_dedup_skip :
    CollapseAddrListPreserveTokens
        [⟨4, 167772160, 24, "", "a", "a"⟩, ⟨4, 167772416, 24, "", "b", "b"⟩,
          ⟨4, 167772160, 16, "", "c", "c"⟩] =
      [⟨4, 167772416, 24, "", "b", "b"⟩, ⟨4, 167772160, 16, "", "c", "c"⟩] ∧
    IsSuperNet [⟨4, 167772160, 16, "", "c", "c"⟩] [⟨4, 167772416, 24, "", "b", "b"⟩] = true ∧
    ("b" : String) ≠ "c" := by
  refine ⟨by decide, by decide, by decide⟩

/-- C6: the append-characterisation of AddComment (the appended form
appears exactly when the existing text is non-empty and the new comment
is non-empty and not a substring; with empty existing text the comment is
installed; otherwise the object is unchanged), and the two concrete
collapse results: 1.1.0.0/24 (a) with 1.1.1.0/24 (b) gives 1.1.0.0/23
with comment a, b; equal comments are not duplicated. -/
theorem claim_C6_addComment (p : AnnIP) (c : String) :
    ((AddComment p c).text = p.text ++ ", " ++ c ↔
      p.text ≠ "" ∧ c ≠ "" ∧ pyInStr c p.text = false)
    ∧ (p.text = "" → AddComment p c = { p with text := c })
    ∧ (p.text ≠ "" → (c = "" ∨ pyInStr c p.text = true) → AddComment p c = p)
    ∧ CollapseAddrList [⟨4, 16842752, 24, "a", "", ""⟩, ⟨4, 16843008, 24, "b", "", ""⟩] [] =
        [⟨4, 16842752, 23, "a, b", "", ""⟩]
    ∧ CollapseAddrList [⟨4, 16842752, 24, "a", "", ""⟩, ⟨4, 16843008, 24, "a", "", ""⟩] [] =
        [⟨4, 16842752, 23, "a", "", ""⟩] := by
  refine ⟨?_, addComment_of_empty p c, addComment_skip p c, by decide, by decide⟩
  constructor
  · intro h
    by_cases he : p.text = ""
    · rw [addComment_of_empty p c he] at h
      simp only at h
      rw [he] at h
      exact absurd h (comma_append_ne c)
    · by_cases hc : c = ""
      · rw [addComment_skip p c he (Or.inl hc)] at h
        exact absurd h (text_ne_append_comma p.text c)
      · by_cases hin : pyInStr c p.text = true
        · rw [addComment_skip p c he (Or.inr hin)] at h
          exact absurd h (text_ne_append_comma p.text c)
        · exact ⟨he, hc, by simpa using hin⟩
  · rintro ⟨h1, h2, h3⟩
    rw [addComment_of_append p c h1 h2 h3]

theorem claim_C6_addComment_witness :
    (AddComment ⟨4, 0, 8, "a", "", ""⟩ "b").text = "a" ++ ", " ++ "b" :=
  ((claim_C6_addComment ⟨4, 0, 8, "a", "", ""⟩ "b").1).mpr
    ⟨by decide, by decide, by decide⟩

end Nacaddr

namespace Nacaddr

theorem getD_set_self {α : Type} (l : List α) (k : Nat) (v d : α) (h : k < l.length) :
    (l.set k v).getD k d = v := by
  simp [List.getD, List.getElem?_set, h]

theorem getD_set_ne {α : Type} (l : List α) (k k' : Nat) (v d : α) (h : k ≠ k') :
    (l.set k v).getD k' d = l.getD k' d := by
  simp [List.getD, List.getElem?_set, h]

theorem sameNetTok_refl (p : AnnIP) : SameNetTok p p := ⟨rfl, rfl, rfl, rfl, rfl⟩

theorem sameNetTok_trans {p q r : AnnIP} (h1 : SameNetTok p q) (h2 : SameNetTok q r) :
    SameNetTok p r := by
  obtain ⟨a1, a2, a3, a4, a5⟩ := h1
  obtain ⟨b1, b2, b3, b4, b5⟩ := h2
  exact ⟨b1.trans a1, b2.trans a2, b3.trans a3, b4.trans a4, b5.trans a5⟩

theorem textExtends_refl (p : AnnIP) : TextExtends p p :=
  ⟨sameNetTok_refl p, "", (String.append_empty _).symm⟩

theorem textExtends_trans {p q r : AnnIP} (h1 : TextExtends p q) (h2 : TextExtends q r) :
    TextExtends p r := by
  obtain ⟨hs1, t1, ht1⟩ := h1
  obtain ⟨hs2, t2, ht2⟩ := h2
  exact ⟨sameNetTok_trans hs1 hs2, t1 ++ t2, by rw [ht2, ht1, String.append_assoc]⟩

theorem textExtends_addComment (p : AnnIP) (c : String) : TextExtends p (AddComment p c) := by
  by_cases he : p.text = ""
  · rw [addComment_of_empty p c he]
    refine ⟨⟨rfl, rfl, rfl, rfl, rfl⟩, c, ?_⟩
    simp only [he]
    exact (String.empty_append c).symm
  · by_cases hskip : c = "" ∨ pyInStr c p.text = true
    · rw [addComment_skip p c he hskip]
      exact textExtends_refl p
    · push_neg at hskip
      rw [addComment_of_append p c he hskip.1 (by simpa using hskip.2)]
      exact ⟨⟨rfl, rfl, rfl, rfl, rfl⟩, ", " ++ c, by simp [String.append_assoc]⟩

/-- Ghost-instrumentation invariant of the collapse loop: the record
finals has one entry per input object; any cell still aliasing input
object k holds exactly the value recorded for k; the aliasing is
injective; and each recorded value is its input value with possibly more
comment text appended. -/
def OrigOk (S : List AnnIP) (s : CSt) : Prop :=
  s.finals.length = S.length ∧
  (∀ i k, (getNode s i).orig = some k →
    k < s.finals.length ∧ s.finals.getD k annDefault = (getNode s i).val) ∧
  (∀ i j k, (getNode s i).orig = some k → (getNode s j).orig = some k → i = j) ∧
  (∀ k, k < S.length → TextExtends (S.getD k annDefault) (s.finals.getD k annDefault))

theorem origOk_of_eq (S : List AnnIP) (s s' : CSt) (hf : s'.finals = s.finals)
    (hvo : ∀ x, (getNode s' x).val = (getNode s x).val ∧ (getNode s' x).orig = (getNode s x).orig)
    (h : OrigOk S s) : OrigOk S s' := by
  obtain ⟨hlen, hlink, hinj, hext⟩ := h
  refine ⟨hf ▸ hlen, ?_, ?_, ?_⟩
  · intro i k hk
    rw [(hvo i).2] at hk
    rw [hf, (hvo i).1]
    exact hlink i k hk
  · intro i j k h1 h2
    rw [(hvo i).2] at h1
    rw [(hvo j).2] at h2
    exact hinj i j k h1 h2
  · intro k hk
    rw [hf]
    exact hext k hk

theorem valOrig_set (s : CSt) (a : Nat) (nd' : LNode)
    (hv : nd'.val = (getNode s a).val) (ho : nd'.orig = (getNode s a).orig) :
    ∀ x, (getNode { s with nodes := s.nodes.set a nd' } x).val = (getNode s x).val ∧
      (getNode { s with nodes := s.nodes.set a nd' } x).orig = (getNode s x).orig := by
  intro x
  show ((s.nodes.set a nd').getD x default).val = _ ∧ ((s.nodes.set a nd').getD x default).orig = _
  by_cases hax : a = x
  · subst hax
    by_cases hr : a < s.nodes.length
    · rw [getD_set_self _ _ _ _ hr]
      exact ⟨hv, ho⟩
    · rw [List.set_eq_of_length_le (Nat.le_of_not_lt hr)]
      exact ⟨rfl, rfl⟩
  · rw [getD_set_ne _ _ _ _ _ hax]
    exact ⟨rfl, rfl⟩

end Nacaddr

namespace Nacaddr

theorem valOrig_clearCell (s : CSt) (j : Nat) : ∀ x,
    (getNode (clearCell s j) x).val = (getNode s x).val ∧
      (getNode (clearCell s j) x).orig = (getNode s x).orig :=
  valOrig_set s j _ rfl rfl

theorem valOrig_setNextCell (s : CSt) (i : Nat) (nx : Option Nat) : ∀ x,
    (getNode (setNextCell s i nx) x).val = (getNode s x).val ∧
      (getNode (setNextCell s i nx) x).orig = (getNode s x).orig :=
  valOrig_set s i _ rfl rfl

theorem valOrig_setPrevCell (s : CSt) (k : Nat) (pv : Option Nat) : ∀ x,
    (getNode (setPrevCell s k pv) x).val = (getNode s x).val ∧
      (getNode (setPrevCell s k pv) x).orig = (getNode s x).orig :=
  valOrig_set s k _ rfl rfl

theorem finals_clearCell (s : CSt) (j : Nat) : (clearCell s j).finals = s.finals := rfl

theorem finals_setNextCell (s : CSt) (i : Nat) (nx : Option Nat) :
    (setNextCell s i nx).finals = s.finals := rfl

theorem finals_setPrevCell (s : CSt) (k : Nat) (pv : Option Nat) :
    (setPrevCell s k pv).finals = s.finals := rfl

theorem origOk_removeNext (S : List AnnIP) (s : CSt) (i : Nat) (h : OrigOk S s) :
    OrigOk S (removeNext s i) := by
  unfold removeNext
  split
  · exact h
  · rename_i j hj
    split
    · refine origOk_of_eq S s _ rfl ?_ h
      intro x
      have h1 := valOrig_clearCell s j x
      have h2 := valOrig_setNextCell (clearCell s j) i none x
      exact ⟨h2.1.trans h1.1, h2.2.trans h1.2⟩
    · rename_i k hk
      refine origOk_of_eq S s _ rfl ?_ h
      intro x
      have h1 := valOrig_clearCell s j x
      have h2 := valOrig_setNextCell (clearCell s j) i (some k) x
      have h3 := valOrig_setPrevCell (setNextCell (clearCell s j) i (some k)) k (some i) x
      exact ⟨(h3.1.trans h2.1).trans h1.1, (h3.2.trans h2.2).trans h1.2⟩

theorem getNode_setNode (s : CSt) (a : Nat) (nd' : LNode) (x : Nat) :
    getNode (setNode s a nd') x =
      if a = x ∧ a < s.nodes.length then nd' else getNode s x := by
  show (s.nodes.set a nd').getD x default = _
  by_cases hax : a = x
  · subst hax
    by_cases hr : a < s.nodes.length
    · rw [getD_set_self _ _ _ _ hr, if_pos ⟨rfl, hr⟩]
    · rw [List.set_eq_of_length_le (Nat.le_of_not_lt hr), if_neg (by tauto)]
      rfl
  · rw [getD_set_ne _ _ _ _ _ hax, if_neg (by tauto)]
    rfl

theorem origOk_setNode_none (S : List AnnIP) (s : CSt) (a : Nat) (nd' : LNode)
    (hno : nd'.orig = none) (h : OrigOk S s) : OrigOk S (setNode s a nd') := by
  obtain ⟨hlen, hlink, hinj, hext⟩ := h
  refine ⟨hlen, ?_, ?_, hext⟩
  · intro x k hk
    rw [getNode_setNode] at hk ⊢
    by_cases c : a = x ∧ a < s.nodes.length
    · rw [if_pos c] at hk
      rw [hno] at hk
      cases hk
    · rw [if_neg c] at hk ⊢
      exact hlink x k hk
  · intro x y k h1 h2
    rw [getNode_setNode] at h1 h2
    by_cases c1 : a = x ∧ a < s.nodes.length
    · rw [if_pos c1, hno] at h1
      cases h1
    · rw [if_neg c1] at h1
      by_cases c2 : a = y ∧ a < s.nodes.length
      · rw [if_pos c2, hno] at h2
        cases h2
      · rw [if_neg c2] at h2
        exact hinj x y k h1 h2

theorem origOk_rebindSupernet (S : List AnnIP) (s : CSt) (i : Nat) (h : OrigOk S s) :
    OrigOk S (rebindSupernet s i) :=
  origOk_setNode_none S s i _ rfl h


theorem origOk_mutComment (S : List AnnIP) (s : CSt) (i : Nat) (c : String)
    (h : OrigOk S s) : OrigOk S (mutComment s i c) := by
  obtain ⟨hlen, hlink, hinj, hext⟩ := h
  unfold mutComment
  split
  · rename_i k heq
    have hir : i < s.nodes.length := by
      by_contra hc
      have : getNode s i = default := by
        show s.nodes.getD i default = default
        rw [List.getD, List.get?_eq_none.mpr (Nat.le_of_not_lt hc)]
        rfl
      rw [this] at heq
      cases heq
    obtain ⟨hkl, hkv⟩ := hlink i k heq
    refine ⟨by simpa using hlen, ?_, ?_, ?_⟩
    · intro x k' hk'
      have hgx : getNode { setNode s i { getNode s i with val := AddComment (getNode s i).val c }
          with finals := s.finals.set k (AddComment (getNode s i).val c) } x =
          getNode (setNode s i { getNode s i with val := AddComment (getNode s i).val c }) x := rfl
      rw [hgx, getNode_setNode] at hk' ⊢
      by_cases c1 : i = x ∧ i < s.nodes.length
      · rw [if_pos c1] at hk' ⊢
        simp only at hk'
        have hkk : k' = k := by
          rw [heq] at hk'
          exact (Option.some_inj.mp hk').symm
        subst hkk
        refine ⟨by simpa using hkl, ?_⟩
        show (s.finals.set k' _).getD k' annDefault = _
        rw [getD_set_self _ _ _ _ hkl]
      · rw [if_neg c1] at hk' ⊢
        obtain ⟨hk'l, hk'v⟩ := hlink x k' hk'
        have hkk : k' ≠ k := by
          intro hkk
          subst hkk
          exact c1 ⟨(hinj i x k' heq hk').symm ▸ rfl, hir⟩
        refine ⟨by simpa using hk'l, ?_⟩
        show (s.finals.set k _).getD k' annDefault = _
        rw [getD_set_ne _ _ _ _ _ (fun hh => hkk hh.symm)]
        exact hk'v
    · intro x y k' h1 h2
      have hgx : ∀ z, getNode { setNode s i { getNode s i with val := AddComment (getNode s i).val c }
          with finals := s.finals.set k (AddComment (getNode s i).val c) } z =
          getNode (setNode s i { getNode s i with val := AddComment (getNode s i).val c }) z :=
        fun _ => rfl
      rw [hgx, getNode_setNode] at h1 h2
      by_cases c1 : i = x ∧ i < s.nodes.length
      · by_cases c2 : i = y ∧ i < s.nodes.length
        · rw [← c1.1, ← c2.1]
        · rw [if_pos c1] at h1
          rw [if_neg c2] at h2
          simp only at h1
          rw [heq] at h1
          have : k' = k := (Option.some_inj.mp h1).symm
          subst this
          exact absurd ⟨(hinj i y k' heq h2).symm ▸ rfl, hir⟩ c2
      · rw [if_neg c1] at h1
        by_cases c2 : i = y ∧ i < s.nodes.length
        · rw [if_pos c2] at h2
          simp only at h2
          rw [heq] at h2
          have : k' = k := (Option.some_inj.mp h2).symm
          subst this
          exact absurd ⟨(hinj i x k' heq h1).symm ▸ rfl, hir⟩ c1
        · rw [if_neg c2] at h2
          exact hinj x y k' h1 h2
    · intro k' hk'
      show TextExtends _ ((s.finals.set k _).getD k' annDefault)
      by_cases hkk : k' = k
      · subst hkk
        rw [getD_set_self _ _ _ _ hkl]
        refine textExtends_trans (hext k' hk') ?_
        rw [hkv]
        exact textExtends_addComment _ c
      · rw [getD_set_ne _ _ _ _ _ (fun hh => hkk hh.symm)]
        exact hext k' hk'
  · rename_i heq
    exact origOk_setNode_none S s i _ (by simpa using heq) ⟨hlen, hlink, hinj, hext⟩

end Nacaddr


namespace Nacaddr

theorem origOk_pushFront (S : List AnnIP) (s : CSt) (c : Nat) (h : OrigOk S s) :
    OrigOk S (pushFront s c) := h

theorem origOk_enqueuePrev (S : List AnnIP) (s : CSt) (c : Nat) (h : OrigOk S s) :
    OrigOk S (enqueuePrev s c) := by
  unfold enqueuePrev
  split
  · exact h
  · exact h

theorem origOk_collapseStep (S : List AnnIP) (comps : Nat × Nat → List AnnIP) (s : CSt)
    (c : Nat) (h : OrigOk S s) : OrigOk S (collapseStep comps s c) := by
  unfold collapseStep
  split
  · exact h
  · rename_i j hj
    by_cases h1 : SafeToMerge (getNode s j).val (getNode s c).val comps = false
    · rw [if_pos h1]
      exact h
    · rw [if_neg h1]
      by_cases h2 : supernetOfB (getNode s c).val (getNode s j).val = true
      · rw [if_pos h2]
        exact origOk_pushFront S _ c (origOk_removeNext S _ c (origOk_mutComment S s c _ h))
      · rw [if_neg h2]
        by_cases h3 : sibGuardB (getNode s c).val (getNode s j).val = true
        · rw [if_pos h3]
          exact origOk_enqueuePrev S _ c (origOk_pushFront S _ c (origOk_rebindSupernet S _ c
            (origOk_removeNext S _ c (origOk_mutComment S s c _ h))))
        · rw [if_neg h3]
          exact h

theorem origOk_collapseLoop (S : List AnnIP) (comps : Nat × Nat → List AnnIP) :
    ∀ fuel s, OrigOk S s → OrigOk S (collapseLoop comps fuel s) := by
  intro fuel
  induction fuel with
  | zero => exact fun s h => h
  | succ n ih =>
    intro s h
    unfold collapseLoop
    split
    · exact h
    · exact ih _ (origOk_collapseStep S comps _ _ h)

theorem getNode_initState (A : List AnnIP) (i : Nat) :
    getNode (initState A) i =
      if i < A.length then
        { next := if i + 1 < A.length then some (i + 1) else none
          prev := if i = 0 then none else some (i - 1)
          val := A.getD i default
          orig := some i }
      else default := by
  show (buildNodes A).getD i default = _
  unfold buildNodes
  by_cases h : i < A.length
  · rw [if_pos h, List.getD]
    simp [List.getElem?_map, List.getElem?_range, h]
  · rw [if_neg h, List.getD, List.get?_eq_none.mpr (by simpa using Nat.le_of_not_lt h)]
    rfl

theorem origOk_initState (A : List AnnIP) : OrigOk A (initState A) := by
  refine ⟨rfl, ?_, ?_, ?_⟩
  · intro i k hk
    rw [getNode_initState] at hk ⊢
    by_cases h : i < A.length
    · rw [if_pos h] at hk ⊢
      simp only at hk
      have hik : k = i := Option.some_inj.mp hk.symm
      subst hik
      exact ⟨h, rfl⟩
    · rw [if_neg h] at hk
      cases hk
  · intro x y k h1 h2
    rw [getNode_initState] at h1 h2
    by_cases hx : x < A.length
    · rw [if_pos hx] at h1
      simp only at h1
      by_cases hy : y < A.length
      · rw [if_pos hy] at h2
        simp only at h2
        rw [Option.some_inj.mp h1, Option.some_inj.mp h2]
      · rw [if_neg hy] at h2
        cases h2
    · rw [if_neg hx] at h1
      cases h1
  · intro k hk
    exact textExtends_refl _

end Nacaddr

namespace Nacaddr

/-- C9 counterexample: CollapseAddrList mutates the annotated prefixes of
its input list.  Collapsing 1.1.0.0/24 (comment a) with 1.1.1.0/24
(comment b) leaves the first input object with comment text a, b, not
its original a. -/
theorem claim_C9_counterexample :
    CollapseAddrListFinals [⟨4, 16842752, 24, "a", "t1", "t1"⟩, ⟨4, 16843008, 24, "b", "t2", "t2"⟩]
        [] =
      [⟨4, 16842752, 24, "a, b", "t1", "t1"⟩, ⟨4, 16843008, 24, "b", "t2", "t2"⟩] ∧
    ("a, b" : String) ≠ "a" := by
  refine ⟨by decide, by decide⟩

/-- C9 amended: the entry points are deterministic pure computations of
the input values, and the networks, tokens and list structure of the
inputs are untouched, but the collapse core mutates the comment text of
input annotated prefixes: after a CollapseAddrList call each input
object holds its original value with possibly more comment text appended
(absorbed neighbours' comments).  The other entry points mutate their
inputs only through these collapse calls. -/
theorem claim_C9_amended (addresses complementAddresses : List AnnIP) :
    (CollapseAddrListFinals addresses complementAddresses).length =
      (sortByB keyLeB addresses).length ∧
    ∀ k, k < (sortByB keyLeB addresses).length →
      TextExtends ((sortByB keyLeB addresses).getD k annDefault)
        ((CollapseAddrListFinals addresses complementAddresses).getD k annDefault) := by
  have h := origOk_collapseLoop (sortByB keyLeB addresses)
    (compsDict addresses complementAddresses)
    (3 * (sortByB keyLeB addresses).length + 1) (initState (sortByB keyLeB addresses))
    (origOk_initState _)
  obtain ⟨hlen, _, _, hext⟩ := h
  exact ⟨hlen, hext⟩

theorem claim_C9_amended_witness :
    0 < (sortByB keyLeB [⟨4, 16842752, 24, "a", "t1", "t1"⟩,
        ⟨4, 16843008, 24, "b", "t2", "t2"⟩]).length ∧
    TextExtends
      ((sortByB keyLeB [⟨4, 16842752, 24, "a", "t1", "t1"⟩,
          ⟨4, 16843008, 24, "b", "t2", "t2"⟩]).getD 0 annDefault)
      ((CollapseAddrListFinals [⟨4, 16842752, 24, "a", "t1", "t1"⟩,
          ⟨4, 16843008, 24, "b", "t2", "t2"⟩] []).getD 0 annDefault) :=
  ⟨by decide,
    (claim_C9_amended [⟨4, 16842752, 24, "a", "t1", "t1"⟩,
        ⟨4, 16843008, 24, "b", "t2", "t2"⟩] []).2 0 (by decide)⟩

end Nacaddr

namespace Nacaddr

theorem getNode_oob (s : CSt) (i : Nat) (h : ¬ i < s.nodes.length) : getNode s i = default := by
  show s.nodes.getD i default = default
  rw [List.getD, List.get?_eq_none.mpr (Nat.le_of_not_lt h)]
  rfl

theorem nodes_length_setNode (s : CSt) (a : Nat) (nd : LNode) :
    (setNode s a nd).nodes.length = s.nodes.length := by
  show (s.nodes.set a nd).length = _
  simp

theorem nodes_length_mutComment (s : CSt) (c : Nat) (t : String) :
    (mutComment s c t).nodes.length = s.nodes.length := by
  unfold mutComment
  split <;> exact nodes_length_setNode s c _

theorem nodes_length_clearCell (s : CSt) (j : Nat) :
    (clearCell s j).nodes.length = s.nodes.length := nodes_length_setNode s j _

theorem nodes_length_setNextCell (s : CSt) (i : Nat) (nx : Option Nat) :
    (setNextCell s i nx).nodes.length = s.nodes.length := nodes_length_setNode s i _

theorem nodes_length_setPrevCell (s : CSt) (k : Nat) (pv : Option Nat) :
    (setPrevCell s k pv).nodes.length = s.nodes.length := nodes_length_setNode s k _

theorem nodes_length_removeNext (s : CSt) (i : Nat) :
    (removeNext s i).nodes.length = s.nodes.length := by
  unfold removeNext
  split
  · rfl
  · split
    · rw [nodes_length_setNextCell, nodes_length_clearCell]
    · rw [nodes_length_setPrevCell, nodes_length_setNextCell, nodes_length_clearCell]

theorem nodes_length_rebindSupernet (s : CSt) (c : Nat) :
    (rebindSupernet s c).nodes.length = s.nodes.length := nodes_length_setNode s c _

theorem nodes_length_pushFront (s : CSt) (c : Nat) :
    (pushFront s c).nodes.length = s.nodes.length := rfl

theorem nodes_length_enqueuePrev (s : CSt) (c : Nat) :
    (enqueuePrev s c).nodes.length = s.nodes.length := by
  unfold enqueuePrev
  split <;> rfl

theorem nodes_length_collapseStep (comps : Nat × Nat → List AnnIP) (s : CSt) (c : Nat) :
    (collapseStep comps s c).nodes.length = s.nodes.length := by
  unfold collapseStep
  split
  · rfl
  · split
    · rfl
    · split
      · rw [nodes_length_pushFront, nodes_length_removeNext, nodes_length_mutComment]
      · split
        · rw [nodes_length_enqueuePrev, nodes_length_pushFront, nodes_length_rebindSupernet,
            nodes_length_removeNext, nodes_length_mutComment]
        · rfl

theorem nodes_length_collapseLoop (comps : Nat × Nat → List AnnIP) :
    ∀ fuel s, (collapseLoop comps fuel s).nodes.length = s.nodes.length := by
  intro fuel
  induction fuel with
  | zero => exact fun s => rfl
  | succ n ih =>
    intro s
    unfold collapseLoop
    split
    · rfl
    · rw [ih, nodes_length_collapseStep]

end Nacaddr

namespace Nacaddr

theorem getNode_mutComment (s : CSt) (c : Nat) (t : String) (x : Nat) :
    getNode (mutComment s c t) x =
      if c = x ∧ c < s.nodes.length then
        { getNode s c with val := AddComment (getNode s c).val t }
      else getNode s x := by
  unfold mutComment
  have : ∀ Y : CSt, ∀ fn, getNode { Y with finals := fn } x = getNode Y x := fun _ _ => rfl
  split <;> rw [this, getNode_setNode]

theorem getNode_clearCell (s : CSt) (j : Nat) (x : Nat) :
    getNode (clearCell s j) x =
      if j = x ∧ j < s.nodes.length then { getNode s j with next := none, prev := none }
      else getNode s x := getNode_setNode s j _ x

theorem getNode_setNextCell (s : CSt) (i : Nat) (nx : Option Nat) (x : Nat) :
    getNode (setNextCell s i nx) x =
      if i = x ∧ i < s.nodes.length then { getNode s i with next := nx }
      else getNode s x := getNode_setNode s i _ x

theorem getNode_setPrevCell (s : CSt) (k : Nat) (pv : Option Nat) (x : Nat) :
    getNode (setPrevCell s k pv) x =
      if k = x ∧ k < s.nodes.length then { getNode s k with prev := pv }
      else getNode s x := getNode_setNode s k _ x

theorem getNode_rebindSupernet (s : CSt) (c : Nat) (x : Nat) :
    getNode (rebindSupernet s c) x =
      if c = x ∧ c < s.nodes.length then
        { getNode s c with val := Supernet1 (getNode s c).val, orig := none }
      else getNode s x := getNode_setNode s c _ x

theorem getNode_pushFront (s : CSt) (c : Nat) (x : Nat) :
    getNode (pushFront s c) x = getNode s x := rfl

theorem getNode_enqueuePrev (s : CSt) (c : Nat) (x : Nat) :
    getNode (enqueuePrev s c) x = getNode s x := by
  unfold enqueuePrev
  split <;> rfl

theorem links_mutComment (s : CSt) (c : Nat) (t : String) (x : Nat) :
    (getNode (mutComment s c t) x).next = (getNode s x).next ∧
      (getNode (mutComment s c t) x).prev = (getNode s x).prev := by
  rw [getNode_mutComment]
  split
  · rename_i h
    rw [← h.1]
    exact ⟨rfl, rfl⟩
  · exact ⟨rfl, rfl⟩

theorem links_rebindSupernet (s : CSt) (c : Nat) (x : Nat) :
    (getNode (rebindSupernet s c) x).next = (getNode s x).next ∧
      (getNode (rebindSupernet s c) x).prev = (getNode s x).prev := by
  rw [getNode_rebindSupernet]
  split
  · rename_i h
    rw [← h.1]
    exact ⟨rfl, rfl⟩
  · exact ⟨rfl, rfl⟩

theorem chainLinks_congr (s s' : CSt)
    (h : ∀ x, (getNode s' x).next = (getNode s x).next ∧
      (getNode s' x).prev = (getNode s x).prev) :
    ∀ cs, chainLinks s cs → chainLinks s' cs := by
  intro cs
  induction cs with
  | nil => exact fun _ => trivial
  | cons a rest ih =>
    cases rest with
    | nil =>
      intro hl
      show (getNode s' a).next = none
      rw [(h a).1]
      exact hl
    | cons b rest2 =>
      intro hl
      obtain ⟨h1, h2, h3⟩ := hl
      exact ⟨by rw [(h a).1]; exact h1, by rw [(h b).2]; exact h2, ih h3⟩

theorem WFChain_congr (s s' : CSt) (hlen : s'.nodes.length = s.nodes.length)
    (h : ∀ x, (getNode s' x).next = (getNode s x).next ∧
      (getNode s' x).prev = (getNode s x).prev)
    (cs : List Nat) (hwf : WFChain s cs) : WFChain s' cs := by
  obtain ⟨w1, w2, w3, w4, w5, w6⟩ := hwf
  refine ⟨w1, by rw [(h 0).2]; exact w2, chainLinks_congr s s' h cs w3, w4,
    fun i hi => hlen ▸ w5 i hi, ?_⟩
  intro i hi hni
  rw [(h i).1, (h i).2]
  exact w6 i (hlen ▸ hi) hni

theorem chainLinks_decomp (s : CSt) : ∀ cs c j, chainLinks s cs → c ∈ cs →
    (getNode s c).next = some j → ∃ pre post, cs = pre ++ c :: j :: post := by
  intro cs
  induction cs with
  | nil => intro c j _ hm; cases hm
  | cons a rest ih =>
    intro c j hl hm hn
    cases rest with
    | nil =>
      have : c = a := by simpa using hm
      subst this
      rw [hl] at hn
      cases hn
    | cons b rest2 =>
      obtain ⟨h1, h2, h3⟩ := hl
      by_cases hca : c = a
      · subst hca
        rw [h1] at hn
        exact ⟨[], rest2, by rw [← Option.some_inj.mp hn]; rfl⟩
      · have hm2 : c ∈ b :: rest2 := by
          cases hm with
          | head => exact absurd rfl hca
          | tail _ h => exact h
        obtain ⟨pre, post, hp⟩ := ih c j h3 hm2 hn
        exact ⟨a :: pre, post, by rw [hp]; rfl⟩

end Nacaddr

namespace Nacaddr

theorem chainLinks_tail (s : CSt) (a : Nat) (rest : List Nat) (h : chainLinks s (a :: rest)) :
    chainLinks s rest := by
  cases rest with
  | nil => trivial
  | cons b rest2 => exact h.2.2

theorem chainLinks_transfer (s s' : CSt) : ∀ L : List Nat,
    (∀ x ∈ L, (getNode s' x).next = (getNode s x).next) →
    (∀ x ∈ L.tail, (getNode s' x).prev = (getNode s x).prev) →
    chainLinks s L → chainLinks s' L := by
  intro L
  induction L with
  | nil => exact fun _ _ _ => trivial
  | cons a rest ih =>
    intro hnext hprev hl
    cases rest with
    | nil =>
      show (getNode s' a).next = none
      rw [hnext a (by simp)]
      exact hl
    | cons b rest2 =>
      obtain ⟨h1, h2, h3⟩ := hl
      refine ⟨by rw [hnext a (by simp)]; exact h1, by rw [hprev b (by simp)]; exact h2, ?_⟩
      refine ih (fun x hx => hnext x (List.mem_cons_of_mem a hx)) (fun x hx => ?_) h3
      exact hprev x (by
        simp only [List.tail_cons] at hx ⊢
        exact List.mem_cons_of_mem b hx)

theorem chainLinks_mid (s : CSt) : ∀ pre : List Nat, ∀ c j : Nat, ∀ post : List Nat,
    chainLinks s (pre ++ c :: j :: post) →
    (getNode s c).next = some j ∧ (getNode s j).prev = some c := by
  intro pre
  induction pre with
  | nil => exact fun c j post h => ⟨h.1, h.2.1⟩
  | cons a pre' ih =>
    intro c j post h
    exact ih c j post (chainLinks_tail s a _ h)

end Nacaddr

namespace Nacaddr

theorem mergeCore_some (s : CSt) (c j k : Nat) (t : String)
    (hnext : (getNode s c).next = some j) (hjn : (getNode s j).next = some k)
    (hcl : c < s.nodes.length) (hjl : j < s.nodes.length) (hkl : k < s.nodes.length)
    (hcj : c ≠ j) (hck : c ≠ k) (hjk : j ≠ k) :
    getNode (removeNext (mutComment s c t) c) c =
      { getNode s c with val := AddComment (getNode s c).val t, next := some k } ∧
    getNode (removeNext (mutComment s c t) c) j =
      { getNode s j with next := none, prev := none } ∧
    getNode (removeNext (mutComment s c t) c) k = { getNode s k with prev := some c } ∧
    (∀ x, x ≠ c → x ≠ j → x ≠ k → getNode (removeNext (mutComment s c t) c) x = getNode s x) := by
  have hm_c : getNode (mutComment s c t) c =
      { getNode s c with val := AddComment (getNode s c).val t } := by
    rw [getNode_mutComment, if_pos ⟨rfl, hcl⟩]
  have hm_x : ∀ x, x ≠ c → getNode (mutComment s c t) x = getNode s x := by
    intro x hx
    rw [getNode_mutComment, if_neg (fun hcon => hx hcon.1.symm)]
  have h1 : (getNode (mutComment s c t) c).next = some j := by
    rw [hm_c]
    exact hnext
  have h2 : (getNode (mutComment s c t) j).next = some k := by
    rw [hm_x j (Ne.symm hcj)]
    exact hjn
  have hrn : removeNext (mutComment s c t) c =
      setPrevCell (setNextCell (clearCell (mutComment s c t) j) c (some k)) k (some c) := by
    unfold removeNext
    rw [h1]
    show (match (getNode (mutComment s c t) j).next with
      | none => setNextCell (clearCell (mutComment s c t) j) c none
      | some kk =>
        setPrevCell (setNextCell (clearCell (mutComment s c t) j) c (some kk)) kk (some c)) = _
    rw [h2]
  have hlen1 : c < (clearCell (mutComment s c t) j).nodes.length := by
    rw [nodes_length_clearCell, nodes_length_mutComment]
    exact hcl
  have hlen2 : j < (mutComment s c t).nodes.length := by
    rw [nodes_length_mutComment]
    exact hjl
  have hlen3 : k < (setNextCell (clearCell (mutComment s c t) j) c (some k)).nodes.length := by
    rw [nodes_length_setNextCell, nodes_length_clearCell, nodes_length_mutComment]
    exact hkl
  refine ⟨?_, ?_, ?_, ?_⟩
  · rw [hrn, getNode_setPrevCell, if_neg (fun hcon => hck hcon.1.symm), getNode_setNextCell,
      if_pos ⟨rfl, hlen1⟩, getNode_clearCell, if_neg (fun hcon => hcj hcon.1.symm), hm_c]
  · rw [hrn, getNode_setPrevCell, if_neg (fun hcon => hjk hcon.1.symm), getNode_setNextCell,
      if_neg (fun hcon => hcj hcon.1), getNode_clearCell, if_pos ⟨rfl, hlen2⟩,
      hm_x j (Ne.symm hcj)]
  · rw [hrn, getNode_setPrevCell, if_pos ⟨rfl, hlen3⟩, getNode_setNextCell,
      if_neg (fun hcon => hck hcon.1), getNode_clearCell, if_neg (fun hcon => hjk hcon.1),
      hm_x k (Ne.symm hck)]
  · intro x hxc hxj hxk
    rw [hrn, getNode_setPrevCell, if_neg (fun hcon => hxk hcon.1.symm), getNode_setNextCell,
      if_neg (fun hcon => hxc hcon.1.symm), getNode_clearCell,
      if_neg (fun hcon => hxj hcon.1.symm), hm_x x hxc]

theorem mergeCore_none (s : CSt) (c j : Nat) (t : String)
    (hnext : (getNode s c).next = some j) (hjn : (getNode s j).next = none)
    (hcl : c < s.nodes.length) (hjl : j < s.nodes.length) (hcj : c ≠ j) :
    getNode (removeNext (mutComment s c t) c) c =
      { getNode s c with val := AddComment (getNode s c).val t, next := none } ∧
    getNode (removeNext (mutComment s c t) c) j =
      { getNode s j with next := none, prev := none } ∧
    (∀ x, x ≠ c → x ≠ j → getNode (removeNext (mutComment s c t) c) x = getNode s x) := by
  have hm_c : getNode (mutComment s c t) c =
      { getNode s c with val := AddComment (getNode s c).val t } := by
    rw [getNode_mutComment, if_pos ⟨rfl, hcl⟩]
  have hm_x : ∀ x, x ≠ c → getNode (mutComment s c t) x = getNode s x := by
    intro x hx
    rw [getNode_mutComment, if_neg (fun hcon => hx hcon.1.symm)]
  have h1 : (getNode (mutComment s c t) c).next = some j := by
    rw [hm_c]
    exact hnext
  have h2 : (getNode (mutComment s c t) j).next = none := by
    rw [hm_x j (Ne.symm hcj)]
    exact hjn
  have hrn : removeNext (mutComment s c t) c =
      setNextCell (clearCell (mutComment s c t) j) c none := by
    unfold removeNext
    rw [h1]
    show (match (getNode (mutComment s c t) j).next with
      | none => setNextCell (clearCell (mutComment s c t) j) c none
      | some kk =>
        setPrevCell (setNextCell (clearCell (mutComment s c t) j) c (some kk)) kk (some c)) = _
    rw [h2]
  have hlen1 : c < (clearCell (mutComment s c t) j).nodes.length := by
    rw [nodes_length_clearCell, nodes_length_mutComment]
    exact hcl
  have hlen2 : j < (mutComment s c t).nodes.length := by
    rw [nodes_length_mutComment]
    exact hjl
  refine ⟨?_, ?_, ?_⟩
  · rw [hrn, getNode_setNextCell, if_pos ⟨rfl, hlen1⟩, getNode_clearCell,
      if_neg (fun hcon => hcj hcon.1.symm), hm_c]
  · rw [hrn, getNode_setNextCell, if_neg (fun hcon => hcj hcon.1), getNode_clearCell,
      if_pos ⟨rfl, hlen2⟩, hm_x j (Ne.symm hcj)]
  · intro x hxc hxj
    rw [hrn, getNode_setNextCell, if_neg (fun hcon => hxc hcon.1.symm), getNode_clearCell,
      if_neg (fun hcon => hxj hcon.1.symm), hm_x x hxc]

end Nacaddr

namespace Nacaddr

theorem chainLinks_induct (s s' : CSt) (c : Nat) : ∀ pre : List Nat,
    (∀ x ∈ pre, (getNode s' x).next = (getNode s x).next ∧
      (getNode s' x).prev = (getNode s x).prev) →
    (getNode s' c).prev = (getNode s c).prev →
    ∀ tail tail' : List Nat, chainLinks s' (c :: tail') →
    chainLinks s (pre ++ c :: tail) → chainLinks s' (pre ++ c :: tail') := by
  intro pre
  induction pre with
  | nil => exact fun _ _ _ _ h _ => h
  | cons a pre' ih =>
    intro hpre hcprev tail tail' hnew hold
    have hold' : chainLinks s (pre' ++ c :: tail) := chainLinks_tail s a _ hold
    have hrec := ih (fun x hx => hpre x (List.mem_cons_of_mem a hx)) hcprev tail tail' hnew hold'
    cases hp : pre' with
    | nil =>
      subst hp
      obtain ⟨h1, h2, _⟩ := hold
      exact ⟨by rw [(hpre a (by simp)).1]; exact h1, by rw [hcprev]; exact h2, hrec⟩
    | cons b pre2 =>
      subst hp
      obtain ⟨h1, h2, _⟩ := hold
      refine ⟨by rw [(hpre a (by simp)).1]; exact h1, ?_, hrec⟩
      rw [(hpre b (by simp)).2]
      exact h2

end Nacaddr

namespace Nacaddr

theorem mergeChain_wf (s : CSt) (pre post : List Nat) (c j : Nat) (t : String)
    (hwf : WFChain s (pre ++ c :: j :: post)) :
    WFChain (removeNext (mutComment s c t) c) (pre ++ c :: post) ∧
    chainVals (removeNext (mutComment s c t) c) (pre ++ c :: post) =
      chainVals s pre ++ AddComment (getNode s c).val t :: chainVals s post ∧
    (getNode (removeNext (mutComment s c t) c) c).val = AddComment (getNode s c).val t ∧
    (∀ x, x ≠ c → x ≠ j → (getNode (removeNext (mutComment s c t) c) x).val =
      (getNode s x).val) ∧
    (getNode (removeNext (mutComment s c t) c) c).prev = (getNode s c).prev := by
  obtain ⟨w1, w2, w3, w4, w5, w6⟩ := hwf
  have hpw : (pre ++ c :: j :: post).Pairwise (· < ·) := List.chain'_iff_pairwise.mp w4
  have hpw2 := List.pairwise_append.mp hpw
  have hprelt : ∀ x ∈ pre, x < c := fun x hx => hpw2.2.2 x hx c (by simp)
  have hcj : c < j := by
    have := hpw2.2.1
    exact (List.pairwise_cons.mp this).1 j (by simp)
  have hjpost : ∀ y ∈ post, j < y := by
    have h1 := hpw2.2.1
    have h2 := (List.pairwise_cons.mp h1).2
    exact fun y hy => (List.pairwise_cons.mp h2).1 y hy
  have hcpost : ∀ y ∈ post, c < y := fun y hy => lt_trans hcj (hjpost y hy)
  have ⟨hnext, hprevj⟩ := chainLinks_mid s pre c j post w3
  have hcl : c < s.nodes.length := w5 c (by simp)
  have hjl : j < s.nodes.length := w5 j (by simp)
  have hmlen : (removeNext (mutComment s c t) c).nodes.length = s.nodes.length := by
    rw [nodes_length_removeNext, nodes_length_mutComment]
  have hj0 : j ≠ 0 := by
    intro hj0
    rw [hj0] at hprevj
    rw [w2] at hprevj
    cases hprevj
  have hsub : List.Sublist (pre ++ c :: post) (pre ++ c :: j :: post) :=
    List.Sublist.append_left (List.Sublist.cons₂ c (List.sublist_cons_self j post)) pre
  have hmem : ∀ x ∈ pre ++ c :: post, x ∈ pre ++ c :: j :: post := fun x hx => hsub.mem hx
  cases hpost : post with
  | nil =>
    subst hpost
    have hjn : (getNode s j).next = none := by
      have := chainLinks_mid s pre c j []
      have h3 : chainLinks s ((pre ++ [c]) ++ j :: []) := by
        simpa using w3
      clear this
      revert h3
      generalize pre ++ [c] = pc
      intro h3
      induction pc with
      | nil => exact h3
      | cons a rest ih => exact ih (chainLinks_tail s a _ h3)
    obtain ⟨mcc, mcj, mcx⟩ := mergeCore_none s c j t hnext hjn hcl hjl (Nat.ne_of_lt hcj)
    refine ⟨?_, ?_, by rw [mcc], fun x hxc hxj => by rw [mcx x hxc hxj], by rw [mcc]⟩
    · refine ⟨?_, ?_, ?_, ?_, ?_, ?_⟩
      · rw [List.head?_append] at w1 ⊢
        cases hp : pre.head? with
        | none => simpa [hp] using w1
        | some a0 => simpa [hp] using w1
      · by_cases h0c : (0 : Nat) = c
        · subst h0c
          rw [mcc]
          exact w2
        · by_cases h0j : (0 : Nat) = j
          · exact absurd h0j.symm hj0
          · rw [mcx 0 h0c h0j]
            exact w2
      · refine chainLinks_induct s _ c pre ?_ ?_ (j :: []) [] ?_ w3
        · intro x hx
          have hxc : x ≠ c := Nat.ne_of_lt (hprelt x hx)
          have hxj : x ≠ j := Nat.ne_of_lt (lt_trans (hprelt x hx) hcj)
          rw [mcx x hxc hxj]
          exact ⟨rfl, rfl⟩
        · rw [mcc]
        · show (getNode (removeNext (mutComment s c t) c) c).next = none
          rw [mcc]
      · exact List.chain'_iff_pairwise.mpr (List.Pairwise.sublist hsub hpw)
      · intro i hi
        rw [hmlen]
        exact w5 i (hmem i hi)
      · intro i hi hni
        by_cases hij : i = j
        · subst hij
          rw [mcj]
          exact ⟨rfl, rfl⟩
        · have hic : i ≠ c := by
            intro hic
            exact hni (by rw [hic]; simp)
          rw [mcx i hic hij]
          refine w6 i (by rw [hmlen] at hi; exact hi) ?_
          intro hmem2
          rcases List.mem_append.mp hmem2 with hm | hm
          · exact hni (List.mem_append.mpr (Or.inl hm))
          · rw [List.mem_cons] at hm
            rcases hm with hm | hm
            · exact hic hm
            · rw [List.mem_cons] at hm
              rcases hm with hm | hm
              · exact hij hm
              · cases hm
    · unfold chainVals
      rw [List.map_append, List.map_cons]
      congr 1
      · apply List.map_congr_left
        intro x hx
        rw [mcx x (Nat.ne_of_lt (hprelt x hx)) (Nat.ne_of_lt (lt_trans (hprelt x hx) hcj))]
      · congr 1
        rw [mcc]
  | cons k post2 =>
    subst hpost
    have hjk : j < k := hjpost k (by simp)
    have hkl : k < s.nodes.length := w5 k (by simp)
    have hjn : (getNode s j).next = some k ∧ (getNode s k).prev = some j := by
      have h3 : chainLinks s ((pre ++ [c]) ++ j :: k :: post2) := by simpa using w3
      exact chainLinks_mid s (pre ++ [c]) j k post2 h3
    obtain ⟨mcc, mcj, mck, mcx⟩ := mergeCore_some s c j k t hnext hjn.1 hcl hjl hkl
      (Nat.ne_of_lt hcj) (Nat.ne_of_lt (lt_trans hcj hjk)) (Nat.ne_of_lt hjk)
    have hk0 : k ≠ 0 := by
      intro hk0
      rw [hk0] at hjn
      rw [w2] at hjn
      cases hjn.2
    refine ⟨?_, ?_, by rw [mcc], ?_, by rw [mcc]⟩
    · refine ⟨?_, ?_, ?_, ?_, ?_, ?_⟩
      · rw [List.head?_append] at w1 ⊢
        cases hp : pre.head? with
        | none => simpa [hp] using w1
        | some a0 => simpa [hp] using w1
      · by_cases h0c : (0 : Nat) = c
        · subst h0c
          rw [mcc]
          exact w2
        · by_cases h0j : (0 : Nat) = j
          · exact absurd h0j.symm hj0
          · by_cases h0k : (0 : Nat) = k
            · exact absurd h0k.symm hk0
            · rw [mcx 0 h0c h0j h0k]
              exact w2
      · refine chainLinks_induct s _ c pre ?_ ?_ (j :: k :: post2) (k :: post2) ?_ w3
        · intro x hx
          have hxc : x ≠ c := Nat.ne_of_lt (hprelt x hx)
          have hxj : x ≠ j := Nat.ne_of_lt (lt_trans (hprelt x hx) hcj)
          have hxk : x ≠ k := Nat.ne_of_lt (lt_trans (hprelt x hx) (lt_trans hcj hjk))
          rw [mcx x hxc hxj hxk]
          exact ⟨rfl, rfl⟩
        · rw [mcc]
        · refine ⟨by rw [mcc], by rw [mck], ?_⟩
          have holdtail : chainLinks s (k :: post2) := by
            have h3 : chainLinks s (j :: k :: post2) := by
              have h4 : chainLinks s ((pre ++ [c]) ++ j :: k :: post2) := by simpa using w3
              clear hjn
              revert h4
              generalize pre ++ [c] = pc
              intro h4
              induction pc with
              | nil => exact h4
              | cons a rest ih => exact ih (chainLinks_tail s a _ h4)
            exact chainLinks_tail s j _ h3
          refine chainLinks_transfer s _ (k :: post2) ?_ ?_ holdtail
          · intro x hx
            by_cases hxk : x = k
            · rw [hxk, mck]
            · have hxj2 : j < x := hjpost x hx
              rw [mcx x (Nat.ne_of_lt (lt_trans hcj hxj2)).symm (Nat.ne_of_lt hxj2).symm hxk]
          · intro x hx
            simp only [List.tail_cons] at hx
            have hkx : k < x := by
              have hpwk : List.Pairwise (· < ·) (k :: post2) := by
                have := List.pairwise_append.mp hpw
                have h5 : List.Pairwise (· < ·) (c :: j :: k :: post2) := this.2.1
                exact ((List.pairwise_cons.mp ((List.pairwise_cons.mp h5).2)).2)
              exact (List.pairwise_cons.mp hpwk).1 x hx
            have hjx : j < x := lt_trans hjk hkx
            rw [mcx x (Nat.ne_of_lt (lt_trans hcj hjx)).symm (Nat.ne_of_lt hjx).symm
              (Nat.ne_of_lt hkx).symm]
      · exact List.chain'_iff_pairwise.mpr (List.Pairwise.sublist hsub hpw)
      · intro i hi
        rw [hmlen]
        exact w5 i (hmem i hi)
      · intro i hi hni
        by_cases hij : i = j
        · subst hij
          rw [mcj]
          exact ⟨rfl, rfl⟩
        · have hic : i ≠ c := by
            intro hic
            exact hni (by rw [hic]; simp)
          have hik : i ≠ k := by
            intro hik
            exact hni (by rw [hik]; simp)
          rw [mcx i hic hij hik]
          refine w6 i (by rw [hmlen] at hi; exact hi) ?_
          intro hmem2
          rcases List.mem_append.mp hmem2 with hm | hm
          · exact hni (List.mem_append.mpr (Or.inl hm))
          · rw [List.mem_cons] at hm
            rcases hm with hm | hm
            · exact hic hm
            · rw [List.mem_cons] at hm
              rcases hm with hm | hm
              · exact hij hm
              · exact hni (List.mem_append.mpr (Or.inr (List.mem_cons_of_mem c hm)))
    · unfold chainVals
      rw [List.map_append]
      congr 1
      · apply List.map_congr_left
        intro x hx
        have hxc : x ≠ c := Nat.ne_of_lt (hprelt x hx)
        have hxj : x ≠ j := Nat.ne_of_lt (lt_trans (hprelt x hx) hcj)
        have hxk : x ≠ k := Nat.ne_of_lt (lt_trans (hprelt x hx) (lt_trans hcj hjk))
        rw [mcx x hxc hxj hxk]
      · rw [List.map_cons]
        congr 1
        · rw [mcc]
        · apply List.map_congr_left
          intro x hx
          by_cases hxk : x = k
          · rw [hxk, mck]
          · have hjx : j < x := hjpost x hx
            rw [mcx x (Nat.ne_of_lt (lt_trans hcj hjx)).symm (Nat.ne_of_lt hjx).symm hxk]
    · intro x hxc hxj
      by_cases hxk : x = k
      · rw [hxk, mck]
      · rw [mcx x hxc hxj hxk]
end Nacaddr

namespace Nacaddr

theorem bcast_of_sameNetTok {p q : AnnIP} (h : SameNetTok p q) : bcast q = bcast p := by
  obtain ⟨h1, h2, h3, _, _⟩ := h
  unfold bcast numAddrs
  rw [h1, h2, h3]

theorem covers_of_sameNetTok {p q : AnnIP} (h : SameNetTok p q) (v a : Nat) :
    coversAddr q v a ↔ coversAddr p v a := by
  unfold coversAddr
  rw [h.1, h.2.1, bcast_of_sameNetTok h]

theorem canon_of_sameNetTok {p q : AnnIP} (h : SameNetTok p q) (hc : Canon p) : Canon q := by
  obtain ⟨h1, h2, h3, _, _⟩ := h
  unfold Canon at hc ⊢
  rw [h1, h2, h3]
  exact hc

theorem supernetOf_covers {a b : AnnIP} (h : supernetOfB a b = true) (v x : Nat)
    (hc : coversAddr b v x) : coversAddr a v x := by
  unfold supernetOfB at h
  simp only [Bool.and_eq_true, beq_iff_eq, decide_eq_true_eq] at h
  obtain ⟨⟨hv, ha⟩, hb⟩ := h
  obtain ⟨c1, c2, c3⟩ := hc
  exact ⟨hv.trans c1, le_trans ha c2, le_trans c3 hb⟩

theorem listCovers_cons (p : AnnIP) (L : List AnnIP) (v a : Nat) :
    listCovers (p :: L) v a ↔ coversAddr p v a ∨ listCovers L v a := by
  unfold listCovers
  constructor
  · rintro ⟨q, hq, hc⟩
    rcases List.mem_cons.mp hq with h | h
    · exact Or.inl (h ▸ hc)
    · exact Or.inr ⟨q, h, hc⟩
  · rintro (h | ⟨q, hq, hc⟩)
    · exact ⟨p, List.mem_cons_self p L, h⟩
    · exact ⟨q, List.mem_cons_of_mem p hq, hc⟩

theorem listCovers_append (L1 L2 : List AnnIP) (v a : Nat) :
    listCovers (L1 ++ L2) v a ↔ listCovers L1 v a ∨ listCovers L2 v a := by
  unfold listCovers
  constructor
  · rintro ⟨q, hq, hc⟩
    rcases List.mem_append.mp hq with h | h
    · exact Or.inl ⟨q, h, hc⟩
    · exact Or.inr ⟨q, h, hc⟩
  · rintro (⟨q, hq, hc⟩ | ⟨q, hq, hc⟩)
    · exact ⟨q, List.mem_append.mpr (Or.inl hq), hc⟩
    · exact ⟨q, List.mem_append.mpr (Or.inr hq), hc⟩

end Nacaddr

namespace Nacaddr

theorem Supernet1_plen_zero (p : AnnIP) (h : p.plen = 0) : Supernet1 p = p := by
  unfold Supernet1 supernetE
  rw [if_pos h]

theorem Supernet1_plen_pos (p : AnnIP) (h : 0 < p.plen) :
    Supernet1 p = ⟨p.version, p.addr - p.addr % 2 ^ (width p.version - (p.plen - 1)),
      p.plen - 1, p.text, p.token, p.token⟩ := by
  unfold Supernet1 supernetE
  rw [if_neg (by omega), if_neg (by omega)]

theorem sibling_supernet_spec (c j : AnnIP) (hcc : Canon c) (hcj : Canon j)
    (hv : c.version = j.version) (hp : c.plen = j.plen)
    (hadj : bcast c + 1 = j.addr) (halign : (Supernet1 c).addr = c.addr) :
    Canon (Supernet1 c) ∧
      (∀ v a, coversAddr (Supernet1 c) v a ↔ coversAddr c v a ∨ coversAddr j v a) := by
  obtain ⟨hv4, hple, hlt, hmod⟩ := hcc
  obtain ⟨_, hple2, hlt2, hmod2⟩ := hcj
  have hw : width j.version = width c.version := by rw [hv]
  rcases Nat.eq_zero_or_pos c.plen with hp0 | hp1
  · exfalso
    have hNc : numAddrs c = 2 ^ width c.version := by
      unfold numAddrs
      rw [hp0, Nat.sub_zero]
    have haddr0 : c.addr = 0 := by
      have : c.addr % 2 ^ (width c.version - c.plen) = c.addr := by
        apply Nat.mod_eq_of_lt
        calc c.addr < 2 ^ width c.version := hlt
          _ ≤ 2 ^ (width c.version - c.plen) := by rw [hp0, Nat.sub_zero]
      rw [this] at hmod
      exact hmod
    have hpos : 0 < 2 ^ width c.version := Nat.pos_pow_of_pos _ (by norm_num)
    have : j.addr = 2 ^ width c.version := by
      unfold bcast at hadj
      rw [hNc, haddr0] at hadj
      omega
    rw [hw] at hlt2
    omega
  · have hSc := Supernet1_plen_pos c hp1
    have halign2 : c.addr % 2 ^ (width c.version - (c.plen - 1)) = 0 := by
      rw [hSc] at halign
      simp only at halign
      have hle : c.addr % 2 ^ (width c.version - (c.plen - 1)) ≤ c.addr :=
        Nat.mod_le _ _
      omega
    have hNpos : 0 < numAddrs c := numAddrs_pos c
    have hSc2 : Supernet1 c = ⟨c.version, c.addr, c.plen - 1, c.text, c.token, c.token⟩ := by
      rw [hSc, halign2, Nat.sub_zero]
    refine ⟨?_, ?_⟩
    · rw [hSc2]
      refine ⟨hv4, by simp only; omega, by simp only; exact hlt, by simp only; exact halign2⟩
    · intro v a
      have hNj : numAddrs j = numAddrs c := by
        unfold numAddrs
        rw [← hv, ← hp]
      have hNS : numAddrs (Supernet1 c) = 2 * numAddrs c := by
        rw [hSc2]
        unfold numAddrs
        simp only
        rw [show width c.version - (c.plen - 1) = (width c.version - c.plen) + 1 by omega,
          pow_succ]
        ring
      have hja : j.addr = c.addr + numAddrs c := by
        unfold bcast at hadj
        omega
      unfold coversAddr
      rw [bcast, bcast, bcast, hNS, hNj, hja]
      rw [hSc2]
      simp only
      rw [← hv]
      constructor
      · rintro ⟨h1, h2, h3⟩
        by_cases hcase : a ≤ c.addr + numAddrs c - 1
        · exact Or.inl ⟨h1, h2, hcase⟩
        · exact Or.inr ⟨h1, by omega, by omega⟩
      · rintro (⟨h1, h2, h3⟩ | ⟨h1, h2, h3⟩)
        · exact ⟨h1, h2, by omega⟩
        · exact ⟨h1, by omega, by omega⟩

end Nacaddr

namespace Nacaddr

theorem supernet1_sameNetTok_addr {p q : AnnIP} (h : SameNetTok p q) :
    (Supernet1 q).addr = (Supernet1 p).addr := by
  obtain ⟨h1, h2, h3, _, _⟩ := h
  rcases Nat.eq_zero_or_pos p.plen with hp0 | hp1
  · rw [Supernet1_plen_zero p hp0, Supernet1_plen_zero q (by rw [h3]; exact hp0), h2]
  · rw [Supernet1_plen_pos p hp1, Supernet1_plen_pos q (by rw [h3]; exact hp1), h1, h2, h3]

theorem chainVals_congr (s s' : CSt) (cs : List Nat)
    (h : ∀ x ∈ cs, (getNode s' x).val = (getNode s x).val) :
    chainVals s' cs = chainVals s cs := by
  unfold chainVals
  exact List.map_congr_left h

theorem WFChain_pushFront (s : CSt) (c : Nat) (cs : List Nat) (h : WFChain s cs) :
    WFChain (pushFront s c) cs :=
  WFChain_congr s (pushFront s c) rfl (fun _ => ⟨rfl, rfl⟩) cs h

theorem WFChain_enqueuePrev (s : CSt) (c : Nat) (cs : List Nat) (h : WFChain s cs) :
    WFChain (enqueuePrev s c) cs := by
  refine WFChain_congr s _ (nodes_length_enqueuePrev s c) ?_ cs h
  intro x
  rw [getNode_enqueuePrev]
  exact ⟨rfl, rfl⟩

theorem WFChain_rebind (s : CSt) (c : Nat) (cs : List Nat) (h : WFChain s cs) :
    WFChain (rebindSupernet s c) cs := by
  refine WFChain_congr s _ (nodes_length_rebindSupernet s c) ?_ cs h
  exact links_rebindSupernet s c

theorem chainVals_enqueuePrev (s : CSt) (c : Nat) (cs : List Nat) :
    chainVals (enqueuePrev s c) cs = chainVals s cs := by
  refine chainVals_congr s _ cs fun x _ => ?_
  rw [getNode_enqueuePrev]

theorem chainVals_rebind (s : CSt) (c : Nat) (pre post : List Nat)
    (hcl : c < s.nodes.length) (hpre : ∀ x ∈ pre, x ≠ c) (hpost : ∀ x ∈ post, x ≠ c) :
    chainVals (rebindSupernet s c) (pre ++ c :: post) =
      chainVals s pre ++ Supernet1 (getNode s c).val :: chainVals s post := by
  unfold chainVals
  rw [List.map_append, List.map_cons]
  congr 1
  · apply List.map_congr_left
    intro x hx
    rw [getNode_rebindSupernet, if_neg (fun hcon => hpre x hx hcon.1.symm)]
  · congr 1
    · rw [getNode_rebindSupernet, if_pos ⟨rfl, hcl⟩]
    · apply List.map_congr_left
      intro x hx
      rw [getNode_rebindSupernet, if_neg (fun hcon => hpost x hx hcon.1.symm)]

end Nacaddr

namespace Nacaddr

theorem chainVals_pushFront (s : CSt) (c : Nat) (cs : List Nat) :
    chainVals (pushFront s c) cs = chainVals s cs :=
  chainVals_congr s (pushFront s c) cs fun _ _ => rfl

theorem mem_chain_of_next (s : CSt) (cs : List Nat) (hwf : WFChain s cs) (c j : Nat)
    (hj : (getNode s c).next = some j) : c ∈ cs := by
  by_cases hcl : c < s.nodes.length
  · by_contra hni
    have hd := (hwf.2.2.2.2.2 c hcl hni).1
    rw [hd] at hj
    cases hj
  · rw [getNode_oob s c hcl] at hj
    cases hj

theorem chainVals_decomp (s : CSt) (pre post : List Nat) (c j : Nat) :
    chainVals s (pre ++ c :: j :: post) =
      chainVals s pre ++ (getNode s c).val :: (getNode s j).val :: chainVals s post := by
  unfold chainVals
  rw [List.map_append, List.map_cons, List.map_cons]

theorem c2inv_step (S0 : List AnnIP) (comps : Nat × Nat → List AnnIP) (s : CSt) (c : Nat)
    (h : C2Inv S0 s) : C2Inv S0 (collapseStep comps s c) := by
  obtain ⟨cs, hwf, hlen, hcanon, hcov⟩ := h
  unfold collapseStep
  split
  · exact ⟨cs, hwf, hlen, hcanon, hcov⟩
  · rename_i j hj
    by_cases h1 : SafeToMerge (getNode s j).val (getNode s c).val comps = false
    · rw [if_pos h1]
      exact ⟨cs, hwf, hlen, hcanon, hcov⟩
    · rw [if_neg h1]
      have hcmem : c ∈ cs := mem_chain_of_next s cs hwf c j hj
      obtain ⟨pre, post, hcs⟩ := chainLinks_decomp s cs c j hwf.2.2.1 hcmem hj
      subst hcs
      have hvals_old := chainVals_decomp s pre post c j
      have hcanc : Canon (getNode s c).val := by
        apply hcanon
        rw [hvals_old]
        exact List.mem_append.mpr (Or.inr (by simp))
      have hcanj : Canon (getNode s j).val := by
        apply hcanon
        rw [hvals_old]
        exact List.mem_append.mpr (Or.inr (by simp))
      by_cases h2 : supernetOfB (getNode s c).val (getNode s j).val = true
      · rw [if_pos h2]
        obtain ⟨hwf', hvals', hcval', hother', hcprev'⟩ :=
          mergeChain_wf s pre post c j (getNode s j).val.text hwf
        refine ⟨pre ++ c :: post, WFChain_pushFront _ c _ hwf', ?_, ?_, ?_⟩
        · rw [nodes_length_pushFront, nodes_length_removeNext, nodes_length_mutComment]
          exact hlen
        · intro p hp
          rw [chainVals_pushFront, hvals'] at hp
          rcases List.mem_append.mp hp with hm | hm
          · exact hcanon p (by rw [hvals_old]; exact List.mem_append.mpr (Or.inl hm))
          · rcases List.mem_cons.mp hm with hm2 | hm2
            · rw [hm2]
              exact canon_of_sameNetTok (textExtends_addComment _ _).1 hcanc
            · exact hcanon p
                (by rw [hvals_old]; exact List.mem_append.mpr (Or.inr (by simp [hm2])))
        · intro v a
          rw [chainVals_pushFront, hvals', ← hcov v a, hvals_old]
          rw [listCovers_append, listCovers_append, listCovers_cons, listCovers_cons,
            listCovers_cons]
          have e1 : coversAddr (AddComment (getNode s c).val (getNode s j).val.text) v a ↔
              coversAddr (getNode s c).val v a :=
            covers_of_sameNetTok (textExtends_addComment _ _).1 v a
          have e2 : coversAddr (getNode s j).val v a → coversAddr (getNode s c).val v a :=
            supernetOf_covers h2 v a
          tauto
      · rw [if_neg h2]
        by_cases h3 : sibGuardB (getNode s c).val (getNode s j).val = true
        · rw [if_pos h3]
          unfold sibGuardB at h3
          simp only [Bool.and_eq_true, beq_iff_eq] at h3
          obtain ⟨⟨⟨hv, hp⟩, hadj⟩, halign⟩ := h3
          obtain ⟨hwf', hvals', hcval', hother', hcprev'⟩ :=
            mergeChain_wf s pre post c j (getNode s j).val.text hwf
          have hnew := List.chain'_iff_pairwise.mp hwf'.2.2.2.1
          have hnew2 := List.pairwise_append.mp hnew
          have hprene : ∀ x ∈ pre, x ≠ c :=
            fun x hx => Nat.ne_of_lt (hnew2.2.2 x hx c (by simp))
          have hpostne : ∀ x ∈ post, x ≠ c := by
            intro x hx
            have := (List.pairwise_cons.mp hnew2.2.1).1 x hx
            omega
          have hclen : c < (removeNext (mutComment s c (getNode s j).val.text) c).nodes.length := by
            rw [nodes_length_removeNext, nodes_length_mutComment]
            exact hwf.2.2.2.2.1 c (List.mem_append.mpr (Or.inr (by simp)))
          have hsame : SameNetTok (getNode s c).val
              (AddComment (getNode s c).val (getNode s j).val.text) :=
            (textExtends_addComment _ _).1
          have hcanx : Canon (AddComment (getNode s c).val (getNode s j).val.text) :=
            canon_of_sameNetTok hsame hcanc
          obtain ⟨hcanS, hcovS⟩ := sibling_supernet_spec
            (AddComment (getNode s c).val (getNode s j).val.text) (getNode s j).val
            hcanx hcanj (by rw [hsame.1, hv]) (by rw [hsame.2.2.1, hp])
            (by rw [bcast_of_sameNetTok hsame, hadj])
            (by rw [supernet1_sameNetTok_addr hsame, halign, hsame.2.1])
          refine ⟨pre ++ c :: post,
            WFChain_enqueuePrev _ c _ (WFChain_pushFront _ c _ (WFChain_rebind _ c _ hwf')),
            ?_, ?_, ?_⟩
          · rw [nodes_length_enqueuePrev, nodes_length_pushFront, nodes_length_rebindSupernet,
              nodes_length_removeNext, nodes_length_mutComment]
            exact hlen
          · intro p hp
            rw [chainVals_enqueuePrev, chainVals_pushFront,
              chainVals_rebind _ c pre post hclen hprene hpostne, hcval'] at hp
            rcases List.mem_append.mp hp with hm | hm
            · have : chainVals (removeNext (mutComment s c (getNode s j).val.text) c) pre =
                  chainVals s pre := by
                have happ := hvals'
                rw [show pre ++ c :: post = pre ++ (c :: post) from rfl] at happ
                unfold chainVals at happ ⊢
                rw [List.map_append] at happ
                exact (List.append_inj happ (by simp [chainVals])).1
              rw [this] at hm
              exact hcanon p (by rw [hvals_old]; exact List.mem_append.mpr (Or.inl hm))
            · rcases List.mem_cons.mp hm with hm2 | hm2
              · rw [hm2]
                exact hcanS
              · have : chainVals (removeNext (mutComment s c (getNode s j).val.text) c) post =
                    chainVals s post := by
                  have happ := hvals'
                  unfold chainVals at happ ⊢
                  rw [List.map_append, List.map_cons] at happ
                  have := (List.append_inj happ (by simp [chainVals])).2
                  rw [← hcval'] at this
                  exact (List.cons_inj_right _).mp this
                rw [this] at hm2
                exact hcanon p
                  (by rw [hvals_old]; exact List.mem_append.mpr (Or.inr (by simp [hm2])))
          · intro v a
            rw [chainVals_enqueuePrev, chainVals_pushFront,
              chainVals_rebind _ c pre post hclen hprene hpostne, hcval']
            have hpre_eq : chainVals (removeNext (mutComment s c (getNode s j).val.text) c) pre =
                chainVals s pre := by
              have happ := hvals'
              unfold chainVals at happ ⊢
              rw [List.map_append] at happ
              exact (List.append_inj happ (by simp [chainVals])).1
            have hpost_eq : chainVals (removeNext (mutComment s c (getNode s j).val.text) c)
                post = chainVals s post := by
              have happ := hvals'
              unfold chainVals at happ ⊢
              rw [List.map_append, List.map_cons] at happ
              have := (List.append_inj happ (by simp [chainVals])).2
              rw [← hcval'] at this
              exact (List.cons_inj_right _).mp this
            rw [hpre_eq, hpost_eq, ← hcov v a, hvals_old]
            rw [listCovers_append, listCovers_append, listCovers_cons, listCovers_cons,
              listCovers_cons]
            have e1 := hcovS v a
            have e2 : coversAddr (AddComment (getNode s c).val (getNode s j).val.text) v a ↔
                coversAddr (getNode s c).val v a :=
              covers_of_sameNetTok hsame v a
            tauto
        · rw [if_neg h3]
          refine ⟨pre ++ c :: j :: post, hwf, hlen, hcanon, hcov⟩

end Nacaddr

namespace Nacaddr

theorem chain_length_le (cs : List Nat) (n : Nat) (hc : cs.Chain' (· < ·))
    (hb : ∀ i ∈ cs, i < n) : cs.length ≤ n := by
  have hnd : cs.Nodup := (List.chain'_iff_pairwise.mp hc).nodup
  have hsub : cs ⊆ List.range n := fun i hi => List.mem_range.mpr (hb i hi)
  have := (List.Nodup.subperm hnd hsub).length_le
  simpa using this

theorem c2inv_fringe (S0 : List AnnIP) (s : CSt) (f : List Nat) (h : C2Inv S0 s) :
    C2Inv S0 { s with fringe := f } := by
  obtain ⟨cs, hwf, hlen, hcanon, hcov⟩ := h
  have hv : chainVals { s with fringe := f } cs = chainVals s cs :=
    chainVals_congr s _ cs fun _ _ => rfl
  refine ⟨cs, WFChain_congr s { s with fringe := f } rfl (fun _ => ⟨rfl, rfl⟩) cs hwf,
    hlen, ?_, ?_⟩
  · rw [hv]
    exact hcanon
  · intro v a
    rw [hv]
    exact hcov v a

theorem c2inv_loop (S0 : List AnnIP) (comps : Nat × Nat → List AnnIP) :
    ∀ fuel s, C2Inv S0 s → C2Inv S0 (collapseLoop comps fuel s) := by
  intro fuel
  induction fuel with
  | zero => exact fun s h => h
  | succ n ih =>
    intro s h
    unfold collapseLoop
    split
    · exact h
    · exact ih _ (c2inv_step S0 comps _ _ (c2inv_fringe S0 s _ h))

theorem buildNodes_length (A : List AnnIP) : (buildNodes A).length = A.length := by
  unfold buildNodes
  simp

theorem chainLinks_initState_aux (A : List AnnIP) : ∀ k i, i + k = A.length →
    chainLinks (initState A) (List.range' i k) := by
  intro k
  induction k with
  | zero => exact fun i _ => trivial
  | succ m ih =>
    intro i hik
    cases m with
    | zero =>
      show (getNode (initState A) i).next = none
      rw [getNode_initState, if_pos (by omega)]
      simp only
      rw [if_neg (by omega)]
    | succ m2 =>
      refine ⟨?_, ?_, ?_⟩
      · show (getNode (initState A) i).next = some (i + 1)
        rw [getNode_initState, if_pos (by omega)]
        simp only
        rw [if_pos (by omega)]
      · show (getNode (initState A) (i + 1)).prev = some i
        rw [getNode_initState, if_pos (by omega)]
        simp only
        rw [if_neg (by omega)]
        simp
      · exact ih (i + 1) (by omega)

theorem getD_range_map (A : List AnnIP) : (List.range A.length).map
    (fun i => A.getD i default) = A := by
  apply List.ext_get?
  intro i
  by_cases h : i < A.length
  · rw [List.get?_map, List.get?_range h]
    show some (A.getD i default) = A.get? i
    rw [List.get?_eq_get h, List.getD_eq_get A default h]
  · have h1 : ((List.range A.length).map fun i => A.getD i default).length ≤ i := by
      simp
      omega
    rw [List.get?_eq_none.mpr h1, List.get?_eq_none.mpr (by omega)]

theorem chainVals_initState (A : List AnnIP) :
    chainVals (initState A) (List.range A.length) = A := by
  unfold chainVals
  have : ∀ i ∈ List.range A.length, (getNode (initState A) i).val = A.getD i default := by
    intro i hi
    rw [getNode_initState, if_pos (List.mem_range.mp hi)]
  rw [List.map_congr_left this, getD_range_map]

theorem wfChain_initState (A : List AnnIP) (hne : A ≠ []) :
    WFChain (initState A) (List.range A.length) := by
  have hn : 0 < A.length := List.length_pos.mpr hne
  refine ⟨?_, ?_, ?_, ?_, ?_, ?_⟩
  · obtain ⟨m, hm⟩ : ∃ m, A.length = m + 1 := ⟨A.length - 1, by omega⟩
    rw [hm, List.range_succ_eq_map]
    rfl
  · rw [getNode_initState, if_pos hn]
    simp
  · have := chainLinks_initState_aux A A.length 0 (by omega)
    rwa [← List.range_eq_range'] at this
  · exact List.chain'_iff_pairwise.mpr (List.pairwise_lt_range _)
  · intro i hi
    have hbl : (initState A).nodes.length = A.length := buildNodes_length A
    rw [hbl]
    exact List.mem_range.mp hi
  · intro i hi hni
    have hbl : (initState A).nodes.length = A.length := buildNodes_length A
    rw [hbl] at hi
    exact absurd (List.mem_range.mpr hi) hni

theorem c2inv_initState (A : List AnnIP) (hne : A ≠ []) (hcanon : ∀ p ∈ A, Canon p) :
    C2Inv A (initState A) := by
  refine ⟨List.range A.length, wfChain_initState A hne, buildNodes_length A, ?_, ?_⟩
  · rw [chainVals_initState]
    exact hcanon
  · intro v a
    rw [chainVals_initState]

theorem walkChain_none (s : CSt) (fuel : Nat) : walkChain s fuel none = [] := by
  cases fuel <;> rfl

theorem walkChain_eq_chainVals (s : CSt) : ∀ rest : List Nat, ∀ i fuel,
    chainLinks s (i :: rest) → (i :: rest).length ≤ fuel →
    walkChain s fuel (some i) = chainVals s (i :: rest) := by
  intro rest
  induction rest with
  | nil =>
    intro i fuel hl hf
    obtain ⟨f2, hf2⟩ : ∃ f2, fuel = f2 + 1 := ⟨fuel - 1, by simp at hf; omega⟩
    subst hf2
    show (getNode s i).val :: walkChain s f2 (getNode s i).next = _
    rw [hl, walkChain_none]
    rfl
  | cons b rest2 ih =>
    intro i fuel hl hf
    obtain ⟨f2, hf2⟩ : ∃ f2, fuel = f2 + 1 := ⟨fuel - 1, by simp at hf; omega⟩
    subst hf2
    obtain ⟨h1, _, h3⟩ := hl
    show (getNode s i).val :: walkChain s f2 (getNode s i).next = _
    rw [h1, ih b f2 h3 (by simp at hf ⊢; omega)]
    rfl

end Nacaddr

namespace Nacaddr

theorem insertSortedB_length (le : AnnIP → AnnIP → Bool) (x : AnnIP) (l : List AnnIP) :
    (insertSortedB le x l).length = l.length + 1 := by
  induction l with
  | nil => rfl
  | cons y ys ih =>
    unfold insertSortedB
    split
    · rfl
    · simp [ih]

theorem sortByB_length (le : AnnIP → AnnIP → Bool) (l : List AnnIP) :
    (sortByB le l).length = l.length := by
  induction l with
  | nil => rfl
  | cons x xs ih =>
    unfold sortByB
    rw [insertSortedB_length, ih]
    rfl

theorem listCovers_sortByB (le : AnnIP → AnnIP → Bool) (l : List AnnIP) (v a : Nat) :
    listCovers (sortByB le l) v a ↔ listCovers l v a := by
  unfold listCovers
  constructor
  · rintro ⟨p, hp, hc⟩
    exact ⟨p, (mem_sortByB le p l).mp hp, hc⟩
  · rintro ⟨p, hp, hc⟩
    exact ⟨p, (mem_sortByB le p l).mpr hp, hc⟩

theorem collapseInternal_eq (addresses : List AnnIP) (comps : Nat × Nat → List AnnIP)
    (h : addresses ≠ []) :
    CollapseAddrListInternal addresses comps =
      walkChain (collapseLoop comps (3 * addresses.length + 1) (initState addresses))
        addresses.length (some 0) := by
  unfold CollapseAddrListInternal
  cases addresses with
  | nil => exact absurd rfl h
  | cons q qs => rfl

/-- C2: collapsing never changes the set of matched addresses: an address
is covered by some prefix of CollapseAddrList(S) exactly when it is
covered by some prefix of S. -/
theorem claim_C2_collapse_preserves_addresses (S : List AnnIP) (hS : ∀ p ∈ S, Canon p)
    (v a : Nat) : listCovers (CollapseAddrList S []) v a ↔ listCovers S v a := by
  unfold CollapseAddrList
  by_cases hemp : sortByB keyLeB S = []
  · have hS0 : S = [] := by
      have := sortByB_length keyLeB S
      rw [hemp] at this
      exact List.length_eq_zero.mp this.symm
    subst hS0
    rfl
  · rw [collapseInternal_eq _ _ hemp]
    have hcanon2 : ∀ p ∈ sortByB keyLeB S, Canon p :=
      fun p hp => hS p ((mem_sortByB keyLeB p S).mp hp)
    have hinv := c2inv_loop (sortByB keyLeB S) (compsDict S []) (3 * (sortByB keyLeB S).length + 1)
      (initState (sortByB keyLeB S)) (c2inv_initState _ hemp hcanon2)
    obtain ⟨cs, hwf, hlen, hcanon3, hcov⟩ := hinv
    have hcs_head : ∃ rest, cs = 0 :: rest := by
      obtain ⟨w1, _, _, _, _, _⟩ := hwf
      cases cs with
      | nil => cases w1
      | cons h0 rest =>
        refine ⟨rest, ?_⟩
        have : h0 = 0 := by simpa using w1
        rw [this]
    obtain ⟨rest, hrest⟩ := hcs_head
    have hlencs : cs.length ≤ (sortByB keyLeB S).length := by
      have h1 := chain_length_le cs
        (collapseLoop (compsDict S []) (3 * (sortByB keyLeB S).length + 1)
          (initState (sortByB keyLeB S))).nodes.length hwf.2.2.2.1 hwf.2.2.2.2.1
      rw [hlen] at h1
      exact h1
    have hwalk := walkChain_eq_chainVals
      (collapseLoop (compsDict S []) (3 * (sortByB keyLeB S).length + 1)
        (initState (sortByB keyLeB S))) rest 0 (sortByB keyLeB S).length
      (by rw [← hrest]; exact hwf.2.2.1) (by rw [← hrest]; exact hlencs)
    rw [← hrest] at hwalk
    rw [hwalk, hcov v a, listCovers_sortByB]

end Nacaddr

namespace Nacaddr

theorem claim_C2_collapse_preserves_addresses_witness :
    (∀ p ∈ ([⟨4, 16842752, 24, "a", "", ""⟩, ⟨4, 16843008, 24, "b", "", ""⟩] : List AnnIP),
      Canon p) ∧
    (listCovers (CollapseAddrList
        [⟨4, 16842752, 24, "a", "", ""⟩, ⟨4, 16843008, 24, "b", "", ""⟩] []) 4 16843100 ↔
      listCovers [⟨4, 16842752, 24, "a", "", ""⟩, ⟨4, 16843008, 24, "b", "", ""⟩] 4 16843100) :=
  ⟨by decide, claim_C2_collapse_preserves_addresses
    [⟨4, 16842752, 24, "a", "", ""⟩, ⟨4, 16843008, 24, "b", "", ""⟩] (by decide) 4 16843100⟩

end Nacaddr

namespace Nacaddr

theorem safeToMerge_nil_comps (a m : AnnIP) (l : List AnnIP) :
    SafeToMerge a m (compsDict l []) = true := by
  unfold SafeToMerge compsDict
  split <;> rfl

theorem occBefore_front_absurd {P C : Nat} {fr : List Nat} (h : OccBefore P C (C :: fr)) :
    False := by
  have := h [] fr rfl
  cases this

theorem occBefore_tail {P C f : Nat} {fr : List Nat} (h : OccBefore P C (f :: fr))
    (hne : P ≠ f) : OccBefore P C fr := by
  intro u v huv
  have := h (f :: u) v (by rw [huv]; rfl)
  rcases List.mem_cons.mp this with h1 | h1
  · exact absurd h1 hne
  · exact h1

theorem occBefore_of_front {P C : Nat} (fr : List Nat) (hne : C ≠ P) :
    OccBefore P C (P :: fr) := by
  intro u v huv
  cases u with
  | nil =>
    simp only [List.nil_append, List.cons.injEq] at huv
    exact absurd huv.1.symm hne
  | cons a u2 =>
    simp only [List.cons_append, List.cons.injEq] at huv
    rw [huv.1]
    exact List.mem_cons_self a u2

theorem occBefore_append_one {P C z : Nat} {fr : List Nat} (h : OccBefore P C fr)
    (hmem : C = z → P ∈ fr) : OccBefore P C (fr ++ [z]) := by
  intro u v huv
  rcases List.eq_nil_or_concat v with hv | ⟨v1, vl, hv⟩
  · subst hv
    have h2 : u ++ [C] = fr ++ [z] := by simpa using huv.symm
    have h3 := List.append_inj' h2 rfl
    rw [h3.1]
    exact hmem (by simpa using h3.2)
  · subst hv
    rw [List.concat_eq_append] at huv
    have h2 : (u ++ C :: v1) ++ [vl] = fr ++ [z] := by
      rw [huv]
      simp
    have h3 := List.append_inj' h2 rfl
    exact h u v1 h3.1.symm

theorem consec_of_decomp {cs : List Nat} {u w : List Nat} {a b : Nat}
    (h : cs = u ++ a :: b :: w) : Consec cs a b := ⟨u, w, h⟩

theorem chain'_consec {R : Nat → Nat → Prop} {cs : List Nat} {a b : Nat}
    (hc : List.Chain' R cs) (h : Consec cs a b) : R a b := by
  obtain ⟨u, w, hu⟩ := h
  subst hu
  have hinf : [a, b] <:+: u ++ a :: b :: w := ⟨u, w, by simp⟩
  have := List.Chain'.infix hc hinf
  exact List.chain'_pair.mp this

theorem chainVals_chain'_consec {s : CSt} {cs : List Nat} {a b : Nat}
    (hc : (chainVals s cs).Chain' (fun p q => keyLeB p q = true)) (h : Consec cs a b) :
    keyLeB (getNode s a).val (getNode s b).val = true := by
  unfold chainVals at hc
  rw [List.chain'_map] at hc
  exact chain'_consec hc h

theorem keyLeB_iff (a b : AnnIP) : keyLeB a b = true ↔
    (a.version < b.version ∨ (a.version = b.version ∧
      (a.addr < b.addr ∨ (a.addr = b.addr ∧ netmask a ≤ netmask b)))) := by
  unfold keyLeB keyLtB
  simp only [Bool.or_eq_true, Bool.and_eq_true, beq_iff_eq, decide_eq_true_eq]
  omega

theorem keyLeB_trans {a b c : AnnIP} (h1 : keyLeB a b = true) (h2 : keyLeB b c = true) :
    keyLeB a c = true := by
  rw [keyLeB_iff] at h1 h2 ⊢
  omega

end Nacaddr

namespace Nacaddr

theorem netmask_of_sameNetTok {p q : AnnIP} (h : SameNetTok p q) : netmask q = netmask p := by
  unfold netmask
  rw [h.1, h.2.2.1]

theorem supernetOfB_congr_left {p p' : AnnIP} (h : SameNetTok p p') (q : AnnIP) :
    supernetOfB p' q = supernetOfB p q := by
  unfold supernetOfB
  rw [h.1, h.2.1, bcast_of_sameNetTok h]

theorem supernetOfB_congr_right {q q' : AnnIP} (h : SameNetTok q q') (p : AnnIP) :
    supernetOfB p q' = supernetOfB p q := by
  unfold supernetOfB
  rw [h.1, h.2.1, bcast_of_sameNetTok h]

theorem sibGuardB_congr_left {p p' : AnnIP} (h : SameNetTok p p') (q : AnnIP) :
    sibGuardB p' q = sibGuardB p q := by
  unfold sibGuardB
  rw [h.1, h.2.1, h.2.2.1, bcast_of_sameNetTok h, supernet1_sameNetTok_addr h]

theorem sibGuardB_congr_right {q q' : AnnIP} (h : SameNetTok q q') (p : AnnIP) :
    sibGuardB p q' = sibGuardB p q := by
  unfold sibGuardB
  rw [h.1, h.2.1, h.2.2.1]

theorem keyLeB_congr_left {p p' : AnnIP} (h : SameNetTok p p') (q : AnnIP) :
    keyLeB p' q = keyLeB p q := by
  unfold keyLeB keyLtB
  rw [h.1, h.2.1, netmask_of_sameNetTok h]

theorem keyLeB_congr_right {q q' : AnnIP} (h : SameNetTok q q') (p : AnnIP) :
    keyLeB p q' = keyLeB p q := by
  unfold keyLeB keyLtB
  rw [h.1, h.2.1, netmask_of_sameNetTok h]

theorem supernetOfB_trans {a b c : AnnIP} (h1 : supernetOfB a b = true)
    (h2 : supernetOfB b c = true) : supernetOfB a c = true := by
  unfold supernetOfB at h1 h2 ⊢
  simp only [Bool.and_eq_true, beq_iff_eq, decide_eq_true_eq] at h1 h2 ⊢
  exact ⟨⟨h1.1.1.trans h2.1.1, le_trans h1.1.2 h2.1.2⟩, le_trans h2.2 h1.2⟩

theorem pow_le_pow_width (w k : Nat) : 2 ^ (w - k) ≤ 2 ^ w :=
  Nat.pow_le_pow_right (by norm_num) (Nat.sub_le w k)

theorem supernetOf_of_eqaddr {p q : AnnIP} (hv : p.version = q.version) (ha : p.addr = q.addr)
    (hm : netmask p ≤ netmask q) : supernetOfB p q = true := by
  unfold supernetOfB
  simp only [Bool.and_eq_true, beq_iff_eq, decide_eq_true_eq]
  refine ⟨⟨hv, le_of_eq ha⟩, ?_⟩
  unfold netmask at hm
  have h1 := pow_le_pow_width (width p.version) p.plen
  have h2 := pow_le_pow_width (width q.version) q.plen
  unfold bcast numAddrs
  rw [← hv] at hm h2 ⊢
  omega

theorem supernetOfB_supernet1 (p : AnnIP) (halign : (Supernet1 p).addr = p.addr) :
    supernetOfB (Supernet1 p) p = true := by
  rcases Nat.eq_zero_or_pos p.plen with h0 | hpos
  · rw [Supernet1_plen_zero p h0]
    unfold supernetOfB
    simp
  · have hS := Supernet1_plen_pos p hpos
    unfold supernetOfB
    simp only [Bool.and_eq_true, beq_iff_eq, decide_eq_true_eq]
    refine ⟨⟨by rw [hS], by rw [halign]⟩, ?_⟩
    unfold bcast numAddrs
    rw [halign, hS]
    simp only
    have hle : 2 ^ (width p.version - p.plen) ≤ 2 ^ (width p.version - (p.plen - 1)) :=
      Nat.pow_le_pow_right (by norm_num) (by omega)
    have h1 := numAddrs_pos p
    unfold numAddrs at h1
    omega

end Nacaddr

namespace Nacaddr

theorem chain'_replace_absorb {R : AnnIP → AnnIP → Prop} (L1 L2 : List AnnIP) (p q r : AnnIP)
    (h : List.Chain' R (L1 ++ p :: q :: L2))
    (hL : ∀ x ∈ L1.getLast?, R x p → R x r) (hR : ∀ y ∈ L2.head?, R q y → R r y) :
    List.Chain' R (L1 ++ r :: L2) := by
  rw [List.chain'_append] at h ⊢
  obtain ⟨h1, h2, h3⟩ := h
  rw [List.chain'_cons'] at h2
  obtain ⟨h2a, h2b⟩ := h2
  rw [List.chain'_cons'] at h2b
  obtain ⟨h2c, h2d⟩ := h2b
  refine ⟨h1, ?_, ?_⟩
  · rw [List.chain'_cons']
    exact ⟨fun y hy => hR y hy (h2c y hy), h2d⟩
  · intro x hx y hy
    simp only [List.head?_cons, Option.mem_def, Option.some_inj] at hy
    rw [← hy]
    refine hL x hx ?_
    have := h3 x hx p (by simp)
    exact this

end Nacaddr

namespace Nacaddr

theorem fringe_mutComment (s : CSt) (c : Nat) (t : String) :
    (mutComment s c t).fringe = s.fringe := rfl

theorem fringe_removeNext (s : CSt) (i : Nat) : (removeNext s i).fringe = s.fringe := by
  unfold removeNext
  split
  · rfl
  · split <;> rfl

theorem fringe_rebindSupernet (s : CSt) (c : Nat) :
    (rebindSupernet s c).fringe = s.fringe := rfl

theorem enqueuePrev_none (s : CSt) (c : Nat) (h : (getNode s c).prev = none) :
    enqueuePrev s c = s := by
  unfold enqueuePrev
  rw [h]

theorem enqueuePrev_some (s : CSt) (c p : Nat) (h : (getNode s c).prev = some p) :
    enqueuePrev s c = { s with fringe := s.fringe ++ [p] } := by
  unfold enqueuePrev
  rw [h]

theorem supernet1_version (p : AnnIP) : (Supernet1 p).version = p.version := by
  rcases Nat.eq_zero_or_pos p.plen with h | h
  · rw [Supernet1_plen_zero p h]
  · rw [Supernet1_plen_pos p h]

theorem keyLe_of_right_above {r vj y : AnnIP} (hv : r.version = vj.version)
    (ha : r.addr < vj.addr) (h : keyLeB vj y = true) : keyLeB r y = true := by
  rw [keyLeB_iff] at h ⊢
  omega

theorem keyLe_or_supernetOf {x p : AnnIP} (h : keyLeB x p = true) :
    (x.version < p.version ∨ (x.version = p.version ∧ x.addr < p.addr)) ∨
      supernetOfB x p = true := by
  rw [keyLeB_iff] at h
  rcases h with h1 | ⟨h1, h2 | ⟨h2, h3⟩⟩
  · exact Or.inl (Or.inl h1)
  · exact Or.inl (Or.inr ⟨h1, h2⟩)
  · exact Or.inr (supernetOf_of_eqaddr h1 h2 h3)

theorem keyLe_of_left_strict {x r p : AnnIP} (hv : r.version = p.version)
    (ha : r.addr = p.addr)
    (h : x.version < p.version ∨ (x.version = p.version ∧ x.addr < p.addr)) :
    keyLeB x r = true := by
  rw [keyLeB_iff]
  omega

theorem consec_next (s : CSt) (cs : List Nat) (a b : Nat) (hl : chainLinks s cs)
    (h : Consec cs a b) : (getNode s a).next = some b := by
  obtain ⟨u, w, hu⟩ := h
  subst hu
  exact (chainLinks_mid s u a b w hl).1

theorem consec_cases : ∀ pre : List Nat, ∀ post : List Nat, ∀ c a b : Nat,
    Consec (pre ++ c :: post) a b →
    Consec pre a b ∨ (∃ u, pre = u ++ [a] ∧ b = c) ∨
      (a = c ∧ ∃ w, post = b :: w) ∨ Consec post a b := by
  intro pre
  induction pre with
  | nil =>
    intro post c a b h
    obtain ⟨u, w, hu⟩ := h
    simp only [List.nil_append] at hu
    cases u with
    | nil =>
      simp only [List.nil_append, List.cons.injEq] at hu
      exact Or.inr (Or.inr (Or.inl ⟨hu.1.symm, w, hu.2⟩))
    | cons x u2 =>
      simp only [List.cons_append, List.cons.injEq] at hu
      exact Or.inr (Or.inr (Or.inr ⟨u2, w, hu.2⟩))
  | cons p pre2 ih =>
    intro post c a b h
    obtain ⟨u, w, hu⟩ := h
    cases u with
    | nil =>
      simp only [List.nil_append, List.cons_append, List.cons.injEq] at hu
      cases hpre2 : pre2 with
      | nil =>
        rw [hpre2] at hu
        simp only [List.nil_append, List.cons.injEq] at hu
        exact Or.inr (Or.inl ⟨[], by rw [hu.1]; rfl, hu.2.1.symm⟩)
      | cons q pre3 =>
        rw [hpre2] at hu
        simp only [List.cons_append, List.cons.injEq] at hu
        exact Or.inl ⟨[], pre3, by rw [hu.1, hu.2.1]; rfl⟩
    | cons x u2 =>
      simp only [List.cons_append, List.cons.injEq] at hu
      rcases ih post c a b ⟨u2, w, hu.2⟩ with h1 | h2 | h3 | h4
      · obtain ⟨u3, w3, h5⟩ := h1
        exact Or.inl ⟨p :: u3, w3, by rw [h5]; rfl⟩
      · obtain ⟨u3, h5, h6⟩ := h2
        exact Or.inr (Or.inl ⟨p :: u3, by rw [h5]; rfl, h6⟩)
      · exact Or.inr (Or.inr (Or.inl h3))
      · exact Or.inr (Or.inr (Or.inr h4))

theorem chain_prev_char (s : CSt) (pre post : List Nat) (c : Nat)
    (hwf : WFChain s (pre ++ c :: post)) :
    (pre = [] ∧ (getNode s c).prev = none) ∨
      (∃ u lp, pre = u ++ [lp] ∧ (getNode s c).prev = some lp) := by
  rcases List.eq_nil_or_concat pre with h | ⟨u, lp, h⟩
  · subst h
    left
    have h0 : c = 0 := by
      have h1 := hwf.1
      simpa using h1
    subst h0
    exact ⟨rfl, hwf.2.1⟩
  · rw [List.concat_eq_append] at h
    subst h
    right
    have h3 : chainLinks s (u ++ lp :: c :: post) := by
      have := hwf.2.2.1
      simpa using this
    exact ⟨u, lp, rfl, (chainLinks_mid s u lp c post h3).2⟩

end Nacaddr

namespace Nacaddr

/-- One loop iteration preserves the idempotence invariant and strictly
decreases the combined measure of pending work and chain length.  The
fringe hypotheses speak about the deque as it stood before the pop of c,
namely c :: s.fringe. -/
theorem c4inv_step (comps : Nat × Nat → List AnnIP) (s : CSt) (cs : List Nat) (c : Nat)
    (hsafe : ∀ a m : AnnIP, SafeToMerge a m comps = true)
    (hwf : WFChain s cs)
    (hsorted : (chainVals s cs).Chain' (fun p q => keyLeB p q = true))
    (hcont : ∀ a b, Consec cs a b → supernetOfB (getNode s a).val (getNode s b).val = true →
      a ∈ (c :: s.fringe) ∧ OccBefore a b (c :: s.fringe))
    (hsib : ∀ a b, Consec cs a b → sibGuardB (getNode s a).val (getNode s b).val = true →
      a ∈ (c :: s.fringe)) :
    ∃ cs2, C4Inv (collapseStep comps s c) cs2 ∧
      (collapseStep comps s c).fringe.length + 2 * cs2.length <
        (c :: s.fringe).length + 2 * cs.length := by
  unfold collapseStep
  split
  · rename_i hnone
    refine ⟨cs, ⟨hwf, hsorted, ?_, ?_⟩, ?_⟩
    · intro a b hab hg
      have hna : (getNode s a).next = some b := consec_next s cs a b hwf.2.2.1 hab
      have hac : a ≠ c := by
        intro h
        rw [h, hnone] at hna
        cases hna
      obtain ⟨hmem, hocc⟩ := hcont a b hab hg
      refine ⟨?_, occBefore_tail hocc hac⟩
      rcases List.mem_cons.mp hmem with h | h
      · exact absurd h hac
      · exact h
    · intro a b hab hg
      have hna : (getNode s a).next = some b := consec_next s cs a b hwf.2.2.1 hab
      have hac : a ≠ c := by
        intro h
        rw [h, hnone] at hna
        cases hna
      rcases List.mem_cons.mp (hsib a b hab hg) with h | h
      · exact absurd h hac
      · exact h
    · simp only [List.length_cons]
      omega
  · rename_i j hj
    by_cases h1 : SafeToMerge (getNode s j).val (getNode s c).val comps = false
    · exfalso
      rw [hsafe (getNode s j).val (getNode s c).val] at h1
      exact Bool.noConfusion h1
    · rw [if_neg h1]
      have hcmem : c ∈ cs := mem_chain_of_next s cs hwf c j hj
      obtain ⟨pre, post, hcs⟩ := chainLinks_decomp s cs c j hwf.2.2.1 hcmem hj
      subst hcs
      have hpw : (pre ++ c :: j :: post).Pairwise (· < ·) :=
        List.chain'_iff_pairwise.mp hwf.2.2.2.1
      have hpw2 := List.pairwise_append.mp hpw
      have hprelt : ∀ x ∈ pre, x < c := fun x hx => hpw2.2.2 x hx c (by simp)
      have hcj : c < j := (List.pairwise_cons.mp hpw2.2.1).1 j (by simp)
      have hjpost : ∀ y ∈ post, j < y := by
        have h2 := (List.pairwise_cons.mp hpw2.2.1).2
        exact fun y hy => (List.pairwise_cons.mp h2).1 y hy
      have hsorted2 : (chainVals s pre ++ (getNode s c).val :: (getNode s j).val ::
          chainVals s post).Chain' (fun p q => keyLeB p q = true) := by
        rw [← chainVals_decomp]
        exact hsorted
      have hsame : SameNetTok (getNode s c).val
          (AddComment (getNode s c).val (getNode s j).val.text) :=
        (textExtends_addComment _ _).1
      have hkcj : keyLeB (getNode s c).val (getNode s j).val = true :=
        chainVals_chain'_consec hsorted ⟨pre, post, rfl⟩
      by_cases h2 : supernetOfB (getNode s c).val (getNode s j).val = true
      · rw [if_pos h2]
        obtain ⟨hwf', hvals', hcval', hother', hcprev'⟩ :=
          mergeChain_wf s pre post c j (getNode s j).val.text hwf
        have hfr : (pushFront (removeNext (mutComment s c (getNode s j).val.text) c)
            c).fringe = c :: s.fringe := by
          show c :: (removeNext (mutComment s c (getNode s j).val.text) c).fringe =
            c :: s.fringe
          rw [fringe_removeNext, fringe_mutComment]
        have hvother : ∀ x, x ≠ c → x ≠ j →
            (getNode (pushFront (removeNext (mutComment s c (getNode s j).val.text) c)
              c) x).val = (getNode s x).val := by
          intro x hxc hxj
          rw [getNode_pushFront]
          exact hother' x hxc hxj
        have hvc : (getNode (pushFront (removeNext (mutComment s c
            (getNode s j).val.text) c) c) c).val =
            AddComment (getNode s c).val (getNode s j).val.text := by
          rw [getNode_pushFront]
          exact hcval'
        refine ⟨pre ++ c :: post, ⟨WFChain_pushFront _ c _ hwf', ?_, ?_, ?_⟩, ?_⟩
        · rw [chainVals_pushFront, hvals']
          refine chain'_replace_absorb (chainVals s pre) (chainVals s post)
            (getNode s c).val (getNode s j).val _ hsorted2 ?_ ?_
          · intro x _ hxp
            rw [keyLeB_congr_right hsame]
            exact hxp
          · intro y _ hjy
            rw [keyLeB_congr_left hsame]
            exact keyLeB_trans hkcj hjy
        · intro a b hab hg
          rw [hfr]
          rcases consec_cases pre post c a b hab with hcase | hcase | hcase | hcase
          · obtain ⟨u, w, hu⟩ := hcase
            have ham : a ∈ pre := by rw [hu]; simp
            have hbm : b ∈ pre := by rw [hu]; simp
            rw [hvother a (Nat.ne_of_lt (hprelt a ham))
                (Nat.ne_of_lt (lt_trans (hprelt a ham) hcj)),
              hvother b (Nat.ne_of_lt (hprelt b hbm))
                (Nat.ne_of_lt (lt_trans (hprelt b hbm) hcj))] at hg
            exact hcont a b ⟨u, w ++ c :: j :: post, by rw [hu]; simp⟩ hg
          · obtain ⟨u, hpe, hbc⟩ := hcase
            subst hbc
            have ham : a ∈ pre := by rw [hpe]; simp
            rw [hvother a (Nat.ne_of_lt (hprelt a ham))
              (Nat.ne_of_lt (lt_trans (hprelt a ham) hcj)), hvc,
              supernetOfB_congr_right hsame] at hg
            exact ((occBefore_front_absurd
              (hcont a b ⟨u, j :: post, by rw [hpe]; simp⟩ hg).2).elim)
          · obtain ⟨hac, w, hpo⟩ := hcase
            subst hac
            have hbm : b ∈ post := by rw [hpo]; simp
            have hbc : b ≠ a := by
              have := hjpost b hbm
              omega
            exact ⟨List.mem_cons_self a s.fringe, occBefore_of_front s.fringe hbc⟩
          · obtain ⟨u, w, hu⟩ := hcase
            have ham : a ∈ post := by rw [hu]; simp
            have hbm : b ∈ post := by rw [hu]; simp
            rw [hvother a (by have := hjpost a ham; omega) (by have := hjpost a ham; omega),
              hvother b (by have := hjpost b hbm; omega)
                (by have := hjpost b hbm; omega)] at hg
            exact hcont a b ⟨pre ++ c :: j :: u, w, by rw [hu]; simp⟩ hg
        · intro a b hab hg
          rw [hfr]
          rcases consec_cases pre post c a b hab with hcase | hcase | hcase | hcase
          · obtain ⟨u, w, hu⟩ := hcase
            have ham : a ∈ pre := by rw [hu]; simp
            have hbm : b ∈ pre := by rw [hu]; simp
            rw [hvother a (Nat.ne_of_lt (hprelt a ham))
                (Nat.ne_of_lt (lt_trans (hprelt a ham) hcj)),
              hvother b (Nat.ne_of_lt (hprelt b hbm))
                (Nat.ne_of_lt (lt_trans (hprelt b hbm) hcj))] at hg
            exact hsib a b ⟨u, w ++ c :: j :: post, by rw [hu]; simp⟩ hg
          · obtain ⟨u, hpe, hbc⟩ := hcase
            subst hbc
            have ham : a ∈ pre := by rw [hpe]; simp
            rw [hvother a (Nat.ne_of_lt (hprelt a ham))
              (Nat.ne_of_lt (lt_trans (hprelt a ham) hcj)), hvc,
              sibGuardB_congr_right hsame] at hg
            exact hsib a b ⟨u, j :: post, by rw [hpe]; simp⟩ hg
          · obtain ⟨hac, _, _⟩ := hcase
            subst hac
            exact List.mem_cons_self a s.fringe
          · obtain ⟨u, w, hu⟩ := hcase
            have ham : a ∈ post := by rw [hu]; simp
            have hbm : b ∈ post := by rw [hu]; simp
            rw [hvother a (by have := hjpost a ham; omega) (by have := hjpost a ham; omega),
              hvother b (by have := hjpost b hbm; omega)
                (by have := hjpost b hbm; omega)] at hg
            exact hsib a b ⟨pre ++ c :: j :: u, w, by rw [hu]; simp⟩ hg
        · rw [hfr]
          simp only [List.length_cons, List.length_append]
          omega
      · rw [if_neg h2]
        by_cases h3 : sibGuardB (getNode s c).val (getNode s j).val = true
        · rw [if_pos h3]
          have h3' := h3
          unfold sibGuardB at h3'
          simp only [Bool.and_eq_true, beq_iff_eq] at h3'
          obtain ⟨⟨⟨hv, hpl⟩, hadj⟩, halign⟩ := h3'
          obtain ⟨hwf', hvals', hcval', hother', hcprev'⟩ :=
            mergeChain_wf s pre post c j (getNode s j).val.text hwf
          have hclen : c < (removeNext (mutComment s c
              (getNode s j).val.text) c).nodes.length := by
            rw [nodes_length_removeNext, nodes_length_mutComment]
            exact hwf.2.2.2.2.1 c (List.mem_append.mpr (Or.inr (by simp)))
          have hprene : ∀ x ∈ pre, x ≠ c := fun x hx => Nat.ne_of_lt (hprelt x hx)
          have hpostne : ∀ x ∈ post, x ≠ c := fun x hx => by have := hjpost x hx; omega
          have hprev4 : (getNode (pushFront (rebindSupernet (removeNext
              (mutComment s c (getNode s j).val.text) c) c) c) c).prev =
              (getNode s c).prev := by
            rw [getNode_pushFront, (links_rebindSupernet _ c c).2, hcprev']
          have hfr4 : (pushFront (rebindSupernet (removeNext
              (mutComment s c (getNode s j).val.text) c) c) c).fringe =
              c :: s.fringe := by
            show c :: (rebindSupernet (removeNext
              (mutComment s c (getNode s j).val.text) c) c).fringe = c :: s.fringe
            rw [fringe_rebindSupernet, fringe_removeNext, fringe_mutComment]
          have hvc4 : (getNode (pushFront (rebindSupernet (removeNext
              (mutComment s c (getNode s j).val.text) c) c) c) c).val =
              Supernet1 (AddComment (getNode s c).val (getNode s j).val.text) := by
            rw [getNode_pushFront, getNode_rebindSupernet, if_pos ⟨rfl, hclen⟩]
            simp only
            rw [hcval']
          have hvother4 : ∀ x, x ≠ c → x ≠ j →
              (getNode (pushFront (rebindSupernet (removeNext
                (mutComment s c (getNode s j).val.text) c) c) c) x).val =
              (getNode s x).val := by
            intro x hxc hxj
            rw [getNode_pushFront, getNode_rebindSupernet,
              if_neg (fun hcon => hxc hcon.1.symm)]
            exact hother' x hxc hxj
          have hveq4 : chainVals (pushFront (rebindSupernet (removeNext
              (mutComment s c (getNode s j).val.text) c) c) c) (pre ++ c :: post) =
              chainVals s pre ++ Supernet1 (AddComment (getNode s c).val
                (getNode s j).val.text) :: chainVals s post := by
            rw [chainVals_pushFront,
              chainVals_rebind _ c pre post hclen hprene hpostne, hcval',
              chainVals_congr s _ pre (fun x hx => hother' x (hprene x hx)
                (Nat.ne_of_lt (lt_trans (hprelt x hx) hcj))),
              chainVals_congr s _ post (fun x hx => hother' x (hpostne x hx)
                (by have := hjpost x hx; omega))]
          have hsver : (Supernet1 (AddComment (getNode s c).val
              (getNode s j).val.text)).version = (getNode s c).val.version := by
            rw [supernet1_version, hsame.1]
          have hsaddr : (Supernet1 (AddComment (getNode s c).val
              (getNode s j).val.text)).addr = (getNode s c).val.addr := by
            rw [supernet1_sameNetTok_addr hsame, halign]
          have haddrlt : (getNode s c).val.addr < (getNode s j).val.addr := by
            have hb := numAddrs_pos (getNode s c).val
            unfold bcast at hadj
            omega
          have halign4 : (Supernet1 (AddComment (getNode s c).val
              (getNode s j).val.text)).addr =
              (AddComment (getNode s c).val (getNode s j).val.text).addr := by
            rw [hsaddr]
            exact hsame.2.1.symm
          have hRfact : ∀ y ∈ (chainVals s post).head?,
              keyLeB (getNode s j).val y = true →
              keyLeB (Supernet1 (AddComment (getNode s c).val
                (getNode s j).val.text)) y = true := by
            intro y _ hy
            refine keyLe_of_right_above ?_ ?_ hy
            · rw [hsver, hv]
            · rw [hsaddr]
              exact haddrlt
          rcases chain_prev_char s pre (j :: post) c hwf with
            ⟨hpre0, hprevn⟩ | ⟨u, lp, hpe, hprevs⟩
          · subst hpre0
            have hfr6 : (enqueuePrev (pushFront (rebindSupernet (removeNext
                (mutComment s c (getNode s j).val.text) c) c) c) c).fringe =
                c :: s.fringe := by
              rw [enqueuePrev_none _ c (by rw [hprev4]; exact hprevn)]
              exact hfr4
            refine ⟨[] ++ c :: post, ⟨WFChain_enqueuePrev _ c _ (WFChain_pushFront _ c _
              (WFChain_rebind _ c _ hwf')), ?_, ?_, ?_⟩, ?_⟩
            · rw [chainVals_enqueuePrev, hveq4]
              refine chain'_replace_absorb (chainVals s []) (chainVals s post)
                (getNode s c).val (getNode s j).val _ hsorted2 ?_ ?_
              · intro x hx _
                simp [chainVals] at hx
              · exact hRfact
            · intro a b hab hg
              rw [hfr6]
              rw [getNode_enqueuePrev, getNode_enqueuePrev] at hg
              rcases consec_cases [] post c a b hab with hcase | hcase | hcase | hcase
              · obtain ⟨u2, w, hu⟩ := hcase
                exact absurd hu (by simp)
              · obtain ⟨u2, hpe2, _⟩ := hcase
                exact absurd hpe2 (by simp)
              · obtain ⟨hac, w, hpo⟩ := hcase
                subst hac
                have hbm : b ∈ post := by rw [hpo]; simp
                have hbc : b ≠ a := by
                  have := hjpost b hbm
                  omega
                exact ⟨List.mem_cons_self a s.fringe, occBefore_of_front s.fringe hbc⟩
              · obtain ⟨u2, w, hu⟩ := hcase
                have ham : a ∈ post := by rw [hu]; simp
                have hbm : b ∈ post := by rw [hu]; simp
                rw [hvother4 a (by have := hjpost a ham; omega)
                    (by have := hjpost a ham; omega),
                  hvother4 b (by have := hjpost b hbm; omega)
                    (by have := hjpost b hbm; omega)] at hg
                exact hcont a b ⟨[] ++ c :: j :: u2, w, by rw [hu]; simp⟩ hg
            · intro a b hab hg
              rw [hfr6]
              rw [getNode_enqueuePrev, getNode_enqueuePrev] at hg
              rcases consec_cases [] post c a b hab with hcase | hcase | hcase | hcase
              · obtain ⟨u2, w, hu⟩ := hcase
                exact absurd hu (by simp)
              · obtain ⟨u2, hpe2, _⟩ := hcase
                exact absurd hpe2 (by simp)
              · obtain ⟨hac, _, _⟩ := hcase
                subst hac
                exact List.mem_cons_self a s.fringe
              · obtain ⟨u2, w, hu⟩ := hcase
                have ham : a ∈ post := by rw [hu]; simp
                have hbm : b ∈ post := by rw [hu]; simp
                rw [hvother4 a (by have := hjpost a ham; omega)
                    (by have := hjpost a ham; omega),
                  hvother4 b (by have := hjpost b hbm; omega)
                    (by have := hjpost b hbm; omega)] at hg
                exact hsib a b ⟨[] ++ c :: j :: u2, w, by rw [hu]; simp⟩ hg
            · rw [hfr6]
              simp only [List.length_cons, List.length_append, List.length_nil, List.nil_append]
              omega
          · have hfr6 : (enqueuePrev (pushFront (rebindSupernet (removeNext
                (mutComment s c (getNode s j).val.text) c) c) c) c).fringe =
                (c :: s.fringe) ++ [lp] := by
              rw [enqueuePrev_some _ c lp (by rw [hprev4]; exact hprevs)]
              show (pushFront (rebindSupernet (removeNext
                (mutComment s c (getNode s j).val.text) c) c) c).fringe ++ [lp] = _
              rw [hfr4]
            have hlplast : (chainVals s pre).getLast? = some ((getNode s lp).val) := by
              rw [hpe]
              unfold chainVals
              rw [List.map_append, List.map_cons, List.map_nil]
              exact List.getLast?_concat _
            have hlpmem : lp ∈ pre := by
              rw [hpe]
              simp
            refine ⟨pre ++ c :: post, ⟨WFChain_enqueuePrev _ c _ (WFChain_pushFront _ c _
              (WFChain_rebind _ c _ hwf')), ?_, ?_, ?_⟩, ?_⟩
            · rw [chainVals_enqueuePrev, hveq4]
              refine chain'_replace_absorb (chainVals s pre) (chainVals s post)
                (getNode s c).val (getNode s j).val _ hsorted2 ?_ ?_
              · intro x hx hxp
                rw [hlplast] at hx
                rw [Option.mem_def, Option.some_inj] at hx
                subst hx
                rcases keyLe_or_supernetOf hxp with hstrict | hsup
                · exact keyLe_of_left_strict hsver hsaddr hstrict
                · exact ((occBefore_front_absurd (hcont lp c
                    ⟨u, j :: post, by rw [hpe]; simp⟩ hsup).2).elim)
              · exact hRfact
            · intro a b hab hg
              rw [hfr6]
              rw [getNode_enqueuePrev, getNode_enqueuePrev] at hg
              rcases consec_cases pre post c a b hab with hcase | hcase | hcase | hcase
              · obtain ⟨u2, w, hu⟩ := hcase
                have ham : a ∈ pre := by rw [hu]; simp
                have hbm : b ∈ pre := by rw [hu]; simp
                rw [hvother4 a (hprene a ham)
                    (Nat.ne_of_lt (lt_trans (hprelt a ham) hcj)),
                  hvother4 b (hprene b hbm)
                    (Nat.ne_of_lt (lt_trans (hprelt b hbm) hcj))] at hg
                obtain ⟨hmem, hocc⟩ :=
                  hcont a b ⟨u2, w ++ c :: j :: post, by rw [hu]; simp⟩ hg
                exact ⟨List.mem_append_left _ hmem,
                  occBefore_append_one hocc (fun _ => hmem)⟩
              · obtain ⟨u2, hpe2, hbc⟩ := hcase
                rw [hbc] at hg
                have ham : a ∈ pre := by rw [hpe2]; simp
                rw [hvother4 a (hprene a ham)
                  (Nat.ne_of_lt (lt_trans (hprelt a ham) hcj)), hvc4] at hg
                have hsup : supernetOfB (getNode s a).val (getNode s c).val = true := by
                  rw [← supernetOfB_congr_right hsame]
                  exact supernetOfB_trans hg (supernetOfB_supernet1 _ halign4)
                exact ((occBefore_front_absurd (hcont a c
                  ⟨u2, j :: post, by rw [hpe2]; simp⟩ hsup).2).elim)
              · obtain ⟨hac, w, hpo⟩ := hcase
                subst hac
                have hbm : b ∈ post := by rw [hpo]; simp
                have hbc : b ≠ a := by
                  have := hjpost b hbm
                  omega
                exact ⟨List.mem_append_left _ (List.mem_cons_self a s.fringe),
                  occBefore_of_front (s.fringe ++ [lp]) hbc⟩
              · obtain ⟨u2, w, hu⟩ := hcase
                have ham : a ∈ post := by rw [hu]; simp
                have hbm : b ∈ post := by rw [hu]; simp
                rw [hvother4 a (by have := hjpost a ham; omega)
                    (by have := hjpost a ham; omega),
                  hvother4 b (by have := hjpost b hbm; omega)
                    (by have := hjpost b hbm; omega)] at hg
                obtain ⟨hmem, hocc⟩ :=
                  hcont a b ⟨pre ++ c :: j :: u2, w, by rw [hu]; simp⟩ hg
                exact ⟨List.mem_append_left _ hmem,
                  occBefore_append_one hocc (fun _ => hmem)⟩
            · intro a b hab hg
              rw [hfr6]
              rw [getNode_enqueuePrev, getNode_enqueuePrev] at hg
              rcases consec_cases pre post c a b hab with hcase | hcase | hcase | hcase
              · obtain ⟨u2, w, hu⟩ := hcase
                have ham : a ∈ pre := by rw [hu]; simp
                have hbm : b ∈ pre := by rw [hu]; simp
                rw [hvother4 a (hprene a ham)
                    (Nat.ne_of_lt (lt_trans (hprelt a ham) hcj)),
                  hvother4 b (hprene b hbm)
                    (Nat.ne_of_lt (lt_trans (hprelt b hbm) hcj))] at hg
                exact List.mem_append_left _
                  (hsib a b ⟨u2, w ++ c :: j :: post, by rw [hu]; simp⟩ hg)
              · obtain ⟨u2, hpe2, hbc⟩ := hcase
                subst hbc
                have halp : a = lp := by
                  have e := congrArg List.getLast? (hpe2.symm.trans hpe)
                  rw [List.getLast?_concat, List.getLast?_concat] at e
                  exact Option.some_inj.mp e
                subst halp
                exact List.mem_append_right _ (by simp)
              · obtain ⟨hac, _, _⟩ := hcase
                subst hac
                exact List.mem_append_left _ (List.mem_cons_self a s.fringe)
              · obtain ⟨u2, w, hu⟩ := hcase
                have ham : a ∈ post := by rw [hu]; simp
                have hbm : b ∈ post := by rw [hu]; simp
                rw [hvother4 a (by have := hjpost a ham; omega)
                    (by have := hjpost a ham; omega),
                  hvother4 b (by have := hjpost b hbm; omega)
                    (by have := hjpost b hbm; omega)] at hg
                exact List.mem_append_left _
                  (hsib a b ⟨pre ++ c :: j :: u2, w, by rw [hu]; simp⟩ hg)
            · rw [hfr6]
              simp only [List.length_cons, List.length_append, List.length_nil]
              omega
        · rw [if_neg h3]
          refine ⟨pre ++ c :: j :: post, ⟨hwf, hsorted, ?_, ?_⟩, ?_⟩
          · intro a b hab hg
            have hna : (getNode s a).next = some b :=
              consec_next s _ a b hwf.2.2.1 hab
            have hac : a ≠ c := by
              intro h
              rw [h, hj] at hna
              have hbj : j = b := Option.some_inj.mp hna
              rw [h, ← hbj] at hg
              exact h2 hg
            obtain ⟨hmem, hocc⟩ := hcont a b hab hg
            refine ⟨?_, occBefore_tail hocc hac⟩
            rcases List.mem_cons.mp hmem with h | h
            · exact absurd h hac
            · exact h
          · intro a b hab hg
            have hna : (getNode s a).next = some b :=
              consec_next s _ a b hwf.2.2.1 hab
            have hac : a ≠ c := by
              intro h
              rw [h, hj] at hna
              have hbj : j = b := Option.some_inj.mp hna
              rw [h, ← hbj] at hg
              exact h3 hg
            rcases List.mem_cons.mp (hsib a b hab hg) with h | h
            · exact absurd h hac
            · exact h
          · simp only [List.length_cons]
            omega

end Nacaddr

namespace Nacaddr

theorem keyLeB_total (a b : AnnIP) : keyLeB a b = true ∨ keyLeB b a = true := by
  rw [keyLeB_iff, keyLeB_iff]
  omega

theorem insertSortedB_head (le : AnnIP → AnnIP → Bool) (x : AnnIP) (l : List AnnIP) :
    (insertSortedB le x l).head? = some x ∨ (insertSortedB le x l).head? = l.head? := by
  cases l with
  | nil => exact Or.inl rfl
  | cons y ys =>
    unfold insertSortedB
    by_cases h : le x y = true
    · rw [if_pos h]
      exact Or.inl rfl
    · rw [if_neg h]
      exact Or.inr rfl

theorem chain'_insertSortedB (x : AnnIP) (l : List AnnIP)
    (hl : l.Chain' (fun p q => keyLeB p q = true)) :
    (insertSortedB keyLeB x l).Chain' (fun p q => keyLeB p q = true) := by
  induction l with
  | nil => simp [insertSortedB]
  | cons y ys ih =>
    unfold insertSortedB
    by_cases h : keyLeB x y = true
    · rw [if_pos h]
      exact List.chain'_cons.mpr ⟨h, hl⟩
    · rw [if_neg h]
      have hyx : keyLeB y x = true := by
        rcases keyLeB_total x y with h1 | h1
        · exact absurd h1 h
        · exact h1
      have hys := (List.chain'_cons'.mp hl).2
      rw [List.chain'_cons']
      refine ⟨?_, ih hys⟩
      intro z hz
      rcases insertSortedB_head keyLeB x ys with hh | hh
      · rw [hh] at hz
        rw [Option.mem_def, Option.some_inj] at hz
        rw [← hz]
        exact hyx
      · rw [hh] at hz
        exact (List.chain'_cons'.mp hl).1 z hz

theorem chain'_sortByB (l : List AnnIP) :
    (sortByB keyLeB l).Chain' (fun p q => keyLeB p q = true) := by
  induction l with
  | nil => simp [sortByB]
  | cons x xs ih => exact chain'_insertSortedB x _ ih

theorem sortByB_of_chain' (l : List AnnIP)
    (h : l.Chain' (fun p q => keyLeB p q = true)) : sortByB keyLeB l = l := by
  induction l with
  | nil => rfl
  | cons x xs ih =>
    unfold sortByB
    rw [ih (List.chain'_cons'.mp h).2]
    cases xs with
    | nil => rfl
    | cons y ys =>
      unfold insertSortedB
      rw [if_pos ((List.chain'_cons'.mp h).1 y rfl)]

theorem range_split_front (n : Nat) (u v : List Nat) (C : Nat)
    (h : List.range n = u ++ C :: v) : u = List.range C := by
  have hlen : u.length < n := by
    have h2 := congrArg List.length h
    simp only [List.length_range, List.length_append, List.length_cons] at h2
    omega
  have hC : C = u.length := by
    have h2 : (List.range n).get? u.length = some C := by
      rw [h, List.get?_append_right (le_refl u.length), Nat.sub_self]
      rfl
    rw [List.get?_range hlen] at h2
    exact (Option.some_inj.mp h2).symm
  have h3 : (List.range n).take u.length = u := by
    rw [h]
    exact List.take_left u (C :: v)
  rw [List.take_range] at h3
  have h4 : min u.length n = u.length := by omega
  rw [h4] at h3
  rw [hC]
  exact h3.symm

theorem c4inv_initState (A : List AnnIP) (hne : A ≠ [])
    (hsorted : A.Chain' (fun p q => keyLeB p q = true)) :
    C4Inv (initState A) (List.range A.length) := by
  refine ⟨wfChain_initState A hne, ?_, ?_, ?_⟩
  · rw [chainVals_initState]
    exact hsorted
  · intro a b hab _
    have hlt : a < b := chain'_consec (List.chain'_iff_pairwise.mpr
      (List.pairwise_lt_range _)) hab
    obtain ⟨u, w, hu⟩ := hab
    constructor
    · show a ∈ List.range A.length
      rw [hu]
      simp
    · intro u2 v2 hsplit
      have h2 : u2 = List.range b := range_split_front A.length u2 v2 b hsplit
      rw [h2]
      exact List.mem_range.mpr hlt
  · intro a b hab _
    obtain ⟨u, w, hu⟩ := hab
    show a ∈ List.range A.length
    rw [hu]
    simp

theorem c4inv_loop (comps : Nat × Nat → List AnnIP)
    (hsafe : ∀ a m : AnnIP, SafeToMerge a m comps = true) :
    ∀ fuel s cs, C4Inv s cs → s.fringe.length + 2 * cs.length ≤ fuel →
      ∃ cs2, C4Inv (collapseLoop comps fuel s) cs2 ∧
        (collapseLoop comps fuel s).fringe = [] := by
  intro fuel
  induction fuel with
  | zero =>
    intro s cs hinv hm
    refine ⟨cs, hinv, ?_⟩
    have h0 : s.fringe.length = 0 := by omega
    exact List.length_eq_zero.mp h0
  | succ n ih =>
    intro s cs hinv hm
    cases hfr : s.fringe with
    | nil =>
      have heq : collapseLoop comps (n + 1) s = s := by
        unfold collapseLoop
        rw [hfr]
      rw [heq]
      exact ⟨cs, hinv, hfr⟩
    | cons c rest =>
      have heq : collapseLoop comps (n + 1) s =
          collapseLoop comps n (collapseStep comps { s with fringe := rest } c) := by
        conv_lhs => unfold collapseLoop
        rw [hfr]
      rw [heq]
      obtain ⟨hwf, hsorted, hcont, hsib⟩ := hinv
      obtain ⟨cs2, hinv2, hlt⟩ := c4inv_step comps { s with fringe := rest } cs c hsafe
        (WFChain_congr s { s with fringe := rest } rfl (fun _ => ⟨rfl, rfl⟩) cs hwf)
        (by
          have he : chainVals { s with fringe := rest } cs = chainVals s cs :=
            chainVals_congr s _ cs (fun _ _ => rfl)
          rw [he]
          exact hsorted)
        (by
          intro a b hab hg
          have hres := hcont a b hab hg
          rw [hfr] at hres
          exact hres)
        (by
          intro a b hab hg
          have hres := hsib a b hab hg
          rw [hfr] at hres
          exact hres)
      refine ih (collapseStep comps { s with fringe := rest } c) cs2 hinv2 ?_
      have hm2 : (c :: rest).length + 2 * cs.length ≤ n + 1 := by
        rw [← hfr]
        exact hm
      have hlt2 : (collapseStep comps { s with fringe := rest } c).fringe.length +
          2 * cs2.length < (c :: rest).length + 2 * cs.length := hlt
      simp only [List.length_cons] at hm2 hlt2
      omega

theorem chainVals_chain'_consec_gen {R : AnnIP → AnnIP → Prop} {s : CSt} {cs : List Nat}
    {a b : Nat} (hc : (chainVals s cs).Chain' R) (h : Consec cs a b) :
    R (getNode s a).val (getNode s b).val := by
  unfold chainVals at hc
  rw [List.chain'_map] at hc
  exact chain'_consec hc h

theorem chain'_of_consec {R : Nat → Nat → Prop} :
    ∀ cs : List Nat, (∀ a b, Consec cs a b → R a b) → cs.Chain' R := by
  intro cs
  induction cs with
  | nil => exact fun _ => List.chain'_nil
  | cons x xs ih =>
    intro h
    cases xs with
    | nil => exact List.chain'_singleton x
    | cons y ys =>
      refine List.chain'_cons.mpr ⟨h x y ⟨[], ys, rfl⟩, ?_⟩
      refine ih ?_
      intro a b hab
      obtain ⟨u, w, hu⟩ := hab
      exact h a b ⟨x :: u, w, by rw [hu]; rfl⟩

theorem collapseStep_inert (comps : Nat × Nat → List AnnIP) (s : CSt) (cs : List Nat)
    (c : Nat) (hwf : WFChain s cs)
    (hng : (chainVals s cs).Chain' fun p q =>
      supernetOfB p q = false ∧ sibGuardB p q = false) :
    collapseStep comps s c = s := by
  unfold collapseStep
  split
  · rfl
  · rename_i j hj
    have hcmem : c ∈ cs := mem_chain_of_next s cs hwf c j hj
    obtain ⟨pre, post, hcs⟩ := chainLinks_decomp s cs c j hwf.2.2.1 hcmem hj
    subst hcs
    have hpair := chainVals_chain'_consec_gen hng (⟨pre, post, rfl⟩ :
      Consec (pre ++ c :: j :: post) c j)
    by_cases h1 : SafeToMerge (getNode s j).val (getNode s c).val comps = false
    · rw [if_pos h1]
    · rw [if_neg h1, if_neg (by rw [hpair.1]; exact Bool.false_ne_true),
        if_neg (by rw [hpair.2]; exact Bool.false_ne_true)]

theorem collapseLoop_inert (comps : Nat × Nat → List AnnIP) :
    ∀ fuel s cs, WFChain s cs →
      ((chainVals s cs).Chain' fun p q =>
        supernetOfB p q = false ∧ sibGuardB p q = false) →
      (collapseLoop comps fuel s).nodes = s.nodes := by
  intro fuel
  induction fuel with
  | zero => exact fun s _ _ _ => rfl
  | succ n ih =>
    intro s cs hwf hng
    cases hfr : s.fringe with
    | nil =>
      have heq : collapseLoop comps (n + 1) s = s := by
        unfold collapseLoop
        rw [hfr]
      rw [heq]
    | cons c rest =>
      have heq : collapseLoop comps (n + 1) s =
          collapseLoop comps n (collapseStep comps { s with fringe := rest } c) := by
        conv_lhs => unfold collapseLoop
        rw [hfr]
      have hwf1 : WFChain { s with fringe := rest } cs :=
        WFChain_congr s { s with fringe := rest } rfl (fun _ => ⟨rfl, rfl⟩) cs hwf
      have hng1 : (chainVals { s with fringe := rest } cs).Chain' fun p q =>
          supernetOfB p q = false ∧ sibGuardB p q = false := by
        have he : chainVals { s with fringe := rest } cs = chainVals s cs :=
          chainVals_congr s _ cs (fun _ _ => rfl)
        rw [he]
        exact hng
      rw [heq, collapseStep_inert comps { s with fringe := rest } cs c hwf1 hng1]
      exact ih { s with fringe := rest } cs hwf1 hng1

theorem walkChain_congr (s s2 : CSt) (h : s2.nodes = s.nodes) :
    ∀ fuel o, walkChain s2 fuel o = walkChain s fuel o := by
  intro fuel
  induction fuel with
  | zero =>
    intro o
    cases o <;> rfl
  | succ n ih =>
    intro o
    cases o with
    | none => rfl
    | some i =>
      show (getNode s2 i).val :: walkChain s2 n (getNode s2 i).next =
        (getNode s i).val :: walkChain s n (getNode s i).next
      have hg : getNode s2 i = getNode s i := by
        unfold getNode
        rw [h]
      rw [hg, ih]

end Nacaddr

namespace Nacaddr

/-- The output of one collapse run is sorted by the network key and no
two neighbouring members admit a containment or sibling merge; it is
nonempty when the input is. -/
theorem collapse_sorted_inert (S : List AnnIP) (hne : sortByB keyLeB S ≠ []) :
    (CollapseAddrList S []).Chain' (fun p q => keyLeB p q = true) ∧
    (CollapseAddrList S []).Chain' (fun p q =>
      supernetOfB p q = false ∧ sibGuardB p q = false) ∧
    CollapseAddrList S [] ≠ [] := by
  unfold CollapseAddrList
  generalize hA : sortByB keyLeB S = A
  rw [hA] at hne
  have hsortA : A.Chain' (fun p q => keyLeB p q = true) := by
    rw [← hA]
    exact chain'_sortByB S
  rw [collapseInternal_eq A (compsDict S []) hne]
  have hsafe1 : ∀ a m : AnnIP, SafeToMerge a m (compsDict S []) = true :=
    fun a m => safeToMerge_nil_comps a m S
  have hmeas : (initState A).fringe.length + 2 * (List.range A.length).length ≤
      3 * A.length + 1 := by
    show (List.range A.length).length + 2 * (List.range A.length).length ≤
      3 * A.length + 1
    rw [List.length_range]
    omega
  obtain ⟨csF, hinvF, hfrF⟩ := c4inv_loop (compsDict S []) hsafe1 (3 * A.length + 1)
    (initState A) (List.range A.length) (c4inv_initState A hne hsortA) hmeas
  obtain ⟨hwfF, hsortedF, hcontF, hsibF⟩ := hinvF
  obtain ⟨restF, hrestF⟩ : ∃ r, csF = 0 :: r := by
    obtain ⟨w1, _, _, _, _, _⟩ := hwfF
    cases csF with
    | nil => cases w1
    | cons h0 r =>
      refine ⟨r, ?_⟩
      have : h0 = 0 := by simpa using w1
      rw [this]
  have hlencs : csF.length ≤ A.length := by
    have h1 := chain_length_le csF (collapseLoop (compsDict S []) (3 * A.length + 1)
      (initState A)).nodes.length hwfF.2.2.2.1 hwfF.2.2.2.2.1
    rw [nodes_length_collapseLoop] at h1
    have h2 : (initState A).nodes.length = A.length := buildNodes_length A
    rw [h2] at h1
    exact h1
  have hwalk := walkChain_eq_chainVals (collapseLoop (compsDict S []) (3 * A.length + 1)
    (initState A)) restF 0 A.length (by rw [← hrestF]; exact hwfF.2.2.1)
    (by rw [← hrestF]; exact hlencs)
  rw [← hrestF] at hwalk
  rw [hwalk]
  refine ⟨hsortedF, ?_, ?_⟩
  · unfold chainVals
    rw [List.chain'_map]
    refine chain'_of_consec csF ?_
    intro a b hab
    constructor
    · rcases Bool.dichotomy (supernetOfB (getNode (collapseLoop (compsDict S [])
        (3 * A.length + 1) (initState A)) a).val (getNode (collapseLoop (compsDict S [])
        (3 * A.length + 1) (initState A)) b).val) with hb | hb
      · exact hb
      · have hmem := (hcontF a b hab hb).1
        rw [hfrF] at hmem
        cases hmem
    · rcases Bool.dichotomy (sibGuardB (getNode (collapseLoop (compsDict S [])
        (3 * A.length + 1) (initState A)) a).val (getNode (collapseLoop (compsDict S [])
        (3 * A.length + 1) (initState A)) b).val) with hb | hb
      · exact hb
      · have hmem := hsibF a b hab hb
        rw [hfrF] at hmem
        cases hmem
  · rw [hrestF]
    simp [chainVals]

end Nacaddr

namespace Nacaddr

/-- C4: collapsing is idempotent: running CollapseAddrList on its own
output returns that output unchanged (literally equal, hence equal up to
any order normalization, with the same prefixes and comments). -/
theorem claim_C4_collapse_idempotent (S : List AnnIP) :
    CollapseAddrList (CollapseAddrList S []) [] = CollapseAddrList S [] := by
  by_cases hemp : sortByB keyLeB S = []
  · have hS0 : S = [] := by
      have := sortByB_length keyLeB S
      rw [hemp] at this
      exact List.length_eq_zero.mp this.symm
    subst hS0
    rfl
  · obtain ⟨hsorted, hng, hne⟩ := collapse_sorted_inert S hemp
    show CollapseAddrListInternal (sortByB keyLeB (CollapseAddrList S []))
      (compsDict (CollapseAddrList S []) []) = CollapseAddrList S []
    rw [sortByB_of_chain' _ hsorted]
    rw [collapseInternal_eq _ _ hne]
    generalize hL : CollapseAddrList S [] = L
    rw [hL] at hsorted hng hne
    have hwfI := wfChain_initState L hne
    have hngI : (chainVals (initState L) (List.range L.length)).Chain'
        (fun p q => supernetOfB p q = false ∧ sibGuardB p q = false) := by
      rw [chainVals_initState]
      exact hng
    have hnodes := collapseLoop_inert (compsDict L []) (3 * L.length + 1) (initState L)
      (List.range L.length) hwfI hngI
    rw [walkChain_congr (initState L) _ hnodes]
    obtain ⟨restI, hrestI⟩ : ∃ r, List.range L.length = 0 :: r := by
      have w1 := hwfI.1
      cases h : List.range L.length with
      | nil =>
        rw [h] at w1
        cases w1
      | cons h0 r =>
        rw [h] at w1
        refine ⟨r, ?_⟩
        have : h0 = 0 := by simpa using w1
        rw [this]
    have hwalkI := walkChain_eq_chainVals (initState L) restI 0 L.length
      (by rw [← hrestI]; exact hwfI.2.2.1)
      (by rw [← hrestI]; simp)
    rw [← hrestI] at hwalkI
    rw [hwalkI, chainVals_initState]

end Nacaddr

namespace Nacaddr

theorem addr_le_bcast (p : AnnIP) : p.addr ≤ bcast p := by
  unfold bcast
  have := numAddrs_pos p
  omega

theorem keyLtB_iff (a b : AnnIP) : keyLtB a b = true ↔
    (a.version < b.version ∨ (a.version = b.version ∧
      (a.addr < b.addr ∨ (a.addr = b.addr ∧ netmask a < netmask b)))) := by
  unfold keyLtB
  simp only [Bool.or_eq_true, Bool.and_eq_true, beq_iff_eq, decide_eq_true_eq]

theorem sep_trans {p q r : AnnIP} (h1 : Sep p q) (h2 : Sep q r) : Sep p r := by
  unfold Sep at h1 h2 ⊢
  have := addr_le_bcast q
  omega

theorem sep_keyLe {p q : AnnIP} (h : Sep p q) : keyLeB p q = true := by
  rw [keyLeB_iff]
  unfold Sep at h
  have := addr_le_bcast p
  omega

theorem chain'_rel_head {R : AnnIP → AnnIP → Prop}
    (htr : ∀ a b c, R a b → R b c → R a c) :
    ∀ (l : List AnnIP) (x : AnnIP), (x :: l).Chain' R → ∀ y ∈ l, R x y := by
  intro l
  induction l with
  | nil => exact fun x _ y hy => absurd hy (List.not_mem_nil y)
  | cons z l2 ih =>
    intro x h y hy
    have hxz : R x z := (List.chain'_cons.mp h).1
    rcases List.mem_cons.mp hy with h1 | h1
    · rw [h1]
      exact hxz
    · exact htr x z y hxz (ih z (List.chain'_cons.mp h).2 y h1)

theorem overlapsB_iff (p q : AnnIP) : overlapsB p q = true ↔
    (p.version = q.version ∧ q.addr ≤ bcast p ∧ p.addr ≤ bcast q) := by
  unfold overlapsB containsAddrB
  simp only [Bool.or_eq_true, Bool.and_eq_true, beq_iff_eq, decide_eq_true_eq]
  have h1 := addr_le_bcast p
  have h2 := addr_le_bcast q
  constructor
  · rintro (((⟨⟨hv, h3⟩, h4⟩ | ⟨⟨hv, h3⟩, h4⟩) | ⟨⟨hv, h3⟩, h4⟩) | ⟨⟨hv, h3⟩, h4⟩) <;>
      exact ⟨by omega, by omega, by omega⟩
  · rintro ⟨hv, h3, h4⟩
    rcases Nat.le_total p.addr q.addr with hle | hle
    · exact Or.inl (Or.inl (Or.inl ⟨⟨hv, hle⟩, h3⟩))
    · exact Or.inl (Or.inr ⟨⟨hv.symm, hle⟩, h4⟩)

theorem overlapsB_false_of_before {p q : AnnIP} (h : bcast p < q.addr) :
    overlapsB p q = false := by
  rcases Bool.dichotomy (overlapsB p q) with hb | hb
  · exact hb
  · rw [overlapsB_iff] at hb
    omega

theorem overlapsB_false_of_version {p q : AnnIP} (h : p.version ≠ q.version) :
    overlapsB p q = false := by
  rcases Bool.dichotomy (overlapsB p q) with hb | hb
  · exact hb
  · rw [overlapsB_iff] at hb
    exact absurd hb.1 h

theorem disj_of_not_overlaps {p q : AnnIP} (h : overlapsB p q = false) : Disj p q := by
  intro v a hpq
  obtain ⟨hp, hq⟩ := hpq
  obtain ⟨hp1, hp2, hp3⟩ := hp
  obtain ⟨hq1, hq2, hq3⟩ := hq
  have ht : overlapsB p q = true := by
    rw [overlapsB_iff]
    exact ⟨by omega, by omega, by omega⟩
  rw [h] at ht
  cases ht

theorem overlaps_version {p q : AnnIP} (h : overlapsB p q = true) :
    p.version = q.version := ((overlapsB_iff p q).mp h).1

theorem overlaps_ranges {p q : AnnIP} (h : overlapsB p q = true) :
    q.addr ≤ bcast p ∧ p.addr ≤ bcast q := ((overlapsB_iff p q).mp h).2

theorem dyadic_sub (i j : Nat) (x y : Nat) (hij : i ≤ j) (hx : x % 2 ^ i = 0)
    (hy : y % 2 ^ j = 0) :
    (y ≤ x ∧ x + 2 ^ i ≤ y + 2 ^ j) ∨ x + 2 ^ i ≤ y ∨ y + 2 ^ j ≤ x := by
  obtain ⟨e, he⟩ : (2 ^ i : Nat) ∣ 2 ^ j := pow_dvd_pow 2 hij
  obtain ⟨kx, hkx⟩ := Nat.dvd_of_mod_eq_zero hx
  obtain ⟨ky, hky⟩ := Nat.dvd_of_mod_eq_zero hy
  have hpos : 0 < 2 ^ i := Nat.pos_pow_of_pos _ (by norm_num)
  by_cases h1 : y + 2 ^ j ≤ x
  · exact Or.inr (Or.inr h1)
  · push_neg at h1
    by_cases h2 : x < y
    · refine Or.inr (Or.inl ?_)
      have hk : kx < e * ky := by
        have h3 : 2 ^ i * kx < 2 ^ i * (e * ky) := by
          rw [← hkx]
          calc x < y := h2
            _ = 2 ^ i * (e * ky) := by rw [hky, he]; ring
        exact Nat.lt_of_mul_lt_mul_left h3
      calc x + 2 ^ i = 2 ^ i * (kx + 1) := by rw [hkx]; ring
        _ ≤ 2 ^ i * (e * ky) := Nat.mul_le_mul_left _ hk
        _ = y := by rw [hky, he]; ring
    · push_neg at h2
      refine Or.inl ⟨h2, ?_⟩
      have hk : kx < e * ky + e := by
        have h3 : 2 ^ i * kx < 2 ^ i * (e * ky + e) := by
          rw [← hkx]
          calc x < y + 2 ^ j := h1
            _ = 2 ^ i * (e * ky + e) := by rw [hky, he]; ring
        exact Nat.lt_of_mul_lt_mul_left h3
      calc x + 2 ^ i = 2 ^ i * (kx + 1) := by rw [hkx]; ring
        _ ≤ 2 ^ i * (e * ky + e) := Nat.mul_le_mul_left _ hk
        _ = y + 2 ^ j := by rw [hky, he]; ring

theorem dyadic_dichotomy {p q : AnnIP} (hp : Canon p) (hq : Canon q)
    (hv : p.version = q.version) :
    (p.addr ≤ q.addr ∧ bcast q ≤ bcast p) ∨ (q.addr ≤ p.addr ∧ bcast p ≤ bcast q) ∨
      bcast p < q.addr ∨ bcast q < p.addr := by
  obtain ⟨_, hple, _, hmodp⟩ := hp
  obtain ⟨_, hqle, _, hmodq⟩ := hq
  have hw : width q.version = width p.version := by rw [hv]
  have hnp : 0 < numAddrs p := numAddrs_pos p
  have hnq : 0 < numAddrs q := numAddrs_pos q
  unfold bcast
  unfold numAddrs at hnp hnq ⊢
  rw [hw] at hmodq hqle ⊢
  rcases Nat.le_total (width p.version - p.plen) (width p.version - q.plen) with hij | hij
  · have hd := dyadic_sub (width p.version - p.plen) (width p.version - q.plen)
      p.addr q.addr hij hmodp hmodq
    omega
  · have hd := dyadic_sub (width p.version - q.plen) (width p.version - p.plen)
      q.addr p.addr hij hmodq hmodp
    omega

end Nacaddr

namespace Nacaddr

/-- Reusable form of the address-space preservation and canonicity of
one collapse run. -/
theorem collapse_covers_canon (S : List AnnIP) (hS : ∀ p ∈ S, Canon p) :
    (∀ p ∈ CollapseAddrList S [], Canon p) ∧
    (∀ v a, listCovers (CollapseAddrList S []) v a ↔ listCovers S v a) := by
  unfold CollapseAddrList
  by_cases hemp : sortByB keyLeB S = []
  · have hS0 : S = [] := by
      have := sortByB_length keyLeB S
      rw [hemp] at this
      exact List.length_eq_zero.mp this.symm
    subst hS0
    exact ⟨fun p hp => absurd hp (List.not_mem_nil p), fun v a => Iff.rfl⟩
  · rw [collapseInternal_eq _ _ hemp]
    have hcanon2 : ∀ p ∈ sortByB keyLeB S, Canon p :=
      fun p hp => hS p ((mem_sortByB keyLeB p S).mp hp)
    have hinv := c2inv_loop (sortByB keyLeB S) (compsDict S [])
      (3 * (sortByB keyLeB S).length + 1)
      (initState (sortByB keyLeB S)) (c2inv_initState _ hemp hcanon2)
    obtain ⟨cs, hwf, hlen, hcanon3, hcov⟩ := hinv
    obtain ⟨rest, hrest⟩ : ∃ r, cs = 0 :: r := by
      obtain ⟨w1, _, _, _, _, _⟩ := hwf
      cases cs with
      | nil => cases w1
      | cons h0 r =>
        refine ⟨r, ?_⟩
        have : h0 = 0 := by simpa using w1
        rw [this]
    have hlencs : cs.length ≤ (sortByB keyLeB S).length := by
      have h1 := chain_length_le cs
        (collapseLoop (compsDict S []) (3 * (sortByB keyLeB S).length + 1)
          (initState (sortByB keyLeB S))).nodes.length hwf.2.2.2.1 hwf.2.2.2.2.1
      rw [hlen] at h1
      exact h1
    have hwalk := walkChain_eq_chainVals
      (collapseLoop (compsDict S []) (3 * (sortByB keyLeB S).length + 1)
        (initState (sortByB keyLeB S))) rest 0 (sortByB keyLeB S).length
      (by rw [← hrest]; exact hwf.2.2.1) (by rw [← hrest]; exact hlencs)
    rw [← hrest] at hwalk
    rw [hwalk]
    exact ⟨hcanon3, fun v a => (hcov v a).trans (listCovers_sortByB keyLeB S v a)⟩

theorem sep_of_key_nocontain {p q : AnnIP} (hp : Canon p) (hq : Canon q)
    (hk : keyLeB p q = true) (hn : supernetOfB p q = false) : Sep p q := by
  rw [keyLeB_iff] at hk
  unfold Sep
  rcases hk with h1 | ⟨h1, h2⟩
  · exact Or.inl h1
  · right
    refine ⟨h1, ?_⟩
    have hd := dyadic_dichotomy hp hq h1
    have hns : ¬(p.addr ≤ q.addr ∧ bcast q ≤ bcast p) := by
      intro hcon
      have ht : supernetOfB p q = true := by
        unfold supernetOfB
        simp only [Bool.and_eq_true, beq_iff_eq, decide_eq_true_eq]
        exact ⟨⟨h1, hcon.1⟩, hcon.2⟩
      rw [hn] at ht
      cases ht
    have hab := addr_le_bcast q
    have hab2 := addr_le_bcast p
    rcases h2 with h2 | ⟨h2, h3⟩
    · rcases hd with hcase | hcase | hcase | hcase
      · exact absurd hcase hns
      · omega
      · exact hcase
      · omega
    · exfalso
      apply hns
      refine ⟨le_of_eq h2, ?_⟩
      unfold netmask at h3
      unfold bcast numAddrs
      have hb1 := pow_le_pow_width (width p.version) p.plen
      have hb2 := pow_le_pow_width (width q.version) q.plen
      rw [← h1] at h3 hb2 ⊢
      rw [← h2]
      omega

theorem sep_of_key_disj {p q : AnnIP} (hp : Canon p) (hq : Canon q)
    (hk : keyLeB p q = true) (hd : Disj p q) : Sep p q := by
  rw [keyLeB_iff] at hk
  unfold Sep
  rcases hk with h1 | ⟨h1, h2⟩
  · exact Or.inl h1
  · right
    refine ⟨h1, ?_⟩
    have hab := addr_le_bcast p
    have hab2 := addr_le_bcast q
    have hnc : ¬(p.addr ≤ q.addr ∧ q.addr ≤ bcast p) := by
      intro hcon
      exact hd q.version q.addr ⟨⟨h1, hcon.1, hcon.2⟩, ⟨rfl, le_refl _, hab2⟩⟩
    rcases h2 with h2 | ⟨h2, h3⟩ <;> omega

theorem chain'_sep_of_collapse :
    ∀ L : List AnnIP, (∀ p ∈ L, Canon p) →
      L.Chain' (fun p q => keyLeB p q = true) →
      L.Chain' (fun p q => supernetOfB p q = false ∧ sibGuardB p q = false) →
      L.Chain' Sep := by
  intro L
  induction L with
  | nil => exact fun _ _ _ => List.chain'_nil
  | cons x xs ih =>
    intro hc hk hn
    cases xs with
    | nil => exact List.chain'_singleton x
    | cons y ys =>
      refine List.chain'_cons.mpr ⟨?_, ?_⟩
      · exact sep_of_key_nocontain (hc x (by simp)) (hc y (by simp))
          (List.chain'_cons.mp hk).1 (List.chain'_cons.mp hn).1.1
      · exact ih (fun p hp => hc p (List.mem_cons_of_mem x hp))
          (List.chain'_cons.mp hk).2 (List.chain'_cons.mp hn).2

theorem chain'_sep_of_sorted_disj :
    ∀ L : List AnnIP, (∀ p ∈ L, Canon p) →
      L.Chain' (fun p q => keyLeB p q = true) →
      L.Pairwise Disj → L.Chain' Sep := by
  intro L
  induction L with
  | nil => exact fun _ _ _ => List.chain'_nil
  | cons x xs ih =>
    intro hc hk hd
    cases xs with
    | nil => exact List.chain'_singleton x
    | cons y ys =>
      refine List.chain'_cons.mpr ⟨?_, ?_⟩
      · exact sep_of_key_disj (hc x (by simp)) (hc y (by simp))
          (List.chain'_cons.mp hk).1 ((List.pairwise_cons.mp hd).1 y (by simp))
      · exact ih (fun p hp => hc p (List.mem_cons_of_mem x hp))
          (List.chain'_cons.mp hk).2 (List.pairwise_cons.mp hd).2

/-- The output of a collapse run is strictly separated: later members lie
in higher versions or entirely above earlier ones. -/
theorem collapse_sep (S : List AnnIP) (hS : ∀ p ∈ S, Canon p) :
    (CollapseAddrList S []).Chain' Sep := by
  by_cases hemp : sortByB keyLeB S = []
  · have hS0 : S = [] := by
      have := sortByB_length keyLeB S
      rw [hemp] at this
      exact List.length_eq_zero.mp this.symm
    subst hS0
    exact List.chain'_nil
  · obtain ⟨hsorted, hng, _⟩ := collapse_sorted_inert S hemp
    exact chain'_sep_of_collapse _ (collapse_covers_canon S hS).1 hsorted hng

end Nacaddr

namespace Nacaddr

theorem subnetsPair_fst (P : AnnIP) :
    (subnetsPair P).1 = ⟨P.version, P.addr, P.plen + 1, "", "", ""⟩ := rfl

theorem subnetsPair_snd (P : AnnIP) :
    (subnetsPair P).2 = ⟨P.version, P.addr + 2 ^ (width P.version - (P.plen + 1)),
      P.plen + 1, "", "", ""⟩ := rfl

theorem aligned_end_le (sz tot addr : Nat) (hpos : 0 < sz) (hdvd : addr % sz = 0)
    (hsz : sz ∣ tot) (hlt : addr < tot) : addr + sz ≤ tot := by
  obtain ⟨k, hk⟩ := Nat.dvd_of_mod_eq_zero hdvd
  obtain ⟨e, he⟩ := hsz
  have hke : k < e := by
    have h2 : sz * k < sz * e := by
      rw [← hk, ← he]
      exact hlt
    exact Nat.lt_of_mul_lt_mul_left h2
  calc addr + sz = sz * (k + 1) := by rw [hk]; ring
    _ ≤ sz * e := Nat.mul_le_mul_left _ hke
    _ = tot := he.symm

theorem bcast_lt_width (p : AnnIP) (hp : Canon p) : bcast p < 2 ^ width p.version := by
  obtain ⟨_, hple, hlt, hmod⟩ := hp
  have h1 : p.addr + numAddrs p ≤ 2 ^ width p.version := by
    refine aligned_end_le (numAddrs p) (2 ^ width p.version) p.addr (numAddrs_pos p)
      hmod ?_ hlt
    exact pow_dvd_pow 2 (Nat.sub_le _ _)
  unfold bcast
  have := numAddrs_pos p
  omega

theorem halves_spec (P : AnnIP) (hP : Canon P) (hlt : P.plen < width P.version) :
    Canon (subnetsPair P).1 ∧ Canon (subnetsPair P).2 ∧
    (subnetsPair P).1.version = P.version ∧ (subnetsPair P).2.version = P.version ∧
    (subnetsPair P).1.plen = P.plen + 1 ∧ (subnetsPair P).2.plen = P.plen + 1 ∧
    (subnetsPair P).1.addr = P.addr ∧
    bcast (subnetsPair P).1 + 1 = (subnetsPair P).2.addr ∧
    bcast (subnetsPair P).2 = bcast P ∧
    numAddrs (subnetsPair P).1 = 2 ^ (width P.version - (P.plen + 1)) ∧
    numAddrs (subnetsPair P).2 = 2 ^ (width P.version - (P.plen + 1)) ∧
    numAddrs P = 2 ^ (width P.version - (P.plen + 1)) +
      2 ^ (width P.version - (P.plen + 1)) := by
  obtain ⟨hv4, hple, hltw, hmod⟩ := hP
  have hps : 2 ^ (width P.version - P.plen) =
      2 ^ (width P.version - (P.plen + 1)) + 2 ^ (width P.version - (P.plen + 1)) := by
    have h1 : width P.version - P.plen = (width P.version - (P.plen + 1)) + 1 := by omega
    rw [h1, pow_succ]
    ring
  have hHpos : 0 < 2 ^ (width P.version - (P.plen + 1)) :=
    Nat.pos_pow_of_pos _ (by norm_num)
  obtain ⟨k, hk⟩ := Nat.dvd_of_mod_eq_zero hmod
  have hmod1 : P.addr % 2 ^ (width P.version - (P.plen + 1)) = 0 := by
    rw [hk, hps]
    have h2 : (2 ^ (width P.version - (P.plen + 1)) +
        2 ^ (width P.version - (P.plen + 1))) * k =
        2 ^ (width P.version - (P.plen + 1)) * (2 * k) := by ring
    rw [h2]
    exact Nat.mul_mod_right _ _
  have hmod2 : (P.addr + 2 ^ (width P.version - (P.plen + 1))) %
      2 ^ (width P.version - (P.plen + 1)) = 0 := by
    rw [hk, hps]
    have h2 : (2 ^ (width P.version - (P.plen + 1)) +
        2 ^ (width P.version - (P.plen + 1))) * k +
        2 ^ (width P.version - (P.plen + 1)) =
        2 ^ (width P.version - (P.plen + 1)) * (2 * k + 1) := by ring
    rw [h2]
    exact Nat.mul_mod_right _ _
  have hend : P.addr + numAddrs P ≤ 2 ^ width P.version := by
    refine aligned_end_le (numAddrs P) (2 ^ width P.version) P.addr (numAddrs_pos P)
      hmod ?_ hltw
    exact pow_dvd_pow 2 (Nat.sub_le _ _)
  have hN : numAddrs P = 2 ^ (width P.version - P.plen) := rfl
  rw [subnetsPair_fst, subnetsPair_snd]
  unfold Canon bcast numAddrs
  dsimp only
  rw [hN] at hend
  refine ⟨⟨hv4, by omega, by omega, hmod1⟩, ⟨hv4, by omega, by omega, hmod2⟩,
    rfl, rfl, rfl, rfl, rfl, by omega, by omega, rfl, rfl, hps⟩

theorem covers_split (P : AnnIP) (hP : Canon P) (hlt : P.plen < width P.version)
    (v a : Nat) : coversAddr P v a ↔
      coversAddr (subnetsPair P).1 v a ∨ coversAddr (subnetsPair P).2 v a := by
  obtain ⟨hc1, hc2, hv1, hv2, hp1, hp2, ha1, hb1, hb2, hn1, hn2, hnP⟩ :=
    halves_spec P hP hlt
  have hHpos : 0 < 2 ^ (width P.version - (P.plen + 1)) :=
    Nat.pos_pow_of_pos _ (by norm_num)
  unfold coversAddr bcast
  rw [hv1, hv2, ha1, hn1, hn2]
  unfold bcast at hb1 hb2
  rw [hn1, ha1] at hb1
  rw [hn2] at hb2
  omega

theorem numAddrs_eq_of_netEq {p q : AnnIP} (hp : Canon p) (h : netEqB p q = true) :
    q.version = p.version ∧ q.addr = p.addr ∧ numAddrs q = numAddrs p ∧
      bcast q = bcast p := by
  unfold netEqB at h
  simp only [Bool.and_eq_true, beq_iff_eq] at h
  obtain ⟨⟨hv, ha⟩, hm⟩ := h
  unfold netmask at hm
  have hb1 := pow_le_pow_width (width p.version) p.plen
  have hb2 := pow_le_pow_width (width q.version) q.plen
  rw [← hv] at hb2 hm
  have hnum : numAddrs q = numAddrs p := by
    unfold numAddrs
    rw [← hv]
    omega
  refine ⟨hv.symm, ha.symm, hnum, ?_⟩
  unfold bcast
  rw [hnum, ha]

theorem pow_le_pow_iff_le {i j : Nat} : 2 ^ i ≤ 2 ^ j ↔ i ≤ j :=
  Nat.pow_le_pow_iff_right (by norm_num)

end Nacaddr

namespace Nacaddr

theorem listCovers_nil (v a : Nat) : listCovers [] v a ↔ False := by
  unfold listCovers
  simp

/-- Full specification of the address_exclude descent below a canonical
prefix P strictly containing the canonical exclude e of the same
version: members are canonical same-version subblocks of P, the covered
addresses are exactly P minus e, the blocks are pairwise disjoint, and
their sizes sum with e's size to P's size. -/
theorem addressExcludeLoop_spec (e : AnnIP) :
    ∀ fuel P, Canon P → Canon e → e.version = P.version →
      P.addr ≤ e.addr → bcast e ≤ bcast P → P.plen < e.plen →
      width P.version - P.plen ≤ fuel →
      (∀ q ∈ addressExcludeLoop e (subnetsPair P).1 (subnetsPair P).2 fuel,
        Canon q ∧ q.version = P.version ∧ P.addr ≤ q.addr ∧ bcast q ≤ bcast P) ∧
      (∀ v a, listCovers (addressExcludeLoop e (subnetsPair P).1 (subnetsPair P).2 fuel)
          v a ↔ (coversAddr P v a ∧ ¬ coversAddr e v a)) ∧
      (addressExcludeLoop e (subnetsPair P).1 (subnetsPair P).2 fuel).Pairwise Disj ∧
      ((addressExcludeLoop e (subnetsPair P).1 (subnetsPair P).2 fuel).map
        numAddrs).sum + numAddrs e = numAddrs P := by
  intro fuel
  induction fuel with
  | zero =>
    intro P hP he hv hel her hpl hfuel
    exfalso
    have h1 : e.plen ≤ width e.version := he.2.1
    rw [hv] at h1
    omega
  | succ fuel ih =>
    intro P hP he hv hel her hpl hfuel
    have hwid : e.plen ≤ width P.version := by
      have h1 : e.plen ≤ width e.version := he.2.1
      rw [hv] at h1
      exact h1
    have hPw : P.plen < width P.version := by omega
    obtain ⟨hc1, hc2, hv1, hv2, hp1, hp2, ha1, hb1, hb2, hn1, hn2, hnP⟩ :=
      halves_spec P hP hPw
    have hsplit := covers_split P hP hPw
    have hHpos : 0 < 2 ^ (width P.version - (P.plen + 1)) :=
      Nat.pos_pow_of_pos _ (by norm_num)
    have hNe : numAddrs e = 2 ^ (width P.version - e.plen) := by
      unfold numAddrs
      rw [hv]
    have hNele : numAddrs e ≤ 2 ^ (width P.version - (P.plen + 1)) := by
      rw [hNe]
      exact pow_le_pow_iff_le.mpr (by omega)
    have habe := addr_le_bcast e
    have habP := addr_le_bcast P
    have hab1 := addr_le_bcast (subnetsPair P).1
    have hab2 := addr_le_bcast (subnetsPair P).2
    have hbe_eq : bcast e = e.addr + numAddrs e - 1 := rfl
    have hb1_eq : bcast (subnetsPair P).1 =
        (subnetsPair P).1.addr + numAddrs (subnetsPair P).1 - 1 := rfl
    have hb2_eq : bcast (subnetsPair P).2 =
        (subnetsPair P).2.addr + numAddrs (subnetsPair P).2 - 1 := rfl
    have hstep : addressExcludeLoop e (subnetsPair P).1 (subnetsPair P).2 (fuel + 1) =
        (if netEqB (subnetsPair P).1 e then [(subnetsPair P).2]
         else if netEqB (subnetsPair P).2 e then [(subnetsPair P).1]
         else if subnetOfB e (subnetsPair P).1 then
           (subnetsPair P).2 :: addressExcludeLoop e (subnetsPair (subnetsPair P).1).1
             (subnetsPair (subnetsPair P).1).2 fuel
         else if subnetOfB e (subnetsPair P).2 then
           (subnetsPair P).1 :: addressExcludeLoop e (subnetsPair (subnetsPair P).2).1
             (subnetsPair (subnetsPair P).2).2 fuel
         else []) := rfl
    have hin : bcast e ≤ bcast (subnetsPair P).1 ∨ (subnetsPair P).2.addr ≤ e.addr := by
      rcases dyadic_dichotomy he hc1 (hv.trans hv1.symm) with ⟨h1, h2⟩ | ⟨h1, h2⟩ | h1 | h1
      · left
        omega
      · exact Or.inl h2
      · exfalso
        omega
      · right
        omega
    by_cases hq1 : netEqB (subnetsPair P).1 e = true
    · rw [hstep, if_pos hq1]
      obtain ⟨hve, hae, hnee, hbee⟩ := numAddrs_eq_of_netEq hc1 hq1
      refine ⟨?_, ?_, List.pairwise_singleton _ _, ?_⟩
      · intro q hq
        rw [List.mem_singleton] at hq
        subst hq
        exact ⟨hc2, hv2, by omega, by omega⟩
      · intro v a
        rw [listCovers_cons, listCovers_nil]
        have hs := hsplit v a
        unfold coversAddr at hs ⊢
        constructor
        · rintro (⟨h1, h2, h3⟩ | hF)
          · refine ⟨hs.mpr (Or.inr ⟨h1, h2, h3⟩), ?_⟩
            rintro ⟨g1, g2, g3⟩
            omega
          · cases hF
        · rintro ⟨hPc, hne⟩
          rcases hs.mp hPc with h | h
          · exact absurd (show e.version = v ∧ e.addr ≤ a ∧ a ≤ bcast e by omega) hne
          · exact Or.inl h
      · simp only [List.map_cons, List.map_nil, List.sum_cons, List.sum_nil]
        omega
    · by_cases hq2 : netEqB (subnetsPair P).2 e = true
      · rw [hstep, if_neg hq1, if_pos hq2]
        obtain ⟨hve, hae, hnee, hbee⟩ := numAddrs_eq_of_netEq hc2 hq2
        refine ⟨?_, ?_, List.pairwise_singleton _ _, ?_⟩
        · intro q hq
          rw [List.mem_singleton] at hq
          subst hq
          exact ⟨hc1, hv1, by omega, by omega⟩
        · intro v a
          rw [listCovers_cons, listCovers_nil]
          have hs := hsplit v a
          unfold coversAddr at hs ⊢
          constructor
          · rintro (⟨h1, h2, h3⟩ | hF)
            · refine ⟨hs.mpr (Or.inl ⟨h1, h2, h3⟩), ?_⟩
              rintro ⟨g1, g2, g3⟩
              omega
            · cases hF
          · rintro ⟨hPc, hne⟩
            rcases hs.mp hPc with h | h
            · exact Or.inl h
            · exact absurd (show e.version = v ∧ e.addr ≤ a ∧ a ≤ bcast e by omega) hne
        · simp only [List.map_cons, List.map_nil, List.sum_cons, List.sum_nil]
          omega
      · by_cases hq3 : subnetOfB e (subnetsPair P).1 = true
        · have hsub : (subnetsPair P).1.addr ≤ e.addr ∧
              bcast e ≤ bcast (subnetsPair P).1 := by
            unfold subnetOfB at hq3
            simp only [Bool.and_eq_true, beq_iff_eq, decide_eq_true_eq] at hq3
            exact ⟨hq3.1.2, hq3.2⟩
          have hplen1 : (subnetsPair P).1.plen < e.plen := by
            rw [hp1]
            rcases Nat.lt_or_ge (P.plen + 1) e.plen with h | h
            · exact h
            · exfalso
              have hep : e.plen = P.plen + 1 := by omega
              have hne2 : numAddrs e = 2 ^ (width P.version - (P.plen + 1)) := by
                rw [hNe, hep]
              have : netEqB (subnetsPair P).1 e = true := by
                unfold netEqB netmask
                simp only [Bool.and_eq_true, beq_iff_eq, decide_eq_true_eq]
                refine ⟨⟨hv1.trans hv.symm, ?_⟩, ?_⟩
                · omega
                · rw [hv1, hv, hp1, hep]
              exact absurd this hq1
          have hih := ih (subnetsPair P).1 hc1 he (hv.trans hv1.symm)
            hsub.1 hsub.2 hplen1 (by rw [hv1, hp1]; omega)
          obtain ⟨ihq, ihcov, ihpw, ihsum⟩ := hih
          rw [hstep, if_neg hq1, if_neg hq2, if_pos hq3]
          refine ⟨?_, ?_, ?_, ?_⟩
          · intro q hq
            rcases List.mem_cons.mp hq with h | h
            · subst h
              exact ⟨hc2, hv2, by omega, by omega⟩
            · obtain ⟨hq_c, hq_v, hq_l, hq_r⟩ := ihq q h
              exact ⟨hq_c, hq_v.trans hv1, by omega, by omega⟩
          · intro v a
            rw [listCovers_cons, ihcov v a]
            have hs := hsplit v a
            unfold coversAddr at hs ⊢
            omega
          · refine List.pairwise_cons.mpr ⟨?_, ihpw⟩
            intro q hq v a hva
            obtain ⟨_, _, hq_l, hq_r⟩ := ihq q hq
            obtain ⟨h1, h2⟩ := hva
            unfold coversAddr at h1 h2
            omega
          · simp only [List.map_cons, List.sum_cons]
            omega
        · by_cases hq4 : subnetOfB e (subnetsPair P).2 = true
          · have hsub : (subnetsPair P).2.addr ≤ e.addr ∧
                bcast e ≤ bcast (subnetsPair P).2 := by
              unfold subnetOfB at hq4
              simp only [Bool.and_eq_true, beq_iff_eq, decide_eq_true_eq] at hq4
              exact ⟨hq4.1.2, hq4.2⟩
            have hplen2 : (subnetsPair P).2.plen < e.plen := by
              rw [hp2]
              rcases Nat.lt_or_ge (P.plen + 1) e.plen with h | h
              · exact h
              · exfalso
                have hep : e.plen = P.plen + 1 := by omega
                have hne2 : numAddrs e = 2 ^ (width P.version - (P.plen + 1)) := by
                  rw [hNe, hep]
                have : netEqB (subnetsPair P).2 e = true := by
                  unfold netEqB netmask
                  simp only [Bool.and_eq_true, beq_iff_eq, decide_eq_true_eq]
                  refine ⟨⟨hv2.trans hv.symm, ?_⟩, ?_⟩
                  · omega
                  · rw [hv2, hv, hp2, hep]
                exact absurd this hq2
            have hih := ih (subnetsPair P).2 hc2 he (hv.trans hv2.symm)
              hsub.1 hsub.2 hplen2 (by rw [hv2, hp2]; omega)
            obtain ⟨ihq, ihcov, ihpw, ihsum⟩ := hih
            rw [hstep, if_neg hq1, if_neg hq2, if_neg hq3, if_pos hq4]
            refine ⟨?_, ?_, ?_, ?_⟩
            · intro q hq
              rcases List.mem_cons.mp hq with h | h
              · subst h
                exact ⟨hc1, hv1, by omega, by omega⟩
              · obtain ⟨hq_c, hq_v, hq_l, hq_r⟩ := ihq q h
                exact ⟨hq_c, hq_v.trans hv2, by omega, by omega⟩
            · intro v a
              rw [listCovers_cons, ihcov v a]
              have hs := hsplit v a
              unfold coversAddr at hs ⊢
              omega
            · refine List.pairwise_cons.mpr ⟨?_, ihpw⟩
              intro q hq v a hva
              obtain ⟨_, _, hq_l, hq_r⟩ := ihq q hq
              obtain ⟨h1, h2⟩ := hva
              unfold coversAddr at h1 h2
              omega
            · simp only [List.map_cons, List.sum_cons]
              omega
          · exfalso
            rcases hin with h | h
            · have : subnetOfB e (subnetsPair P).1 = true := by
                unfold subnetOfB
                simp only [Bool.and_eq_true, beq_iff_eq, decide_eq_true_eq]
                exact ⟨⟨hv.trans hv1.symm, by omega⟩, h⟩
              exact absurd this hq3
            · have : subnetOfB e (subnetsPair P).2 = true := by
                unfold subnetOfB
                simp only [Bool.and_eq_true, beq_iff_eq, decide_eq_true_eq]
                exact ⟨⟨hv.trans hv2.symm, h⟩, by omega⟩
              exact absurd this hq4

end Nacaddr

namespace Nacaddr

theorem length_addressExcludeLoop (e : AnnIP) :
    ∀ fuel s1 s2, (addressExcludeLoop e s1 s2 fuel).length ≤ fuel := by
  intro fuel
  induction fuel with
  | zero => intro s1 s2; exact le_refl 0
  | succ fuel ih =>
    intro s1 s2
    show (if netEqB s1 e then [s2]
      else if netEqB s2 e then [s1]
      else if subnetOfB e s1 then
        s2 :: addressExcludeLoop e (subnetsPair s1).1 (subnetsPair s1).2 fuel
      else if subnetOfB e s2 then
        s1 :: addressExcludeLoop e (subnetsPair s2).1 (subnetsPair s2).2 fuel
      else []).length ≤ fuel + 1
    split
    · simp
    · split
      · simp
      · split
        · simp only [List.length_cons]
          have := ih (subnetsPair s1).1 (subnetsPair s1).2
          omega
        · split
          · simp only [List.length_cons]
            have := ih (subnetsPair s2).1 (subnetsPair s2).2
            omega
          · simp

theorem insertSortedB_perm (le : AnnIP → AnnIP → Bool) (x : AnnIP) (l : List AnnIP) :
    (insertSortedB le x l).Perm (x :: l) := by
  induction l with
  | nil => exact List.Perm.refl _
  | cons y ys ih =>
    unfold insertSortedB
    split
    · exact List.Perm.refl _
    · exact (List.Perm.cons y ih).trans (List.Perm.swap x y ys)

theorem sortByB_perm (le : AnnIP → AnnIP → Bool) (l : List AnnIP) :
    (sortByB le l).Perm l := by
  induction l with
  | nil => exact List.Perm.refl _
  | cons x xs ih =>
    unfold sortByB
    exact (insertSortedB_perm le x (sortByB le xs)).trans (List.Perm.cons x ih)

theorem disj_symmetric : Symmetric Disj :=
  fun _ _ h v a hc => h v a ⟨hc.2, hc.1⟩

theorem listCovers_map_mkIP (l : List AnnIP) (v a : Nat) :
    listCovers (l.map fun x => mkIP x.version x.addr x.plen) v a ↔ listCovers l v a := by
  unfold listCovers
  constructor
  · rintro ⟨p, hp, hc⟩
    obtain ⟨q, hq, hpq⟩ := List.mem_map.mp hp
    refine ⟨q, hq, ?_⟩
    rw [← hpq] at hc
    exact hc
  · rintro ⟨p, hp, hc⟩
    exact ⟨mkIP p.version p.addr p.plen, List.mem_map_of_mem _ hp, hc⟩

theorem addressExclude_spec (p e : AnnIP) (hp : Canon p) (he : Canon e)
    (hv : e.version = p.version) (hne : netEqB e p = false)
    (hsub : subnetOfB e p = true) (hnsub : subnetOfB p e = false) :
    (∀ q ∈ addressExclude p e, Canon q ∧ q.version = p.version ∧
      p.addr ≤ q.addr ∧ bcast q ≤ bcast p) ∧
    (∀ v a, listCovers (addressExclude p e) v a ↔
      (coversAddr p v a ∧ ¬ coversAddr e v a)) ∧
    (addressExclude p e).Pairwise Disj ∧
    ((addressExclude p e).map numAddrs).sum + numAddrs e = numAddrs p := by
  have hsub2 : p.addr ≤ e.addr ∧ bcast e ≤ bcast p := by
    unfold subnetOfB at hsub
    simp only [Bool.and_eq_true, beq_iff_eq, decide_eq_true_eq] at hsub
    exact ⟨hsub.1.2, hsub.2⟩
  have hbe_eq : bcast e = e.addr + numAddrs e - 1 := rfl
  have hbp_eq : bcast p = p.addr + numAddrs p - 1 := rfl
  have hNpos_e := numAddrs_pos e
  have hNpos_p := numAddrs_pos p
  have hplen : p.plen < e.plen := by
    by_contra hc
    push_neg at hc
    have hNe : numAddrs p ≤ numAddrs e := by
      unfold numAddrs
      rw [hv]
      exact pow_le_pow_iff_le.mpr (by omega)
    have h1 : e.addr = p.addr := by omega
    have h2 : numAddrs e = numAddrs p := by omega
    have h3 : (2 : Nat) ^ (width p.version - e.plen) =
        2 ^ (width p.version - p.plen) := by
      have h4 := h2
      unfold numAddrs at h4
      rw [hv] at h4
      exact h4
    have h5 : netEqB e p = true := by
      unfold netEqB netmask
      simp only [Bool.and_eq_true, beq_iff_eq]
      refine ⟨⟨hv, h1⟩, ?_⟩
      rw [hv, h3]
    rw [hne] at h5
    cases h5
  unfold addressExclude
  rw [if_neg (by rw [hne]; exact Bool.false_ne_true)]
  exact addressExcludeLoop_spec e (width p.version) p hp he hv hsub2.1 hsub2.2 hplen
    (Nat.sub_le _ _)

end Nacaddr

namespace Nacaddr

/-- Behaviour of RemoveAddressFromList on a single overlapping prefix:
the result covers exactly ip minus ex, its members are canonical
same-version subblocks of ip, it is Sep-sorted, its total size is
strictly below ip's, and it has at most width-many members. -/
theorem rfl_single_spec (ip ex : AnnIP) (hip : Canon ip) (hex : Canon ex)
    (hov : overlapsB ip ex = true) :
    (∀ q ∈ RemoveAddressFromList [ip] ex, Canon q ∧ q.version = ip.version ∧
      ip.addr ≤ q.addr ∧ bcast q ≤ bcast ip) ∧
    (∀ v a, listCovers (RemoveAddressFromList [ip] ex) v a ↔
      (coversAddr ip v a ∧ ¬ coversAddr ex v a)) ∧
    (RemoveAddressFromList [ip] ex).Chain' Sep ∧
    ((RemoveAddressFromList [ip] ex).map numAddrs).sum + 1 ≤ numAddrs ip ∧
    (RemoveAddressFromList [ip] ex).length ≤ width ip.version := by
  have hv := overlaps_version hov
  have hrng := overlaps_ranges hov
  have hbe_eq : bcast ex = ex.addr + numAddrs ex - 1 := rfl
  have hbi_eq : bcast ip = ip.addr + numAddrs ip - 1 := rfl
  have hNe := numAddrs_pos ex
  have hNi := numAddrs_pos ip
  unfold RemoveAddressFromList
  by_cases hb1 : (netEqB ex ip || subnetOfB ip ex) = true
  · have hcontained : ex.addr ≤ ip.addr ∧ bcast ip ≤ bcast ex := by
      rcases (Bool.or_eq_true _ _) ▸ hb1 with h | h
      · obtain ⟨hve2, hae2, hne2, hbe2⟩ := numAddrs_eq_of_netEq hex h
        exact ⟨by omega, by omega⟩
      · unfold subnetOfB at h
        simp only [Bool.and_eq_true, beq_iff_eq, decide_eq_true_eq] at h
        exact ⟨h.1.2, h.2⟩
    have hremove : removeAux ex [ip] = [] := by
      unfold removeAux
      rw [if_pos hb1]
      rfl
    rw [hremove]
    have hsort : sortByB keyLeB ([] : List AnnIP) = [] := rfl
    rw [hsort]
    refine ⟨?_, ?_, List.chain'_nil, ?_, ?_⟩
    · intro q hq
      exact absurd hq (List.not_mem_nil q)
    · intro v a
      rw [listCovers_nil]
      constructor
      · exact False.elim
      · rintro ⟨h1, h2⟩
        refine h2 ?_
        obtain ⟨g1, g2, g3⟩ := h1
        exact ⟨by omega, by omega, by omega⟩
    · simp only [List.map_nil, List.sum_nil]
      omega
    · simp only [List.length_nil]
      exact Nat.zero_le _
  · have hnEq : netEqB ex ip = false ∧ subnetOfB ip ex = false := by
      rcases Bool.dichotomy (netEqB ex ip) with h | h
      · rcases Bool.dichotomy (subnetOfB ip ex) with h2 | h2
        · exact ⟨h, h2⟩
        · exact absurd ((Bool.or_eq_true _ _) ▸ Or.inr h2) hb1
      · exact absurd ((Bool.or_eq_true _ _) ▸ Or.inl h) hb1
    by_cases hb2 : (ex.version == ip.version && subnetOfB ex ip) = true
    · have hsub : subnetOfB ex ip = true := ((Bool.and_eq_true _ _) ▸ hb2).2
      obtain ⟨hfacts, hcov, hpw, hsum⟩ :=
        addressExclude_spec ip ex hip hex hv.symm hnEq.1 hsub hnEq.2
      have hremove : removeAux ex [ip] =
          (addressExclude ip ex).map (fun x => mkIP x.version x.addr x.plen) := by
        unfold removeAux
        rw [if_neg hb1, if_pos hb2]
        show (addressExclude ip ex).map _ ++ removeAux ex [] = _
        rw [show removeAux ex [] = [] from rfl, List.append_nil]
      rw [hremove]
      have hfacts2 : ∀ q ∈ (addressExclude ip ex).map
          (fun x => mkIP x.version x.addr x.plen),
          Canon q ∧ q.version = ip.version ∧ ip.addr ≤ q.addr ∧ bcast q ≤ bcast ip := by
        intro q hq
        obtain ⟨q2, hq2, hEq⟩ := List.mem_map.mp hq
        obtain ⟨h1, h2, h3, h4⟩ := hfacts q2 hq2
        rw [← hEq]
        exact ⟨h1, h2, h3, h4⟩
      have hpw2 : ((addressExclude ip ex).map
          (fun x => mkIP x.version x.addr x.plen)).Pairwise Disj := by
        refine List.Pairwise.map _ ?_ hpw
        intro a b hab v x hc
        exact hab v x hc
      have hperm := sortByB_perm keyLeB ((addressExclude ip ex).map
        (fun x => mkIP x.version x.addr x.plen))
      have hsum2 : (((addressExclude ip ex).map
          (fun x => mkIP x.version x.addr x.plen)).map numAddrs).sum =
          ((addressExclude ip ex).map numAddrs).sum := by
        rw [List.map_map]
        rfl
      have hlen2 : (addressExclude ip ex).length ≤ width ip.version := by
        unfold addressExclude
        split
        · simp
        · exact length_addressExcludeLoop ex (width ip.version) _ _
      refine ⟨?_, ?_, ?_, ?_, ?_⟩
      · intro q hq
        exact hfacts2 q ((mem_sortByB keyLeB q _).mp hq)
      · intro v a
        rw [listCovers_sortByB, listCovers_map_mkIP]
        exact hcov v a
      · refine chain'_sep_of_sorted_disj _ ?_ (chain'_sortByB _) ?_
        · intro q hq
          exact (hfacts2 q ((mem_sortByB keyLeB q _).mp hq)).1
        · exact (List.Perm.pairwise_iff (fun h => disj_symmetric h) hperm).mpr hpw2
      · have he1 : ((sortByB keyLeB ((addressExclude ip ex).map
            (fun x => mkIP x.version x.addr x.plen))).map numAddrs).sum =
            (((addressExclude ip ex).map
              (fun x => mkIP x.version x.addr x.plen)).map numAddrs).sum :=
          (hperm.map numAddrs).sum_eq
        rw [he1, hsum2]
        omega
      · rw [sortByB_length, List.length_map]
        exact hlen2
    · exfalso
      have hvb : (ex.version == ip.version) = true := beq_iff_eq.mpr hv.symm
      have hnsub2 : subnetOfB ex ip = false := by
        rcases Bool.dichotomy (subnetOfB ex ip) with h | h
        · exact h
        · exact absurd (((Bool.and_eq_true _ _).symm) ▸ (⟨hvb, h⟩ : _ ∧ _)) hb2
      rcases dyadic_dichotomy hip hex hv with ⟨h1, h2⟩ | ⟨h1, h2⟩ | h1 | h1
      · have h3 : subnetOfB ex ip = true := by
          unfold subnetOfB
          simp only [Bool.and_eq_true, beq_iff_eq, decide_eq_true_eq]
          exact ⟨⟨hv.symm, h1⟩, h2⟩
        rw [hnsub2] at h3
        cases h3
      · have h3 : subnetOfB ip ex = true := by
          unfold subnetOfB
          simp only [Bool.and_eq_true, beq_iff_eq, decide_eq_true_eq]
          exact ⟨⟨hv, h1⟩, h2⟩
        rw [hnEq.2] at h3
        cases h3
      · omega
      · omega

end Nacaddr

namespace Nacaddr

theorem width_le_128 (v : Nat) : width v ≤ 128 := by
  unfold width
  split <;> norm_num

theorem listCovers_reverse (l : List AnnIP) (v a : Nat) :
    listCovers l.reverse v a ↔ listCovers l v a := by
  unfold listCovers
  constructor <;> rintro ⟨p, hp, hc⟩ <;> exact ⟨p, by simpa using hp, hc⟩

theorem not_overlaps_later_exc {ip ex e2 : AnnIP}
    (hov : overlapsB ip ex = false) (hlt : keyLtB ip ex = true) (hsep : Sep ex e2) :
    overlapsB ip e2 = false := by
  rw [keyLtB_iff] at hlt
  unfold Sep at hsep
  have h1 := addr_le_bcast ip
  have h2 := addr_le_bcast ex
  have h3 := addr_le_bcast e2
  rcases Bool.dichotomy (overlapsB ip e2) with hb | hb
  · exact hb
  · exfalso
    rw [overlapsB_iff] at hb
    have hono : ¬(ip.version = ex.version ∧ ex.addr ≤ bcast ip ∧ ip.addr ≤ bcast ex) := by
      intro hc
      have h4 := (overlapsB_iff ip ex).mpr hc
      rw [hov] at h4
      cases h4
    rcases hlt with hv | ⟨hv, ha | ⟨ha, hm⟩⟩
    · omega
    · omega
    · omega

theorem not_overlaps_later_sup {ip ex ip2 : AnnIP}
    (hov : overlapsB ip ex = false) (hnlt : keyLtB ip ex = false) (hsep : Sep ip ip2) :
    overlapsB ip2 ex = false := by
  unfold Sep at hsep
  have h1 := addr_le_bcast ip
  have h2 := addr_le_bcast ex
  have h3 := addr_le_bcast ip2
  have hnlt2 : ¬(ip.version < ex.version ∨ (ip.version = ex.version ∧
      (ip.addr < ex.addr ∨ (ip.addr = ex.addr ∧ netmask ip < netmask ex)))) := by
    rw [← keyLtB_iff]
    rw [hnlt]
    exact Bool.false_ne_true
  rcases Bool.dichotomy (overlapsB ip2 ex) with hb | hb
  · exact hb
  · exfalso
    rw [overlapsB_iff] at hb
    have hono : ¬(ip.version = ex.version ∧ ex.addr ≤ bcast ip ∧ ip.addr ≤ bcast ex) := by
      intro hc
      have h4 := (overlapsB_iff ip ex).mpr hc
      rw [hov] at h4
      cases h4
    omega

end Nacaddr

namespace Nacaddr

/-- The merge-scan of AddressListExclude: starting from canonical,
Sep-sorted stacks, the two result lists cover exactly the already
retired prefixes plus the superset stack minus the exclude stack, and
all members are canonical.  The explicit fuel dominates the iteration
count. -/
theorem alxLoop_spec :
    ∀ fuel sup exc ret,
      (∀ p ∈ sup, Canon p) → (∀ p ∈ exc, Canon p) → (∀ p ∈ ret, Canon p) →
      sup.Chain' Sep → exc.Chain' Sep →
      (exc.length + 1) * (130 * (sup.map numAddrs).sum + sup.length + 2) + 2 ≤ fuel →
      (∀ p ∈ (alxLoop fuel sup exc ret).1, Canon p) ∧
      (∀ p ∈ (alxLoop fuel sup exc ret).2, Canon p) ∧
      (∀ v a, (listCovers (alxLoop fuel sup exc ret).1 v a ∨
          listCovers (alxLoop fuel sup exc ret).2 v a) ↔
        (listCovers ret v a ∨ (listCovers sup v a ∧ ¬ listCovers exc v a))) := by
  intro fuel
  induction fuel with
  | zero =>
    intro sup exc ret _ _ _ _ _ hm
    exfalso
    omega
  | succ fuel ih =>
    intro sup exc ret hsupC hexcC hretC hsupS hexcS hm
    cases sup with
    | nil =>
      have heq : alxLoop (fuel + 1) [] exc ret = (ret, ([] : List AnnIP)) := rfl
      rw [heq]
      refine ⟨hretC, fun p hp => absurd hp (List.not_mem_nil p), ?_⟩
      intro v a
      show listCovers ret v a ∨ listCovers ([] : List AnnIP) v a ↔
        listCovers ret v a ∨ listCovers ([] : List AnnIP) v a ∧ ¬ listCovers exc v a
      rw [listCovers_nil]
      tauto
    | cons ip supRest =>
      cases exc with
      | nil =>
        have heq : alxLoop (fuel + 1) (ip :: supRest) [] ret = (ret, ip :: supRest) := rfl
        rw [heq]
        refine ⟨hretC, hsupC, ?_⟩
        intro v a
        show listCovers ret v a ∨ listCovers (ip :: supRest) v a ↔
          listCovers ret v a ∨ listCovers (ip :: supRest) v a ∧
            ¬ listCovers ([] : List AnnIP) v a
        rw [listCovers_nil]
        tauto
      | cons ex excRest =>
        have heq : alxLoop (fuel + 1) (ip :: supRest) (ex :: excRest) ret =
            (if overlapsB ip ex then
              alxLoop fuel (RemoveAddressFromList [ip] ex ++ supRest) (ex :: excRest) ret
            else if keyLtB ip ex then
              alxLoop fuel supRest (ex :: excRest) (ret ++ [ip])
            else alxLoop fuel (ip :: supRest) excRest ret) := rfl
        rw [heq]
        have hCip : Canon ip := hsupC ip (by simp)
        have hCex : Canon ex := hexcC ex (by simp)
        simp only [List.length_cons, List.map_cons, List.sum_cons] at hm
        by_cases hov : overlapsB ip ex = true
        · rw [if_pos hov]
          obtain ⟨rf1, rf2, rf3, rf4, rf5⟩ := rfl_single_spec ip ex hCip hCex hov
          have hsupC2 : ∀ p ∈ RemoveAddressFromList [ip] ex ++ supRest, Canon p := by
            intro p hp
            rcases List.mem_append.mp hp with h | h
            · exact (rf1 p h).1
            · exact hsupC p (List.mem_cons_of_mem ip h)
          have hsupS2 : (RemoveAddressFromList [ip] ex ++ supRest).Chain' Sep := by
            refine List.chain'_append.mpr ⟨rf3, (List.chain'_cons'.mp hsupS).2, ?_⟩
            intro x hx y hy
            obtain ⟨_, hxv, _, hxr⟩ := rf1 x (List.mem_of_mem_getLast? hx)
            have hsy : Sep ip y := (List.chain'_cons'.mp hsupS).1 y hy
            unfold Sep at hsy ⊢
            omega
          have hm2 : ((ex :: excRest).length + 1) *
              (130 * ((RemoveAddressFromList [ip] ex ++ supRest).map numAddrs).sum +
                (RemoveAddressFromList [ip] ex ++ supRest).length + 2) + 2 ≤ fuel := by
            simp only [List.length_cons]
            have hσ : ((RemoveAddressFromList [ip] ex ++ supRest).map numAddrs).sum =
                ((RemoveAddressFromList [ip] ex).map numAddrs).sum +
                  (supRest.map numAddrs).sum := by
              rw [List.map_append, List.sum_append]
            have hlen : (RemoveAddressFromList [ip] ex ++ supRest).length =
                (RemoveAddressFromList [ip] ex).length + supRest.length :=
              List.length_append _ _
            have hw : width ip.version ≤ 128 := width_le_128 _
            have hinner : 130 * ((RemoveAddressFromList [ip] ex ++ supRest).map
                  numAddrs).sum +
                (RemoveAddressFromList [ip] ex ++ supRest).length + 2 + 3 ≤
                130 * (numAddrs ip + (supRest.map numAddrs).sum) +
                  (supRest.length + 1) + 2 := by
              rw [hσ, hlen]
              omega
            have hble := Nat.mul_le_mul_left (excRest.length + 1 + 1) hinner
            rw [Nat.mul_add] at hble
            omega
          obtain ⟨ih1, ih2, ih3⟩ := ih (RemoveAddressFromList [ip] ex ++ supRest)
            (ex :: excRest) ret hsupC2 hexcC hretC hsupS2 hexcS hm2
          refine ⟨ih1, ih2, ?_⟩
          intro v a
          rw [ih3 v a, listCovers_append, rf2 v a, listCovers_cons ex excRest v a,
            listCovers_cons ip supRest v a]
          tauto
        · have hovf : overlapsB ip ex = false := by
            rcases Bool.dichotomy (overlapsB ip ex) with h | h
            · exact h
            · exact absurd h hov
          by_cases hlt : keyLtB ip ex = true
          · rw [if_neg hov, if_pos hlt]
            have hretC2 : ∀ p ∈ ret ++ [ip], Canon p := by
              intro p hp
              rcases List.mem_append.mp hp with h | h
              · exact hretC p h
              · rw [List.mem_singleton] at h
                subst h
                exact hCip
            have hm2 : ((ex :: excRest).length + 1) *
                (130 * (supRest.map numAddrs).sum + supRest.length + 2) + 2 ≤ fuel := by
              simp only [List.length_cons]
              have hinner : 130 * (supRest.map numAddrs).sum + supRest.length + 2 + 1 ≤
                  130 * (numAddrs ip + (supRest.map numAddrs).sum) +
                    (supRest.length + 1) + 2 := by
                have := numAddrs_pos ip
                omega
              have hble := Nat.mul_le_mul_left (excRest.length + 1 + 1) hinner
              rw [Nat.mul_add] at hble
              omega
            obtain ⟨ih1, ih2, ih3⟩ := ih supRest (ex :: excRest) (ret ++ [ip])
              (fun p hp => hsupC p (List.mem_cons_of_mem ip hp)) hexcC hretC2
              (List.chain'_cons'.mp hsupS).2 hexcS hm2
            refine ⟨ih1, ih2, ?_⟩
            intro v a
            rw [ih3 v a, listCovers_append, listCovers_cons ip ([] : List AnnIP) v a,
              listCovers_nil, listCovers_cons ip supRest v a]
            have hdis : coversAddr ip v a → ¬ listCovers (ex :: excRest) v a := by
              intro hipc hexcov
              obtain ⟨e2, he2, hce2⟩ := hexcov
              rcases List.mem_cons.mp he2 with h | h
              · subst h
                exact disj_of_not_overlaps hovf v a ⟨hipc, hce2⟩
              · have hsep := @chain'_rel_head Sep (fun a b c ha hb => sep_trans ha hb)
                  excRest ex hexcS e2 h
                exact disj_of_not_overlaps (not_overlaps_later_exc hovf hlt hsep) v a
                  ⟨hipc, hce2⟩
            tauto
          · rw [if_neg hov, if_neg hlt]
            have hltf : keyLtB ip ex = false := by
              rcases Bool.dichotomy (keyLtB ip ex) with h | h
              · exact h
              · exact absurd h hlt
            have hm2 : (excRest.length + 1) *
                (130 * ((ip :: supRest).map numAddrs).sum +
                  (ip :: supRest).length + 2) + 2 ≤ fuel := by
              simp only [List.length_cons, List.map_cons, List.sum_cons]
              have hbr : (excRest.length + 1 + 1) *
                  (130 * (numAddrs ip + (supRest.map numAddrs).sum) +
                    (supRest.length + 1) + 2) =
                  (excRest.length + 1) *
                  (130 * (numAddrs ip + (supRest.map numAddrs).sum) +
                    (supRest.length + 1) + 2) +
                  (130 * (numAddrs ip + (supRest.map numAddrs).sum) +
                    (supRest.length + 1) + 2) := by ring
              omega
            obtain ⟨ih1, ih2, ih3⟩ := ih (ip :: supRest) excRest ret hsupC
              (fun p hp => hexcC p (List.mem_cons_of_mem ex hp)) hretC hsupS
              (List.chain'_cons'.mp hexcS).2 hm2
            refine ⟨ih1, ih2, ?_⟩
            intro v a
            rw [ih3 v a, listCovers_cons ex excRest v a]
            have hdis : listCovers (ip :: supRest) v a → ¬ coversAddr ex v a := by
              intro hsc hexc1
              obtain ⟨p2, hp2, hcp2⟩ := hsc
              rcases List.mem_cons.mp hp2 with h | h
              · subst h
                exact disj_of_not_overlaps hovf v a ⟨hcp2, hexc1⟩
              · have hsep := @chain'_rel_head Sep (fun a b c ha hb => sep_trans ha hb)
                  supRest ip hsupS p2 h
                exact disj_of_not_overlaps (not_overlaps_later_sup hovf hltf hsep) v a
                  ⟨hcp2, hexc1⟩
            tauto

end Nacaddr

namespace Nacaddr

/-- C3: for canonical superset and exclude lists, an address is covered
by AddressListExclude(superset, excludes) exactly when it is covered by
the superset and by no exclude; the 10.0.0.0/8 minus 10.1.0.0/16 example
is the instance checked in the witness. -/
theorem claim_C3_exclude_exact (A E : List AnnIP)
    (hA : ∀ p ∈ A, Canon p) (hE : ∀ p ∈ E, Canon p) (v a : Nat) :
    listCovers (AddressListExclude A E true) v a ↔
      (listCovers A v a ∧ ¬ listCovers E v a) := by
  obtain ⟨hAc, hAcov⟩ := collapse_covers_canon A hA
  obtain ⟨hEc, hEcov⟩ := collapse_covers_canon E hE
  have hAsep := collapse_sep A hA
  have hEsep := collapse_sep E hE
  have hfuel_eq : alxFuel (CollapseAddrList A []) (CollapseAddrList E []) =
      ((CollapseAddrList E []).length + 1) *
        (130 * ((CollapseAddrList A []).map numAddrs).sum +
          (CollapseAddrList A []).length + 2) + 2 := rfl
  obtain ⟨h1, h2, h3⟩ := alxLoop_spec
    (alxFuel (CollapseAddrList A []) (CollapseAddrList E []))
    (CollapseAddrList A []) (CollapseAddrList E []) [] hAc hEc
    (fun p hp => absurd hp (List.not_mem_nil p)) hAsep hEsep
    (le_of_eq hfuel_eq.symm)
  show listCovers (CollapseAddrList
      ((alxLoop (alxFuel (CollapseAddrList A []) (CollapseAddrList E []))
        (CollapseAddrList A []) (CollapseAddrList E []) []).1 ++
       (alxLoop (alxFuel (CollapseAddrList A []) (CollapseAddrList E []))
        (CollapseAddrList A []) (CollapseAddrList E []) []).2.reverse) []) v a ↔
    (listCovers A v a ∧ ¬ listCovers E v a)
  have hcanon_mix : ∀ p ∈ (alxLoop (alxFuel (CollapseAddrList A [])
      (CollapseAddrList E [])) (CollapseAddrList A []) (CollapseAddrList E []) []).1 ++
      (alxLoop (alxFuel (CollapseAddrList A []) (CollapseAddrList E []))
        (CollapseAddrList A []) (CollapseAddrList E []) []).2.reverse, Canon p := by
    intro p hp
    rcases List.mem_append.mp hp with h | h
    · exact h1 p h
    · exact h2 p (List.mem_reverse.mp h)
  obtain ⟨_, hmixcov⟩ := collapse_covers_canon _ hcanon_mix
  rw [hmixcov v a, listCovers_append, listCovers_reverse, h3 v a, listCovers_nil,
    hAcov v a, hEcov v a]
  tauto

end Nacaddr

namespace Nacaddr

theorem claim_C3_exclude_exact_witness :
    (∀ p ∈ ([⟨4, 167772160, 8, "", "", ""⟩] : List AnnIP), Canon p) ∧
    (∀ p ∈ ([⟨4, 167837696, 16, "", "", ""⟩] : List AnnIP), Canon p) ∧
    (listCovers (AddressListExclude [⟨4, 167772160, 8, "", "", ""⟩]
        [⟨4, 167837696, 16, "", "", ""⟩] true) 4 167837697 ↔
      (listCovers [⟨4, 167772160, 8, "", "", ""⟩] 4 167837697 ∧
        ¬ listCovers [⟨4, 167837696, 16, "", "", ""⟩] 4 167837697)) :=
  ⟨by decide, by decide, claim_C3_exclude_exact _ _ (by decide) (by decide) 4 167837697⟩

end Nacaddr
